import Mathlib

/-!
Verification of the umm_malloc block allocator
(src/src/libc/umm_malloc/umm_malloc.c) against its natural-language
specification.

The heap is modelled at byte granularity: a state carries the heap memory
as a function from byte offsets to byte values together with the block
count.  All 16-bit header fields (next_block, prev_block, next_free,
prev_free) are read and written little-endian through the byte map, so the
union overlay of the C code (free-list links and continuation-block
headers physically occupying user data bytes) is represented faithfully.

Bitwise operations of the C source on uint16 values are expressed
arithmetically: x AND 0x7FFF is x % 32768, x OR 0x8000 on a masked value
is the sum with 32768, and testing the 0x8000 bit of a value below 65536
is the comparison 32768 <= x.

The configuration header umm_malloc_cfg.h is not part of the repository.
Modelled from the spec: UMM_BLOCK_BODY_SIZE (the block size B) is kept as
a parameter of umm_blocks and fixed to 8 in the heap operations, the
value used by the specification scenarios; the fit policy (UMM_BEST_FIT
versus UMM_FIRST_FIT, both branches present in the source) is a parameter;
size_t is 32 bits wide (wasm32 target).
-/

/-- Policy selects which of the two compile-time fit strategies of
umm_malloc_core is active (UMM_BEST_FIT or UMM_FIRST_FIT). -/
inductive Policy where
  | bestFit : Policy
  | firstFit : Policy
deriving DecidableEq, Repr

/-- Heap state: memory as a byte map plus the block count
(umm_heap_current.numblocks, a uint16). Offsets are relative to the heap
base pointer. -/
structure HeapState where
  mem : Nat → Nat
  numblocks : Nat

/-- Read one byte. -/
def rd8 (s : HeapState) (a : Nat) : Nat := s.mem a % 256

/-- Write one byte. -/
def wr8 (s : HeapState) (a v : Nat) : HeapState :=
  { s with mem := fun b => if b = a then v else s.mem b }

/-- Read a little-endian 16-bit value at byte offset a. -/
def rd16 (s : HeapState) (a : Nat) : Nat := rd8 s a + 256 * rd8 s (a + 1)

/-- Write a little-endian 16-bit value at byte offset a (stores truncate
to 16 bits, as assignment to a uint16 field does). -/
def wr16 (s : HeapState) (a v : Nat) : HeapState :=
  wr8 (wr8 s a (v % 256)) (a + 1) (v / 256 % 256)

/-- UMM_BLOCKNO_MASK: the low 15 bits of a next_block field, x AND 0x7FFF. -/
def BLOCKNO_MASK (x : Nat) : Nat := x % 32768

/-- Bitwise OR of a uint16 value with a freemask argument that is either 0
or 0x8000 (the only values the source ever passes). -/
def orFreemask (x m : Nat) : Nat := if m = 0 then x else BLOCKNO_MASK x + 32768

/-- Subtraction of two uint16 values as the C integer conversion performs
it: the difference reduced modulo 2^16. -/
def usub16 (a b : Nat) : Nat := (a + 65536 - b % 65536) % 65536

/-- Subtraction with the result converted to a 32-bit size_t, for the
size computations of umm_realloc and umm_info. -/
def usub32 (a b : Nat) : Nat := (a + 4294967296 - b % 4294967296) % 4294967296

/-- UMM_NBLOCK(b): the next_block field of block b (bytes 0-1 of the block). -/
def nblock (s : HeapState) (b : Nat) : Nat := rd16 s (8 * b)

/-- UMM_PBLOCK(b): the prev_block field of block b (bytes 2-3 of the block). -/
def pblock (s : HeapState) (b : Nat) : Nat := rd16 s (8 * b + 2)

/-- UMM_NFREE(b): the next_free field of block b (bytes 4-5 of the block). -/
def nfree (s : HeapState) (b : Nat) : Nat := rd16 s (8 * b + 4)

/-- UMM_PFREE(b): the prev_free field of block b (bytes 6-7 of the block). -/
def pfree (s : HeapState) (b : Nat) : Nat := rd16 s (8 * b + 6)

/-- Store into UMM_NBLOCK(b). -/
def setNblock (s : HeapState) (b v : Nat) : HeapState := wr16 s (8 * b) v

/-- Store into UMM_PBLOCK(b). -/
def setPblock (s : HeapState) (b v : Nat) : HeapState := wr16 s (8 * b + 2) v

/-- Store into UMM_NFREE(b). -/
def setNfree (s : HeapState) (b v : Nat) : HeapState := wr16 s (8 * b + 4) v

/-- Store into UMM_PFREE(b). -/
def setPfree (s : HeapState) (b v : Nat) : HeapState := wr16 s (8 * b + 6) v

/-- umm_blocks: number of blocks needed for a request of size bytes, with
block size B (body bytes B - 4, UMM_BLOCKSIZE = B), clamped at INT16_MAX. -/
def umm_blocks (B size : Nat) : Nat :=
  if size ≤ B - 4 then 1
  else
    let size2 := size - (B - 4)
    let blocks := 2 + (size2 - 1) / B
    if blocks > 32767 then 32767 else blocks

/-- Sequential byte store used to model memset, memcpy and memmove. -/
def writeBytes : HeapState → Nat → List Nat → HeapState
  | s, _, [] => s
  | s, a, b :: bs => writeBytes (wr8 s a b) (a + 1) bs

/-- Read n consecutive bytes starting at offset a. -/
def readBytes (s : HeapState) (a n : Nat) : List Nat :=
  (List.range n).map (fun i => rd8 s (a + i))

/-- The memmove of the C library at byte granularity: the source bytes are
read in full before any is written, which is also the behaviour of memcpy
on the non-overlapping ranges the allocator passes to it. -/
def memmove (s : HeapState) (dst src n : Nat) : HeapState :=
  writeBytes s dst (readBytes s src n)

/-- The memset of the C library at byte granularity. -/
def memset (s : HeapState) (a v n : Nat) : HeapState :=
  writeBytes s a (List.replicate n v)

/-- umm_split_block: split block c so that its first blocks sub-blocks
remain at c and the remainder starts at c + blocks; new_freemask (0 or
0x8000) is stamped on the tail. Free pointers are not modified. -/
def umm_split_block (s : HeapState) (c blocks new_freemask : Nat) : HeapState :=
  let s1 := setNblock s (c + blocks)
    (orFreemask (BLOCKNO_MASK (nblock s c)) new_freemask)
  let s2 := setPblock s1 (c + blocks) c
  let s3 := setPblock s2 (BLOCKNO_MASK (nblock s2 c)) (c + blocks)
  setNblock s3 c (c + blocks)

/-- umm_disconnect_from_free_list: take c off the free ring and clear its
free flag. -/
def umm_disconnect_from_free_list (s : HeapState) (c : Nat) : HeapState :=
  let s1 := setNfree s (pfree s c) (nfree s c)
  let s2 := setPfree s1 (nfree s1 c) (pfree s1 c)
  setNblock s2 c (BLOCKNO_MASK (nblock s2 c))

/-- umm_assimilate_up: if the next block of c is free, unlink it from the
free ring and fold it into c. -/
def umm_assimilate_up (s : HeapState) (c : Nat) : HeapState :=
  if 32768 ≤ nblock s (nblock s c) then
    let s1 := umm_disconnect_from_free_list s (nblock s c)
    let s2 := setPblock s1 (BLOCKNO_MASK (nblock s1 (nblock s1 c))) c
    setNblock s2 c (BLOCKNO_MASK (nblock s2 (nblock s2 c)))
  else s

/-- umm_assimilate_down: unconditionally fold c into its chain
predecessor, stamping freemask; returns the enlarged predecessor index
together with the new state. -/
def umm_assimilate_down (s : HeapState) (c freemask : Nat) : Nat × HeapState :=
  let s1 := setNblock s (pblock s c) (orFreemask (nblock s c) freemask)
  let s2 := setPblock s1 (nblock s1 c) (pblock s1 c)
  (pblock s2 c, s2)

/-- umm_init_heap over a region of the given byte size: zero the region,
set numblocks, link block 0 to block 1, make block 1 one huge free block
ending at the last block, and backlink the last block. -/
def umm_init_heap (size : Nat) : HeapState :=
  let nb := size / 8 % 65536
  let s0 : HeapState := { mem := fun _ => 0, numblocks := nb }
  let s1 := setNblock s0 0 1
  let s2 := setNfree s1 0 1
  let s3 := setPfree s2 0 1
  let s4 := setNblock s3 1 (orFreemask (nb - 1) 32768)
  setPblock s4 (nb - 1) 1

/-- umm_free_core: locate the block of ptr, assimilate up, then either
assimilate down into a free predecessor or insert at the head of the free
ring and set the free flag. -/
def umm_free_core (s : HeapState) (ptr : Nat) : HeapState :=
  let c := ptr / 8
  let s1 := umm_assimilate_up s c
  if 32768 ≤ nblock s1 (pblock s1 c) then
    (umm_assimilate_down s1 c 32768).2
  else
    let s2 := setPfree s1 (nfree s1 0) c
    let s3 := setNfree s2 c (nfree s2 0)
    let s4 := setPfree s3 c 0
    let s5 := setNfree s4 0 c
    setNblock s5 c (orFreemask (nblock s5 c) 32768)

/-- umm_free: the public wrapper, a no-op on a null pointer. -/
def umm_free (s : HeapState) (ptr : Option Nat) : HeapState :=
  match ptr with
  | none => s
  | some p => umm_free_core s p

/-- Free-ring scan of umm_malloc_core: carries the current node cf, the
running blockSize, and the best-fit candidates bestBlock and bestSize.
The fuel argument only bounds the walk; 65536 exceeds every index value a
16-bit link can hold. -/
def mallocLoop (s : HeapState) (pol : Policy) (blocks : Nat) :
    Nat → Nat → Nat → Nat → Nat → Nat × Nat × Nat × Nat
  | 0, cf, blockSize, bestBlock, bestSize => (cf, blockSize, bestBlock, bestSize)
  | fuel + 1, cf, blockSize, bestBlock, bestSize =>
    if cf = 0 then (cf, blockSize, bestBlock, bestSize)
    else
      let bs := usub16 (BLOCKNO_MASK (nblock s cf)) cf
      match pol with
      | .bestFit =>
        if blocks ≤ bs ∧ bs < bestSize then
          mallocLoop s pol blocks fuel (nfree s cf) bs cf bs
        else
          mallocLoop s pol blocks fuel (nfree s cf) bs bestBlock bestSize
      | .firstFit =>
        if blocks ≤ bs then (cf, bs, bestBlock, bestSize)
        else mallocLoop s pol blocks fuel (nfree s cf) bs bestBlock bestSize

/-- Split branch of umm_malloc_core: split the candidate cf, then patch
the ring pointers around the tail cf + blocks, in the source statement
order. -/
def umm_malloc_split_branch (s : HeapState) (cf blocks : Nat) : HeapState :=
  let s1 := umm_split_block s cf blocks 32768
  let s2 := setNfree s1 (pfree s1 cf) (cf + blocks)
  let s3 := setPfree s2 (cf + blocks) (pfree s2 cf)
  let s4 := setPfree s3 (nfree s3 cf) (cf + blocks)
  setNfree s4 (cf + blocks) (nfree s4 cf)

/-- umm_malloc_core: scan the free ring, then either disconnect an exact
fit or split a larger block and patch the ring around the tail; returns
the body offset 8 cf + 4 on success and none on out-of-memory, in which
case the state is untouched. -/
def umm_malloc_core (s : HeapState) (size : Nat) (pol : Policy) :
    Option Nat × HeapState :=
  let blocks := umm_blocks 8 size
  let cf0 := nfree s 0
  let r := mallocLoop s pol blocks 65536 cf0 0 cf0 32767
  let cf := if r.2.2.2 ≠ 32767 then r.2.2.1 else r.1
  let blockSize := if r.2.2.2 ≠ 32767 then r.2.2.2 else r.2.1
  if BLOCKNO_MASK (nblock s cf) ≠ 0 ∧ blocks ≤ blockSize then
    if blockSize = blocks then
      (some (8 * cf + 4), umm_disconnect_from_free_list s cf)
    else
      (some (8 * cf + 4), umm_malloc_split_branch s cf blocks)
  else (none, s)

/-- umm_malloc: the public wrapper; a zero size returns null untouched. -/
def umm_malloc (s : HeapState) (size : Nat) (pol : Policy) :
    Option Nat × HeapState :=
  if size = 0 then (none, s) else umm_malloc_core s size pol

/-- umm_realloc: null pointer defers to malloc, zero size defers to free;
otherwise the six-case decision over the previous and next neighbour
sizes, followed by a split-and-free when the resulting extent strictly
exceeds the request. -/
def umm_realloc (s : HeapState) (ptr : Option Nat) (size : Nat)
    (pol : Policy) : Option Nat × HeapState :=
  match ptr with
  | none => umm_malloc s size pol
  | some p =>
    if size = 0 then (none, umm_free s (some p))
    else
      let blocks := umm_blocks 8 size
      let c := p / 8
      let blockSize := usub16 (nblock s c) c
      let curSize := usub32 (blockSize * 8) 4
      let nextBlockSize :=
        if 32768 ≤ nblock s (nblock s c) then
          usub16 (BLOCKNO_MASK (nblock s (nblock s c))) (nblock s c)
        else 0
      let prevBlockSize :=
        if 32768 ≤ nblock s (pblock s c) then usub16 c (pblock s c) else 0
      let res : Option Nat × Nat × Nat × HeapState :=
        if blocks ≤ blockSize then
          (some p, c, blockSize, s)
        else if blockSize + nextBlockSize = blocks then
          (some p, c, (blockSize + nextBlockSize) % 65536, umm_assimilate_up s c)
        else if prevBlockSize = 0 ∧ blocks ≤ blockSize + nextBlockSize then
          (some p, c, (blockSize + nextBlockSize) % 65536, umm_assimilate_up s c)
        else if blocks ≤ prevBlockSize + blockSize then
          let s1 := umm_disconnect_from_free_list s (pblock s c)
          let cs := umm_assimilate_down s1 c 0
          let s2 := memmove cs.2 (8 * cs.1 + 4) p curSize
          (some (8 * cs.1 + 4), cs.1, (blockSize + prevBlockSize) % 65536, s2)
        else if blocks ≤ prevBlockSize + blockSize + nextBlockSize then
          let s1 := umm_assimilate_up s c
          let s2 := umm_disconnect_from_free_list s1 (pblock s1 c)
          let cs := umm_assimilate_down s2 c 0
          let s3 := memmove cs.2 (8 * cs.1 + 4) p curSize
          (some (8 * cs.1 + 4), cs.1,
            (blockSize + (prevBlockSize + nextBlockSize)) % 65536, s3)
        else
          match umm_malloc_core s size pol with
          | (some newp, s1) =>
            let s2 := memmove s1 newp p curSize
            (some newp, c, blocks, umm_free_core s2 p)
          | (none, s1) => (none, c, blocks, s1)
      let c2 := res.2.1
      let blockSize2 := res.2.2.1
      let sFin := res.2.2.2
      if blocks < blockSize2 then
        let sA := umm_split_block sFin c2 blocks 0
        (res.1, umm_free_core sA (8 * (c2 + blocks) + 4))
      else (res.1, sFin)

/-- umm_calloc: the request size is the product reduced modulo 2^32
(size_t on the wasm32 target); on success the region is zeroed over that
same reduced size. -/
def umm_calloc (s : HeapState) (num item_size : Nat) (pol : Policy) :
    Option Nat × HeapState :=
  let size := item_size * num % 4294967296
  match umm_malloc s size pol with
  | (some p, s1) => (some p, memset s1 p 0 size)
  | (none, s1) => (none, s1)

/-- Accumulator record of umm_info (the ummHeapInfo global). -/
structure HeapInfo where
  totalEntries : Nat
  usedEntries : Nat
  freeEntries : Nat
  totalBlocks : Nat
  usedBlocks : Nat
  freeBlocks : Nat
  freeBlocksSquared : Nat
  maxFreeContiguousBlocks : Nat
deriving DecidableEq, Repr

/-- Chain walk of umm_info: accumulates entry and block counts and
returns the probe pointer early when it matches the address of a free
block header. -/
def umm_info_loop (s : HeapState) (ptr : Option Nat) :
    Nat → Nat → HeapInfo → Option Nat × HeapInfo
  | 0, _, info => (none, info)
  | fuel + 1, blockNo, info =>
    if BLOCKNO_MASK (nblock s blockNo) = 0 then (none, info)
    else
      let curBlocks := usub32 (BLOCKNO_MASK (nblock s blockNo)) blockNo
      let info1 := { info with totalEntries := info.totalEntries + 1,
                               totalBlocks := info.totalBlocks + curBlocks }
      if 32768 ≤ nblock s blockNo then
        let info2 := { info1 with
          freeEntries := info1.freeEntries + 1,
          freeBlocks := info1.freeBlocks + curBlocks,
          freeBlocksSquared := info1.freeBlocksSquared + curBlocks * curBlocks,
          maxFreeContiguousBlocks := max info1.maxFreeContiguousBlocks curBlocks }
        if ptr = some (8 * blockNo) then (ptr, info2)
        else umm_info_loop s ptr fuel (BLOCKNO_MASK (nblock s blockNo)) info2
      else
        let info2 := { info1 with
          usedEntries := info1.usedEntries + 1,
          usedBlocks := info1.usedBlocks + curBlocks }
        umm_info_loop s ptr fuel (BLOCKNO_MASK (nblock s blockNo)) info2

/-- umm_info: zero the record and walk the chain from the successor of
block 0. -/
def umm_info (s : HeapState) (ptr : Option Nat) : Option Nat × HeapInfo :=
  umm_info_loop s ptr 65536 (BLOCKNO_MASK (nblock s 0))
    { totalEntries := 0, usedEntries := 0, freeEntries := 0, totalBlocks := 0,
      usedBlocks := 0, freeBlocks := 0, freeBlocksSquared := 0,
      maxFreeContiguousBlocks := 0 }

/-- compute_usage_metric: minus one when no free blocks remain, otherwise
the integer quotient of 100 times the used blocks by the free blocks. -/
def compute_usage_metric (info : HeapInfo) : Int :=
  if info.freeBlocks = 0 then -1
  else (info.usedBlocks * 100 / info.freeBlocks : Nat)

/-- Largest k below the second argument with k * k at most n. -/
def isqrtAux (n : Nat) : Nat → Nat
  | 0 => 0
  | k + 1 => if (k + 1) * (k + 1) ≤ n then k + 1 else isqrtAux n k

/-- Integer square root, the floor of the real square root. The sqrtf of
the source is a binary32 square root; the two agree whenever the argument
is a perfect square, which is the case at every input a claim evaluates. -/
def isqrt (n : Nat) : Nat := isqrtAux n n

/-- compute_fragmentation_metric. -/
def compute_fragmentation_metric (info : HeapInfo) : Int :=
  if info.freeBlocks = 0 then 0
  else (100 : Int) - (isqrt info.freeBlocksSquared * 100 / info.freeBlocks : Nat)

/-- umm_free_heap_size: free blocks of a fresh umm_info walk, times the
block size. -/
def umm_free_heap_size (s : HeapState) : Nat :=
  (umm_info s none).2.freeBlocks * 8

/-- Block-chain walk from a starting block: the successor indices, in
order, up to and including the terminal block (whose masked next_block is
zero). Fuel bounds the walk; 65536 exceeds any 15-bit index. -/
def chainAux (s : HeapState) : Nat → Nat → List Nat
  | 0, _ => []
  | fuel + 1, b =>
    let n := BLOCKNO_MASK (nblock s b)
    if n = 0 then [] else n :: chainAux s fuel n

/-- All chain blocks reachable from the sentinel block 0, the terminal
block included. -/
def chainList (s : HeapState) : List Nat := chainAux s 65536 0

/-- Free-ring walk along next_free links from a starting block. -/
def ringAux (s : HeapState) : Nat → Nat → List Nat
  | 0, _ => []
  | fuel + 1, b =>
    let n := nfree s b
    if n = 0 then [] else n :: ringAux s fuel n

/-- All blocks on the free ring anchored at block 0. -/
def ringList (s : HeapState) : List Nat := ringAux s 65536 0

/-- Free runs of the heap: the chain blocks whose free flag is set,
paired with their extent in blocks. Under the no-adjacent-free-blocks
discipline these are exactly the maximal free extents. -/
def freeRuns (s : HeapState) : List (Nat × Nat) :=
  ((chainList s).filter (fun b => decide (32768 ≤ nblock s b))).map
    (fun b => (b, BLOCKNO_MASK (nblock s b) - b))

/-- Check that L is exactly the well-formed block chain continuing from
b: each step follows the masked next_block link, ascends strictly, stays
below numblocks, has a correct prev_block backlink, and the terminal
block is the last block of the heap. -/
def isChainB (s : HeapState) : Nat → List Nat → Bool
  | b, [] =>
    decide (BLOCKNO_MASK (nblock s b) = 0) && decide (b = s.numblocks - 1)
  | b, x :: L =>
    decide (BLOCKNO_MASK (nblock s b) = x) && decide (b < x) &&
      decide (x < s.numblocks) && decide (pblock s x = b) && isChainB s x L

/-- Check that L is exactly the well-formed free ring continuing from b:
each step follows the next_free link, visits nonzero blocks below
numblocks with correct prev_free backlinks, and ends at the 0
terminator. -/
def isRingB (s : HeapState) : Nat → List Nat → Bool
  | b, [] => decide (nfree s b = 0)
  | b, x :: L =>
    decide (nfree s b = x) && decide (x ≠ 0) && decide (x < s.numblocks) &&
      decide (pfree s x = b) && isRingB s x L

/-- Structural heap invariant maintained between operations: sentinel
bounds, a well-formed ascending backlinked chain from block 0 ending at
the last block, a well-formed free ring without duplicates, flag
coherence (a chain block carries the free flag exactly when it is on the
ring, the ring contains only chain blocks, block 0 and the last block are
never free), and no two chain-adjacent free blocks. -/
def HeapInv (s : HeapState) : Prop :=
  2 ≤ s.numblocks ∧ s.numblocks ≤ 32767 ∧
  isChainB s 0 (chainList s) = true ∧
  isRingB s 0 (ringList s) = true ∧
  (ringList s).Nodup ∧
  nblock s 0 < 32768 ∧
  nblock s (s.numblocks - 1) < 32768 ∧
  (∀ x ∈ chainList s, (32768 ≤ nblock s x ↔ x ∈ ringList s)) ∧
  (∀ x ∈ ringList s, x ∈ chainList s) ∧
  (∀ x ∈ chainList s, 32768 ≤ nblock s x →
    nblock s (BLOCKNO_MASK (nblock s x)) < 32768)

instance decHeapInv (s : HeapState) : Decidable (HeapInv s) := by
  unfold HeapInv
  infer_instance

/-- Insert w right after the first occurrence of v in a list (helper for
describing the block chain after a split inserts the tail block). -/
def insertAfterL (v w : Nat) : List Nat → List Nat
  | [] => []
  | x :: L => if x = v then x :: w :: L else x :: insertAfterL v w L

/-- A pointer argument the allocator may legally receive from client code:
null, or the body address of an allocated (used, non-terminal) chain
block, exactly what malloc hands out. -/
def ValidPtr (s : HeapState) (ptr : Option Nat) : Prop :=
  match ptr with
  | none => True
  | some p => ∃ c, c ∈ chainList s ∧ p = 8 * c + 4 ∧ nblock s c < 32768 ∧
      BLOCKNO_MASK (nblock s c) ≠ 0

/-- Heap states reachable from umm_init_heap through any sequence of
allocate, free and reallocate calls whose pointer arguments are null or
currently allocated pointers. The init size must provide at least three
blocks and at most the 32767 a 15-bit index addresses. -/
inductive Reach : HeapState → Prop
  | init (size : Nat) (h3 : 3 ≤ size / 8 % 65536)
      (h15 : size / 8 % 65536 ≤ 32767) : Reach (umm_init_heap size)
  | mallocStep (s : HeapState) (size : Nat) (pol : Policy) (h : Reach s) :
      Reach (umm_malloc s size pol).2
  | freeStep (s : HeapState) (ptr : Option Nat) (h : Reach s)
      (hv : ValidPtr s ptr) : Reach (umm_free s ptr)
  | reallocStep (s : HeapState) (ptr : Option Nat) (size : Nat)
      (pol : Policy) (h : Reach s) (hv : ValidPtr s ptr) :
      Reach (umm_realloc s ptr size pol).2

/-- Claim C5: allocate of size zero and zero-allocate with count zero
return null leaving the heap unchanged, reallocate of a non-null pointer
to size zero frees it and returns null, free of null is a no-op, and
reallocate of null behaves as allocate. -/
theorem C5_degenerate_inputs :
    (∀ s pol, umm_malloc s 0 pol = (none, s)) ∧
    (∀ s item pol, umm_calloc s 0 item pol = (none, s)) ∧
    (∀ s p pol, umm_realloc s (some p) 0 pol = (none, umm_free s (some p))) ∧
    (∀ s, umm_free s none = s) ∧
    (∀ s size pol, umm_realloc s none size pol = umm_malloc s size pol) := by
  refine ⟨fun s pol => rfl, fun s item pol => ?_, fun s p pol => rfl,
    fun s => rfl, fun s size pol => rfl⟩
  simp [umm_calloc, umm_malloc]

/-- Failure of umm_malloc_core leaves the state untouched: every mutation
in the source sits inside the success branch. -/
theorem umm_malloc_core_fail_eq (s : HeapState) (size : Nat) (pol : Policy)
    (h : (umm_malloc_core s size pol).1 = none) :
    umm_malloc_core s size pol = (none, s) := by
  unfold umm_malloc_core at h ⊢
  dsimp only at h ⊢
  split_ifs at h ⊢ <;> simp_all

/-- Claim C2: when a reallocation of a non-null pointer to a non-zero
size falls into case 6 (the combined previous, current and next extents
cannot cover the request) and the fresh core allocation fails, the
reallocation returns null with the heap state identical to the state
before the call: the original block is untouched and the pointer stays
valid. -/
theorem C2_case6_oom_rollback (s : HeapState) (p size : Nat) (pol : Policy)
    (hsz : 0 < size)
    (hcase6 :
      (if 32768 ≤ nblock s (pblock s (p / 8))
        then usub16 (p / 8) (pblock s (p / 8)) else 0) +
      usub16 (nblock s (p / 8)) (p / 8) +
      (if 32768 ≤ nblock s (nblock s (p / 8))
        then usub16 (BLOCKNO_MASK (nblock s (nblock s (p / 8))))
          (nblock s (p / 8)) else 0) < umm_blocks 8 size)
    (hfail : (umm_malloc_core s size pol).1 = none) :
    umm_realloc s (some p) size pol = (none, s) := by
  have hmc := umm_malloc_core_fail_eq s size pol hfail
  unfold umm_realloc
  dsimp only
  rw [if_neg (by omega : ¬ size = 0)]
  set prevV := (if 32768 ≤ nblock s (pblock s (p / 8))
    then usub16 (p / 8) (pblock s (p / 8)) else 0) with hprevV
  set bsV := usub16 (nblock s (p / 8)) (p / 8) with hbsV
  set nextV := (if 32768 ≤ nblock s (nblock s (p / 8))
    then usub16 (BLOCKNO_MASK (nblock s (nblock s (p / 8))))
      (nblock s (p / 8)) else 0) with hnextV
  rw [if_neg (by omega : ¬ umm_blocks 8 size ≤ bsV),
    if_neg (by omega : ¬ bsV + nextV = umm_blocks 8 size),
    if_neg (by omega : ¬ (prevV = 0 ∧ umm_blocks 8 size ≤ bsV + nextV)),
    if_neg (by omega : ¬ umm_blocks 8 size ≤ prevV + bsV),
    if_neg (by omega : ¬ umm_blocks 8 size ≤ prevV + bsV + nextV),
    hmc]
  simp

/-- Claim C2 witness: a 128-byte heap filled by five allocations has no
free block left; reallocating the first allocation (three blocks at
offset 12) to 40 bytes needs six blocks, falls into case 6, the core
allocation fails, and the call returns null leaving the state equal. -/
theorem C2_case6_oom_rollback_witness :
    0 < 40 ∧
    (umm_realloc
      (umm_malloc (umm_malloc (umm_malloc (umm_malloc (umm_malloc
        (umm_init_heap 128) 20 Policy.bestFit).2 20 Policy.bestFit).2
        20 Policy.bestFit).2 20 Policy.bestFit).2 12 Policy.bestFit).2
      (some 12) 40 Policy.bestFit) =
    (none,
      (umm_malloc (umm_malloc (umm_malloc (umm_malloc (umm_malloc
        (umm_init_heap 128) 20 Policy.bestFit).2 20 Policy.bestFit).2
        20 Policy.bestFit).2 20 Policy.bestFit).2 12 Policy.bestFit).2) :=
  ⟨by decide,
    C2_case6_oom_rollback _ 12 40 Policy.bestFit (by decide) (by decide)
      (by decide)⟩

/-- Claim C8 counterexample: immediately after umm_init_heap on a
128-byte region the usage metric is 0 (zero used blocks over fourteen
free blocks), not the claimed -1; -1 is produced only when no free block
remains. -/
theorem C8_counterexample :
    compute_usage_metric (umm_info (umm_init_heap 128) none).2 = 0 ∧
      compute_usage_metric (umm_info (umm_init_heap 128) none).2 ≠ -1 := by
  constructor
  · decide
  · decide

/-- Claim C8 (amended): with block size 8 and a 128-byte heap (16
blocks), immediately after umm_init_heap there is exactly one free run of
14 blocks starting at block 1, umm_free_heap_size gives 112, the
fragmentation metric is 0, and the usage metric is 0 (not -1). -/
theorem C8_amended :
    (umm_init_heap 128).numblocks = 16 ∧
    freeRuns (umm_init_heap 128) = [(1, 14)] ∧
    umm_free_heap_size (umm_init_heap 128) = 112 ∧
    compute_fragmentation_metric (umm_info (umm_init_heap 128) none).2 = 0 ∧
    compute_usage_metric (umm_info (umm_init_heap 128) none).2 = 0 := by
  refine ⟨by decide, by decide, by decide, by decide, by decide⟩

/-- Claim C9 counterexample: after allocating 5 bytes from a fresh
128-byte heap, block 1 is a chain block and offset 8 is the address of
its header, yet umm_info probed with 8 returns null because block 1 is
used; the probe only matches free block headers. This holds under both
fit policies. -/
theorem C9_counterexample :
    (1 ∈ chainList (umm_malloc (umm_init_heap 128) 5 Policy.bestFit).2 ∧
      (umm_info (umm_malloc (umm_init_heap 128) 5 Policy.bestFit).2
        (some 8)).1 = none) ∧
    (1 ∈ chainList (umm_malloc (umm_init_heap 128) 5 Policy.firstFit).2 ∧
      (umm_info (umm_malloc (umm_init_heap 128) 5 Policy.firstFit).2
        (some 8)).1 = none) := by
  refine ⟨⟨by decide, by decide⟩, ⟨by decide, by decide⟩⟩

/-- Claim C6 counterexample: allocate 20 bytes (three blocks, usable
byte count 20) from a fresh 128-byte heap, then reallocate the pointer
(offset 12) down to 1 byte. The pointer is returned unchanged, but byte
17 of the heap, inside the first 20 bytes of the old contents, changes
from 0 to 128: the freed tail block header is written over the old data.
Both fit policies exhibit it. -/
theorem C6_counterexample :
    (usub16 (nblock (umm_malloc (umm_init_heap 128) 20 Policy.bestFit).2 1) 1
        * 8 - 4 = 20 ∧
      (umm_realloc (umm_malloc (umm_init_heap 128) 20 Policy.bestFit).2
        (some 12) 1 Policy.bestFit).1 = some 12 ∧
      rd8 (umm_malloc (umm_init_heap 128) 20 Policy.bestFit).2 17 = 0 ∧
      rd8 (umm_realloc (umm_malloc (umm_init_heap 128) 20 Policy.bestFit).2
        (some 12) 1 Policy.bestFit).2 17 = 128) ∧
    (umm_realloc (umm_malloc (umm_init_heap 128) 20 Policy.firstFit).2
        (some 12) 1 Policy.firstFit).1 = some 12 ∧
      rd8 (umm_realloc (umm_malloc (umm_init_heap 128) 20 Policy.firstFit).2
        (some 12) 1 Policy.firstFit).2 17 = 128 := by
  refine ⟨⟨by decide, by decide, by decide, by decide⟩, by decide, by decide⟩

/-- Claim C7 counterexample: allocating 1 byte from a fresh 128-byte heap
returns body offset 12, which is not aligned to the block size 8 (it sits
4 bytes past the 8-aligned block start), under both fit policies. -/
theorem C7_counterexample :
    ((umm_malloc (umm_init_heap 128) 1 Policy.bestFit).1 = some 12 ∧
      (umm_malloc (umm_init_heap 128) 1 Policy.firstFit).1 = some 12) ∧
    12 % 8 ≠ 0 := by
  refine ⟨⟨by decide, by decide⟩, by decide⟩

/-- Claim C10: umm_calloc reduces the product modulo 2^32 (size_t on the
wasm32 target) with no overflow check. With num = 2^31 + 1 and item size
2 the true product 2^32 + 2 wraps to 2, so on a fresh 128-byte heap the
call returns a non-null region of 4 usable bytes, far smaller than the
true product, zeroing only the wrapped amount: the resulting heap is
byte-for-byte the heap produced by a plain 2-byte zero-allocation. -/
theorem C10_calloc_overflow :
    4294967296 < (2 ^ 31 + 1) * 2 ∧
    (2 * (2 ^ 31 + 1)) % 4294967296 = 2 ∧
    (umm_calloc (umm_init_heap 128) (2 ^ 31 + 1) 2 Policy.bestFit).1 = some 12 ∧
    usub16 (nblock
      (umm_calloc (umm_init_heap 128) (2 ^ 31 + 1) 2 Policy.bestFit).2 1) 1
      * 8 - 4 = 4 ∧
    4 < (2 ^ 31 + 1) * 2 ∧
    readBytes (umm_calloc (umm_init_heap 128) (2 ^ 31 + 1) 2 Policy.bestFit).2
        0 128 =
      readBytes (umm_calloc (umm_init_heap 128) 2 1 Policy.bestFit).2 0 128 ∧
    readBytes (umm_calloc (umm_init_heap 128) (2 ^ 31 + 1) 2 Policy.firstFit).2
        0 128 =
      readBytes (umm_calloc (umm_init_heap 128) 2 1 Policy.firstFit).2 0 128 := by
  refine ⟨by decide, by decide, by decide, by decide, by decide, by decide,
    by decide⟩

/-- Claim C4 counterexample: the claimed formula, take the difference to
the body capacity, divide by B rounding up and add 2, evaluates to 3 at
B = 8 and size = 5, while umm_blocks returns 2 there. -/
theorem C4_counterexample :
    umm_blocks 8 5 = 2 ∧ (5 - (8 - 4) + 8 - 1) / 8 + 2 = 3 ∧
      ¬ umm_blocks 8 5 = (5 - (8 - 4) + 8 - 1) / 8 + 2 := by
  decide

/-- Claim C4 (amended): for every size, if size is at most B - 4 then
umm_blocks gives 1 block; otherwise it equals the difference
size - (B - 4) divided by B rounding up, plus 1 (not plus 2), clamped to
INT16_MAX = 32767. -/
theorem C4_amended (B size : Nat) (hB : 8 ≤ B) :
    (size ≤ B - 4 → umm_blocks B size = 1) ∧
    (B - 4 < size →
      umm_blocks B size = min ((size - (B - 4) + B - 1) / B + 1) 32767) := by
  constructor
  · intro h
    simp [umm_blocks, h]
  · intro h
    have hB0 : 0 < B := by omega
    have hx : 1 ≤ size - (B - 4) := by omega
    have key : (size - (B - 4) + B - 1) / B = (size - (B - 4) - 1) / B + 1 := by
      have : size - (B - 4) + B - 1 = (size - (B - 4) - 1) + B := by omega
      rw [this, Nat.add_div_right _ hB0]
    simp only [umm_blocks, if_neg (by omega : ¬ size ≤ B - 4)]
    rw [key]
    rcases le_or_lt (2 + (size - (B - 4) - 1) / B) 32767 with hle | hgt
    · rw [if_neg (by omega), min_eq_left (by omega)]
      omega
    · rw [if_pos (by omega), min_eq_right (by omega)]

/-- Claim C4 witness: the amended statement applied at B = 8, size = 20. -/
theorem C4_amended_witness :
    (8 ≤ 8) ∧
    ((20 ≤ 8 - 4 → umm_blocks 8 20 = 1) ∧
     (8 - 4 < 20 →
       umm_blocks 8 20 = min ((20 - (8 - 4) + 8 - 1) / 8 + 1) 32767)) :=
  ⟨by decide, C4_amended 8 20 (by decide)⟩

theorem rd8_wr8 (s : HeapState) (a v b : Nat) :
    rd8 (wr8 s a v) b = if b = a then v % 256 else rd8 s b := by
  unfold rd8 wr8
  dsimp only
  split <;> rfl

theorem rd8_lt (s : HeapState) (a : Nat) : rd8 s a < 256 := by
  unfold rd8
  omega

theorem rd16_lt (s : HeapState) (a : Nat) : rd16 s a < 65536 := by
  unfold rd16
  have h1 := rd8_lt s a
  have h2 := rd8_lt s (a + 1)
  omega

theorem rd16_wr16_eq (s : HeapState) (a v : Nat) :
    rd16 (wr16 s a v) a = v % 65536 := by
  unfold rd16 wr16
  simp [rd8_wr8, show ¬ a = a + 1 from by omega, show ¬ a + 1 = a from by omega]
  omega

theorem rd16_wr16_ne (s : HeapState) (a v b : Nat)
    (h : b + 2 ≤ a ∨ a + 2 ≤ b) :
    rd16 (wr16 s a v) b = rd16 s b := by
  unfold rd16 wr16
  simp [rd8_wr8, show ¬ b = a + 1 from by omega, show ¬ b = a from by omega,
    show ¬ b + 1 = a + 1 from by omega, show ¬ b + 1 = a from by omega]

theorem wr16_numblocks (s : HeapState) (a v : Nat) :
    (wr16 s a v).numblocks = s.numblocks := rfl

theorem nblock_setNblock (s : HeapState) (i v j : Nat) :
    nblock (setNblock s i v) j = if j = i then v % 65536 else nblock s j := by
  unfold nblock setNblock
  rcases eq_or_ne j i with h | h
  · subst h
    rw [if_pos rfl, rd16_wr16_eq]
  · rw [if_neg h, rd16_wr16_ne _ _ _ _ (by omega)]

theorem nblock_setPblock (s : HeapState) (i v j : Nat) :
    nblock (setPblock s i v) j = nblock s j := by
  unfold nblock setPblock
  exact rd16_wr16_ne _ _ _ _ (by omega)

theorem nblock_setNfree (s : HeapState) (i v j : Nat) :
    nblock (setNfree s i v) j = nblock s j := by
  unfold nblock setNfree
  exact rd16_wr16_ne _ _ _ _ (by omega)

theorem nblock_setPfree (s : HeapState) (i v j : Nat) :
    nblock (setPfree s i v) j = nblock s j := by
  unfold nblock setPfree
  exact rd16_wr16_ne _ _ _ _ (by omega)

theorem pblock_setNblock (s : HeapState) (i v j : Nat) :
    pblock (setNblock s i v) j = pblock s j := by
  unfold pblock setNblock
  exact rd16_wr16_ne _ _ _ _ (by omega)

theorem pblock_setPblock (s : HeapState) (i v j : Nat) :
    pblock (setPblock s i v) j = if j = i then v % 65536 else pblock s j := by
  unfold pblock setPblock
  rcases eq_or_ne j i with h | h
  · subst h
    rw [if_pos rfl, rd16_wr16_eq]
  · rw [if_neg h, rd16_wr16_ne _ _ _ _ (by omega)]

theorem pblock_setNfree (s : HeapState) (i v j : Nat) :
    pblock (setNfree s i v) j = pblock s j := by
  unfold pblock setNfree
  exact rd16_wr16_ne _ _ _ _ (by omega)

theorem pblock_setPfree (s : HeapState) (i v j : Nat) :
    pblock (setPfree s i v) j = pblock s j := by
  unfold pblock setPfree
  exact rd16_wr16_ne _ _ _ _ (by omega)

theorem nfree_setNblock (s : HeapState) (i v j : Nat) :
    nfree (setNblock s i v) j = nfree s j := by
  unfold nfree setNblock
  exact rd16_wr16_ne _ _ _ _ (by omega)

theorem nfree_setPblock (s : HeapState) (i v j : Nat) :
    nfree (setPblock s i v) j = nfree s j := by
  unfold nfree setPblock
  exact rd16_wr16_ne _ _ _ _ (by omega)

theorem nfree_setNfree (s : HeapState) (i v j : Nat) :
    nfree (setNfree s i v) j = if j = i then v % 65536 else nfree s j := by
  unfold nfree setNfree
  rcases eq_or_ne j i with h | h
  · subst h
    rw [if_pos rfl, rd16_wr16_eq]
  · rw [if_neg h, rd16_wr16_ne _ _ _ _ (by omega)]

theorem nfree_setPfree (s : HeapState) (i v j : Nat) :
    nfree (setPfree s i v) j = nfree s j := by
  unfold nfree setPfree
  exact rd16_wr16_ne _ _ _ _ (by omega)

theorem pfree_setNblock (s : HeapState) (i v j : Nat) :
    pfree (setNblock s i v) j = pfree s j := by
  unfold pfree setNblock
  exact rd16_wr16_ne _ _ _ _ (by omega)

theorem pfree_setPblock (s : HeapState) (i v j : Nat) :
    pfree (setPblock s i v) j = pfree s j := by
  unfold pfree setPblock
  exact rd16_wr16_ne _ _ _ _ (by omega)

theorem pfree_setNfree (s : HeapState) (i v j : Nat) :
    pfree (setNfree s i v) j = pfree s j := by
  unfold pfree setNfree
  exact rd16_wr16_ne _ _ _ _ (by omega)

theorem pfree_setPfree (s : HeapState) (i v j : Nat) :
    pfree (setPfree s i v) j = if j = i then v % 65536 else pfree s j := by
  unfold pfree setPfree
  rcases eq_or_ne j i with h | h
  · subst h
    rw [if_pos rfl, rd16_wr16_eq]
  · rw [if_neg h, rd16_wr16_ne _ _ _ _ (by omega)]

theorem setNblock_numblocks (s : HeapState) (i v : Nat) :
    (setNblock s i v).numblocks = s.numblocks := rfl

theorem setPblock_numblocks (s : HeapState) (i v : Nat) :
    (setPblock s i v).numblocks = s.numblocks := rfl

theorem setNfree_numblocks (s : HeapState) (i v : Nat) :
    (setNfree s i v).numblocks = s.numblocks := rfl

theorem setPfree_numblocks (s : HeapState) (i v : Nat) :
    (setPfree s i v).numblocks = s.numblocks := rfl

theorem usub16_eval (a b : Nat) (h1 : b ≤ a) (h2 : a - b < 65536)
    (h3 : b < 65536) : usub16 a b = a - b := by
  unfold usub16
  omega

theorem usub32_eval (a b : Nat) (h1 : b ≤ a) (h2 : a - b < 4294967296)
    (h3 : b < 4294967296) : usub32 a b = a - b := by
  unfold usub32
  omega

theorem isChainB_nil (s : HeapState) (b : Nat) :
    isChainB s b [] = true ↔
      BLOCKNO_MASK (nblock s b) = 0 ∧ b = s.numblocks - 1 := by
  simp [isChainB]

theorem isChainB_cons (s : HeapState) (b x : Nat) (L : List Nat) :
    isChainB s b (x :: L) = true ↔
      BLOCKNO_MASK (nblock s b) = x ∧ b < x ∧ x < s.numblocks ∧
        pblock s x = b ∧ isChainB s x L = true := by
  simp [isChainB, and_assoc]

theorem isRingB_nil (s : HeapState) (b : Nat) :
    isRingB s b [] = true ↔ nfree s b = 0 := by
  simp [isRingB]

theorem isRingB_cons (s : HeapState) (b x : Nat) (L : List Nat) :
    isRingB s b (x :: L) = true ↔
      nfree s b = x ∧ x ≠ 0 ∧ x < s.numblocks ∧ pfree s x = b ∧
        isRingB s x L = true := by
  simp [isRingB, and_assoc]

theorem isChainB_mem (s : HeapState) :
    ∀ L b, isChainB s b L = true → ∀ x ∈ L, b < x ∧ x < s.numblocks := by
  intro L
  induction L with
  | nil => intro b _ x hx; cases hx
  | cons y L ih =>
    intro b h x hx
    rcases (isChainB_cons s b y L).mp h with ⟨_, hby, hyn, _, h2⟩
    rcases List.mem_cons.mp hx with rfl | hx2
    · exact ⟨hby, hyn⟩
    · have h3 := ih y h2 x hx2
      exact ⟨by omega, h3.2⟩

theorem isChainB_length (s : HeapState) :
    ∀ L b, isChainB s b L = true → b + L.length < s.numblocks + 1 := by
  intro L
  induction L with
  | nil =>
    intro b h
    rcases (isChainB_nil s b).mp h with ⟨_, h2⟩
    simp
    omega
  | cons y L ih =>
    intro b h
    rcases (isChainB_cons s b y L).mp h with ⟨_, hby, _, _, h2⟩
    have h3 := ih y h2
    simp only [List.length_cons]
    omega

theorem isChainB_mask_zero (s : HeapState) :
    ∀ L b, isChainB s b L = true → ∀ x ∈ L,
      BLOCKNO_MASK (nblock s x) = 0 → x = s.numblocks - 1 := by
  intro L
  induction L with
  | nil => intro b _ x hx; cases hx
  | cons y L ih =>
    intro b h x hx h0
    rcases (isChainB_cons s b y L).mp h with ⟨_, _, _, _, h2⟩
    rcases List.mem_cons.mp hx with rfl | hx2
    · cases L with
      | nil => exact ((isChainB_nil s x).mp h2).2
      | cons z L2 =>
        rcases (isChainB_cons s x z L2).mp h2 with ⟨hm, hxz, _, _, _⟩
        omega
    · exact ih y h2 x hx2 h0

theorem umm_info_loop_result (s : HeapState) (p : Nat) :
    ∀ fuel b info0, (umm_info_loop s (some p) fuel b info0).1 = some p ∨
      (umm_info_loop s (some p) fuel b info0).1 = none := by
  intro fuel
  induction fuel with
  | zero => intro b info0; right; rfl
  | succ f ih =>
    intro b info0
    by_cases h0 : BLOCKNO_MASK (nblock s b) = 0
    · right
      simp [umm_info_loop, h0]
    · by_cases hf : 32768 ≤ nblock s b
      · by_cases hp : p = 8 * b
        · left
          simp [umm_info_loop, h0, hf, hp]
        · have step : ∃ info1, umm_info_loop s (some p) (f + 1) b info0 =
              umm_info_loop s (some p) f (BLOCKNO_MASK (nblock s b)) info1 :=
            ⟨_, by simp [umm_info_loop, h0, hf, hp]; rfl⟩
          rcases step with ⟨info1, step⟩
          rw [step]
          exact ih _ _
      · have step : ∃ info1, umm_info_loop s (some p) (f + 1) b info0 =
            umm_info_loop s (some p) f (BLOCKNO_MASK (nblock s b)) info1 :=
          ⟨_, by simp [umm_info_loop, h0, hf]; rfl⟩
        rcases step with ⟨info1, step⟩
        rw [step]
        exact ih _ _

theorem umm_info_loop_probe (s : HeapState) (p : Nat) :
    ∀ L b fuel info0, isChainB s b L = true → L.length < fuel →
      ((umm_info_loop s (some p) fuel b info0).1 = some p ↔
        (BLOCKNO_MASK (nblock s b) ≠ 0 ∧ 32768 ≤ nblock s b ∧ p = 8 * b) ∨
        ∃ x ∈ L, BLOCKNO_MASK (nblock s x) ≠ 0 ∧ 32768 ≤ nblock s x ∧
          p = 8 * x) := by
  intro L
  induction L with
  | nil =>
    intro b fuel info0 hch hfuel
    rcases (isChainB_nil s b).mp hch with ⟨h0, _⟩
    obtain ⟨f, rfl⟩ : ∃ f, fuel = f + 1 := ⟨fuel - 1, by omega⟩
    simp [umm_info_loop, h0]
  | cons x L ih =>
    intro b fuel info0 hch hfuel
    rcases (isChainB_cons s b x L).mp hch with ⟨hmask, hbx, hxn, hpb, hch2⟩
    obtain ⟨f, rfl⟩ : ∃ f, fuel = f + 1 := ⟨fuel - 1, by omega⟩
    have hx0 : x ≠ 0 := by omega
    have h0 : ¬ BLOCKNO_MASK (nblock s b) = 0 := by rw [hmask]; exact hx0
    have hfuel2 : L.length < f := Nat.lt_of_succ_lt_succ hfuel
    by_cases hf : 32768 ≤ nblock s b
    · by_cases hp : p = 8 * b
      · have step : (umm_info_loop s (some p) (f + 1) b info0).1 = some p := by
          simp [umm_info_loop, h0, hf, hp]
        rw [step]
        simp only [true_iff]
        exact Or.inl ⟨h0, hf, hp⟩
      · have step : ∃ info1, umm_info_loop s (some p) (f + 1) b info0 =
            umm_info_loop s (some p) f x info1 :=
          ⟨_, by simp [umm_info_loop, h0, hf, hp, hmask, hx0]; rfl⟩
        rcases step with ⟨info1, step⟩
        rw [step, ih x f info1 hch2 hfuel2]
        constructor
        · rintro (h | ⟨y, hy, hprop⟩)
          · exact Or.inr ⟨x, List.mem_cons_self x L, h⟩
          · exact Or.inr ⟨y, List.mem_cons_of_mem x hy, hprop⟩
        · rintro (⟨_, _, hpb2⟩ | ⟨y, hy, hprop⟩)
          · exact absurd hpb2 hp
          · rcases List.mem_cons.mp hy with rfl | hy2
            · exact Or.inl hprop
            · exact Or.inr ⟨y, hy2, hprop⟩
    · have step : ∃ info1, umm_info_loop s (some p) (f + 1) b info0 =
          umm_info_loop s (some p) f x info1 :=
        ⟨_, by simp [umm_info_loop, h0, hf, hmask, hx0]; rfl⟩
      rcases step with ⟨info1, step⟩
      rw [step, ih x f info1 hch2 hfuel2]
      constructor
      · rintro (h | ⟨y, hy, hprop⟩)
        · exact Or.inr ⟨x, List.mem_cons_self x L, h⟩
        · exact Or.inr ⟨y, List.mem_cons_of_mem x hy, hprop⟩
      · rintro (⟨_, hflag, _⟩ | ⟨y, hy, hprop⟩)
        · exact absurd hflag hf
        · rcases List.mem_cons.mp hy with rfl | hy2
          · exact Or.inl hprop
          · exact Or.inr ⟨y, hy2, hprop⟩

/-- Claim C9 (amended): for every probe pointer p, introspect returns p
exactly when p equals the address of a free chain block header (not of a
used block header, and not a user body address), and returns null
otherwise. -/
theorem C9_amended_probe (s : HeapState) (hInv : HeapInv s) (p : Nat) :
    ((umm_info s (some p)).1 = some p ↔
      ∃ x ∈ chainList s, 32768 ≤ nblock s x ∧ p = 8 * x) ∧
    ((¬ ∃ x ∈ chainList s, 32768 ≤ nblock s x ∧ p = 8 * x) →
      (umm_info s (some p)).1 = none) := by
  obtain ⟨hnb2, hnb15, hch, hring, hnd, hfl0, hflTop, hcoh, hrc, hnoadj⟩ := hInv
  have hmain : (umm_info s (some p)).1 = some p ↔
      ∃ x ∈ chainList s, 32768 ≤ nblock s x ∧ p = 8 * x := by
    cases hL : chainList s with
    | nil =>
      rw [hL] at hch
      rcases (isChainB_nil s 0).mp hch with ⟨_, h2⟩
      omega
    | cons x1 rest =>
      rw [hL] at hch
      rcases (isChainB_cons s 0 x1 rest).mp hch with ⟨hm, hx1p, hx1n, _, hch2⟩
      have hlen := isChainB_length s rest x1 hch2
      have hiff := umm_info_loop_probe s p rest x1 65536
        { totalEntries := 0, usedEntries := 0, freeEntries := 0,
          totalBlocks := 0, usedBlocks := 0, freeBlocks := 0,
          freeBlocksSquared := 0, maxFreeContiguousBlocks := 0 }
        hch2 (by omega)
      unfold umm_info
      rw [hm, hiff]
      have habs : ∀ x ∈ x1 :: rest, 32768 ≤ nblock s x →
          BLOCKNO_MASK (nblock s x) ≠ 0 := by
        intro x hx hflag h0
        have hlast : x = s.numblocks - 1 := by
          rcases List.mem_cons.mp hx with rfl | hx2
          · cases rest with
            | nil => exact ((isChainB_nil s x).mp hch2).2
            | cons z L2 =>
              rcases (isChainB_cons s x z L2).mp hch2 with ⟨hm2, hxz, _, _, _⟩
              rw [h0] at hm2
              omega
          · exact isChainB_mask_zero s rest x1 hch2 x hx2 h0
        rw [hlast] at hflag
        omega
      constructor
      · rintro (⟨hm1, hfl, hp⟩ | ⟨y, hy, _, hfl, hp⟩)
        · exact ⟨x1, List.mem_cons_self x1 rest, hfl, hp⟩
        · exact ⟨y, List.mem_cons_of_mem x1 hy, hfl, hp⟩
      · rintro ⟨y, hy, hfl, hp⟩
        have hm0 := habs y hy hfl
        rcases List.mem_cons.mp hy with rfl | hy2
        · exact Or.inl ⟨hm0, hfl, hp⟩
        · exact Or.inr ⟨y, hy2, hm0, hfl, hp⟩
  refine ⟨hmain, fun hno => ?_⟩
  rcases umm_info_loop_result s p 65536 (BLOCKNO_MASK (nblock s 0))
      { totalEntries := 0, usedEntries := 0, freeEntries := 0,
        totalBlocks := 0, usedBlocks := 0, freeBlocks := 0,
        freeBlocksSquared := 0, maxFreeContiguousBlocks := 0 } with hres | hres
  · exact absurd (hmain.mp hres) hno
  · exact hres

/-- Claim C9 witness: the amended probe statement applied on the
initialized 128-byte heap at probe offset 8, the header address of free
block 1. -/
theorem C9_amended_probe_witness :
    HeapInv (umm_init_heap 128) ∧
    (((umm_info (umm_init_heap 128) (some 8)).1 = some 8 ↔
      ∃ x ∈ chainList (umm_init_heap 128),
        32768 ≤ nblock (umm_init_heap 128) x ∧ 8 = 8 * x) ∧
    ((¬ ∃ x ∈ chainList (umm_init_heap 128),
        32768 ≤ nblock (umm_init_heap 128) x ∧ 8 = 8 * x) →
      (umm_info (umm_init_heap 128) (some 8)).1 = none)) :=
  ⟨by decide, C9_amended_probe (umm_init_heap 128) (by decide) 8⟩

theorem isRingB_mem (s : HeapState) :
    ∀ R b, isRingB s b R = true → ∀ x ∈ R, x ≠ 0 ∧ x < s.numblocks := by
  intro R
  induction R with
  | nil => intro b _ x hx; cases hx
  | cons y R ih =>
    intro b h x hx
    rcases (isRingB_cons s b y R).mp h with ⟨_, hy0, hyn, _, h2⟩
    rcases List.mem_cons.mp hx with rfl | hx2
    · exact ⟨hy0, hyn⟩
    · exact ih y h2 x hx2

theorem isChainB_succ (s : HeapState) :
    ∀ L b, isChainB s b L = true →
      ∀ x ∈ b :: L, BLOCKNO_MASK (nblock s x) ≠ 0 →
        BLOCKNO_MASK (nblock s x) ∈ L ∧ x < BLOCKNO_MASK (nblock s x) ∧
          pblock s (BLOCKNO_MASK (nblock s x)) = x ∧
          BLOCKNO_MASK (nblock s x) < s.numblocks := by
  intro L
  induction L with
  | nil =>
    intro b h x hx hne
    rcases List.mem_cons.mp hx with rfl | hx2
    · exact absurd ((isChainB_nil s x).mp h).1 hne
    · cases hx2
  | cons y L ih =>
    intro b h x hx hne
    rcases (isChainB_cons s b y L).mp h with ⟨hm, hby, hyn, hpb, h2⟩
    rcases List.mem_cons.mp hx with rfl | hx2
    · rw [hm]
      exact ⟨List.mem_cons_self y L, by omega, hpb, hyn⟩
    · have h3 := ih y h2 x hx2 hne
      exact ⟨List.mem_cons_of_mem y h3.1, h3.2⟩

theorem nodup_length_le (R : List Nat) (n : Nat) (hnd : R.Nodup)
    (hlt : ∀ x ∈ R, x < n) : R.length ≤ n := by
  classical
  have h1 : R.toFinset ⊆ Finset.range n := by
    intro x hx
    simp only [List.mem_toFinset] at hx
    simp only [Finset.mem_range]
    exact hlt x hx
  have h2 := Finset.card_le_card h1
  rw [List.toFinset_card_of_nodup hnd, Finset.card_range] at h2
  exact h2

theorem ring_sz_facts (s : HeapState) (h : HeapInv s) :
    ∀ x ∈ ringList s, x < BLOCKNO_MASK (nblock s x) ∧
      BLOCKNO_MASK (nblock s x) < s.numblocks ∧ 32768 ≤ nblock s x ∧
      x ∈ chainList s := by
  obtain ⟨h1, h2, hch, hring, hnd, h6, h7, hcoh, hrc, hnoadj⟩ := h
  intro x hx
  have hxc := hrc x hx
  have hflag : 32768 ≤ nblock s x := (hcoh x hxc).mpr hx
  have hne : BLOCKNO_MASK (nblock s x) ≠ 0 := by
    intro h0
    have hlast := isChainB_mask_zero s (chainList s) 0 hch x hxc h0
    rw [hlast] at hflag
    omega
  have hsucc := isChainB_succ s (chainList s) 0 hch x
    (List.mem_cons_of_mem 0 hxc) hne
  exact ⟨hsucc.2.1, hsucc.2.2.2, hflag, hxc⟩

theorem mallocLoop_noFit (s : HeapState) (pol : Policy) (blocks : Nat) :
    ∀ R b fuel bs0 bb0 bsz0, isRingB s b R = true → R.length < fuel →
      (∀ x ∈ R, usub16 (BLOCKNO_MASK (nblock s x)) x < blocks) →
      ∃ bsEnd, mallocLoop s pol blocks fuel (nfree s b) bs0 bb0 bsz0 =
          (0, bsEnd, bb0, bsz0) ∧
        (bsEnd = bs0 ∨ ∃ x ∈ R, bsEnd = usub16 (BLOCKNO_MASK (nblock s x)) x) := by
  intro R
  induction R with
  | nil =>
    intro b fuel bs0 bb0 bsz0 hr hfuel hno
    have h0 : nfree s b = 0 := (isRingB_nil s b).mp hr
    obtain ⟨f, rfl⟩ : ∃ f, fuel = f + 1 := ⟨fuel - 1, by omega⟩
    rw [h0]
    exact ⟨bs0, by simp [mallocLoop], Or.inl rfl⟩
  | cons x R ih =>
    intro b fuel bs0 bb0 bsz0 hr hfuel hno
    rcases (isRingB_cons s b x R).mp hr with ⟨hnf, hx0, hxn, _, hr2⟩
    obtain ⟨f, rfl⟩ : ∃ f, fuel = f + 1 := ⟨fuel - 1, by omega⟩
    have hszx := hno x (List.mem_cons_self x R)
    have hfuel2 : R.length < f := Nat.lt_of_succ_lt_succ hfuel
    have step : mallocLoop s pol blocks (f + 1) (nfree s b) bs0 bb0 bsz0 =
        mallocLoop s pol blocks f (nfree s x)
          (usub16 (BLOCKNO_MASK (nblock s x)) x) bb0 bsz0 := by
      rw [hnf]
      cases pol with
      | bestFit => simp [mallocLoop, hx0, show ¬ blocks ≤
          usub16 (BLOCKNO_MASK (nblock s x)) x from by omega]
      | firstFit => simp [mallocLoop, hx0, show ¬ blocks ≤
          usub16 (BLOCKNO_MASK (nblock s x)) x from by omega]
    rw [step]
    rcases ih x f _ bb0 bsz0 hr2 hfuel2
        (fun y hy => hno y (List.mem_cons_of_mem x hy)) with ⟨bsEnd, heq, hcase⟩
    refine ⟨bsEnd, heq, ?_⟩
    rcases hcase with rfl | ⟨y, hy, hcase⟩
    · exact Or.inr ⟨x, List.mem_cons_self x R, rfl⟩
    · exact Or.inr ⟨y, List.mem_cons_of_mem x hy, hcase⟩

theorem mallocLoop_bestFit_found (s : HeapState) (blocks : Nat) :
    ∀ R b fuel bs0 bb0 bsz0, isRingB s b R = true → R.length < fuel →
      (∀ x ∈ R, usub16 (BLOCKNO_MASK (nblock s x)) x < 32767) →
      (∀ x ∈ R, x ∈ ringList s) →
      ((bsz0 = 32767 ∧
          ∃ x ∈ R, blocks ≤ usub16 (BLOCKNO_MASK (nblock s x)) x) ∨
        (blocks ≤ bsz0 ∧ bsz0 < 32767 ∧
          usub16 (BLOCKNO_MASK (nblock s bb0)) bb0 = bsz0 ∧
          bb0 ∈ ringList s)) →
      ∃ bsEnd bbF bszF,
        mallocLoop s Policy.bestFit blocks fuel (nfree s b) bs0 bb0 bsz0 =
          (0, bsEnd, bbF, bszF) ∧
        blocks ≤ bszF ∧ bszF < 32767 ∧
        usub16 (BLOCKNO_MASK (nblock s bbF)) bbF = bszF ∧
        bbF ∈ ringList s := by
  intro R
  induction R with
  | nil =>
    intro b fuel bs0 bb0 bsz0 hr hfuel hbnd hsub hq
    have h0 : nfree s b = 0 := (isRingB_nil s b).mp hr
    obtain ⟨f, rfl⟩ : ∃ f, fuel = f + 1 := ⟨fuel - 1, by omega⟩
    rcases hq with ⟨_, x, hx, _⟩ | ⟨hq1, hq2, hq3, hq4⟩
    · cases hx
    · rw [h0]
      exact ⟨bs0, bb0, bsz0, by simp [mallocLoop], hq1, hq2, hq3, hq4⟩
  | cons x R ih =>
    intro b fuel bs0 bb0 bsz0 hr hfuel hbnd hsub hq
    rcases (isRingB_cons s b x R).mp hr with ⟨hnf, hx0, hxn, _, hr2⟩
    obtain ⟨f, rfl⟩ : ∃ f, fuel = f + 1 := ⟨fuel - 1, by omega⟩
    have hfuel2 : R.length < f := Nat.lt_of_succ_lt_succ hfuel
    have hbnd2 : ∀ y ∈ R, usub16 (BLOCKNO_MASK (nblock s y)) y < 32767 :=
      fun y hy => hbnd y (List.mem_cons_of_mem x hy)
    have hsub2 : ∀ y ∈ R, y ∈ ringList s :=
      fun y hy => hsub y (List.mem_cons_of_mem x hy)
    have hszx := hbnd x (List.mem_cons_self x R)
    have hxring := hsub x (List.mem_cons_self x R)
    by_cases hcond : blocks ≤ usub16 (BLOCKNO_MASK (nblock s x)) x ∧
        usub16 (BLOCKNO_MASK (nblock s x)) x < bsz0
    · have step : mallocLoop s Policy.bestFit blocks (f + 1) (nfree s b)
          bs0 bb0 bsz0 =
          mallocLoop s Policy.bestFit blocks f (nfree s x)
            (usub16 (BLOCKNO_MASK (nblock s x)) x) x
            (usub16 (BLOCKNO_MASK (nblock s x)) x) := by
        rw [hnf]
        simp [mallocLoop, hx0, hcond]
      rw [step]
      exact ih x f _ x _ hr2 hfuel2 hbnd2 hsub2
        (Or.inr ⟨hcond.1, hszx, rfl, hxring⟩)
    · have step : mallocLoop s Policy.bestFit blocks (f + 1) (nfree s b)
          bs0 bb0 bsz0 =
          mallocLoop s Policy.bestFit blocks f (nfree s x)
            (usub16 (BLOCKNO_MASK (nblock s x)) x) bb0 bsz0 := by
        rw [hnf]
        simp [mallocLoop, hx0, hcond]
      rw [step]
      rcases hq with ⟨hq1, y, hy, hqy⟩ | ⟨hq1, hq2, hq3, hq4⟩
      · have hy2 : y ∈ R := by
          rcases List.mem_cons.mp hy with rfl | h
          · exact absurd ⟨hqy, by omega⟩ hcond
          · exact h
        exact ih x f _ bb0 bsz0 hr2 hfuel2 hbnd2 hsub2
          (Or.inl ⟨hq1, y, hy2, hqy⟩)
      · exact ih x f _ bb0 bsz0 hr2 hfuel2 hbnd2 hsub2
          (Or.inr ⟨hq1, hq2, hq3, hq4⟩)

theorem mallocLoop_firstFit_found (s : HeapState) (blocks : Nat) :
    ∀ R b fuel bs0 bb0 bsz0, isRingB s b R = true → R.length < fuel →
      (∃ x ∈ R, blocks ≤ usub16 (BLOCKNO_MASK (nblock s x)) x) →
      ∃ cfF bsF,
        mallocLoop s Policy.firstFit blocks fuel (nfree s b) bs0 bb0 bsz0 =
          (cfF, bsF, bb0, bsz0) ∧
        cfF ∈ R ∧ blocks ≤ bsF ∧
        usub16 (BLOCKNO_MASK (nblock s cfF)) cfF = bsF := by
  intro R
  induction R with
  | nil =>
    intro b fuel bs0 bb0 bsz0 _ _ hq
    rcases hq with ⟨x, hx, _⟩
    cases hx
  | cons x R ih =>
    intro b fuel bs0 bb0 bsz0 hr hfuel hq
    rcases (isRingB_cons s b x R).mp hr with ⟨hnf, hx0, hxn, _, hr2⟩
    obtain ⟨f, rfl⟩ : ∃ f, fuel = f + 1 := ⟨fuel - 1, by omega⟩
    have hfuel2 : R.length < f := Nat.lt_of_succ_lt_succ hfuel
    by_cases hcond : blocks ≤ usub16 (BLOCKNO_MASK (nblock s x)) x
    · refine ⟨x, usub16 (BLOCKNO_MASK (nblock s x)) x, ?_,
        List.mem_cons_self x R, hcond, rfl⟩
      rw [hnf]
      simp [mallocLoop, hx0, hcond]
    · have step : mallocLoop s Policy.firstFit blocks (f + 1) (nfree s b)
          bs0 bb0 bsz0 =
          mallocLoop s Policy.firstFit blocks f (nfree s x)
            (usub16 (BLOCKNO_MASK (nblock s x)) x) bb0 bsz0 := by
        rw [hnf]
        simp [mallocLoop, hx0, hcond]
      rw [step]
      rcases hq with ⟨y, hy, hqy⟩
      have hy2 : y ∈ R := by
        rcases List.mem_cons.mp hy with rfl | h
        · exact absurd hqy hcond
        · exact h
      rcases ih x f _ bb0 bsz0 hr2 hfuel2 ⟨y, hy2, hqy⟩ with
        ⟨cfF, bsF, heq, hmem, hge, hsz⟩
      exact ⟨cfF, bsF, heq, List.mem_cons_of_mem x hmem, hge, hsz⟩

theorem umm_blocks_pos (B size : Nat) : 1 ≤ umm_blocks B size := by
  unfold umm_blocks
  dsimp only
  split_ifs <;>
    (try omega) <;>
    (generalize (size - (B - 4) - 1) / B = q; omega)

theorem umm_blocks_bytes (size : Nat) (hpos : 0 < size)
    (hnc : umm_blocks 8 size < 32767) : size ≤ umm_blocks 8 size * 8 - 4 := by
  unfold umm_blocks at hnc ⊢
  dsimp only at hnc ⊢
  split_ifs at hnc ⊢ <;> omega

theorem umm_malloc_core_eq (s : HeapState) (size : Nat) (pol : Policy)
    (r : Nat × Nat × Nat × Nat)
    (hloop : mallocLoop s pol (umm_blocks 8 size) 65536 (nfree s 0) 0
      (nfree s 0) 32767 = r) :
    umm_malloc_core s size pol =
      (if BLOCKNO_MASK (nblock s (if r.2.2.2 ≠ 32767 then r.2.2.1 else r.1))
            ≠ 0 ∧
          umm_blocks 8 size ≤ (if r.2.2.2 ≠ 32767 then r.2.2.2 else r.2.1) then
        if (if r.2.2.2 ≠ 32767 then r.2.2.2 else r.2.1) =
            umm_blocks 8 size then
          (some (8 * (if r.2.2.2 ≠ 32767 then r.2.2.1 else r.1) + 4),
            umm_disconnect_from_free_list s
              (if r.2.2.2 ≠ 32767 then r.2.2.1 else r.1))
        else
          (some (8 * (if r.2.2.2 ≠ 32767 then r.2.2.1 else r.1) + 4),
            umm_malloc_split_branch s
              (if r.2.2.2 ≠ 32767 then r.2.2.1 else r.1) (umm_blocks 8 size))
      else (none, s)) := by
  unfold umm_malloc_core
  dsimp only
  rw [hloop]

/-- Claim C7 (amended): for every size s above zero, on an invariant heap
allocate either succeeds returning the body offset 8 c + 4 of a free
chain block c whose run covers blocks_for(s) blocks, the body sitting 4
bytes past the 8-aligned block start (so at offset 4 modulo B, not
aligned to B), with the allocated extent exactly blocks_for(s) blocks
and at least s usable bytes, or returns null leaving the state untouched
when no free run of at least blocks_for(s) blocks exists. -/
theorem C7_amended (s : HeapState) (pol : Policy) (size : Nat)
    (hInv : HeapInv s) (hs : 0 < size) :
    (∃ c s2, umm_malloc s size pol = (some (8 * c + 4), s2) ∧
      (8 * c + 4) % 8 = 4 ∧
      c ∈ chainList s ∧ 32768 ≤ nblock s c ∧
      umm_blocks 8 size ≤ BLOCKNO_MASK (nblock s c) - c ∧
      BLOCKNO_MASK (nblock s2 c) = c + umm_blocks 8 size ∧
      size ≤ umm_blocks 8 size * 8 - 4) ∨
    (umm_malloc s size pol = (none, s) ∧
      ∀ pr ∈ freeRuns s, pr.2 < umm_blocks 8 size) := by
  have hRf := ring_sz_facts s hInv
  obtain ⟨hnb2, hnb15, hch, hring, hnd, hfl0, hflTop, hcoh, hrc, hnoadj⟩ := hInv
  have hk1 : 1 ≤ umm_blocks 8 size := umm_blocks_pos 8 size
  have hszeq : ∀ x ∈ ringList s,
      usub16 (BLOCKNO_MASK (nblock s x)) x =
        BLOCKNO_MASK (nblock s x) - x := by
    intro x hx
    rcases hRf x hx with ⟨h1, h2, _, _⟩
    exact usub16_eval _ _ (by omega) (by omega) (by omega)
  have hbnd : ∀ x ∈ ringList s,
      usub16 (BLOCKNO_MASK (nblock s x)) x < 32767 := by
    intro x hx
    rcases hRf x hx with ⟨h1, h2, _, _⟩
    rw [hszeq x hx]
    omega
  have hlen : (ringList s).length < 65536 := by
    have h := nodup_length_le (ringList s) s.numblocks hnd
      (fun x hx => lt_trans (hRf x hx).1 (hRf x hx).2.1)
    omega
  have hmalloc : umm_malloc s size pol = umm_malloc_core s size pol := by
    unfold umm_malloc
    rw [if_neg (by omega)]
  by_cases hex : ∃ x ∈ ringList s,
      umm_blocks 8 size ≤ usub16 (BLOCKNO_MASK (nblock s x)) x
  · left
    have main : ∀ cf blockSize,
        cf ∈ ringList s → umm_blocks 8 size ≤ blockSize →
        usub16 (BLOCKNO_MASK (nblock s cf)) cf = blockSize →
        umm_malloc_core s size pol =
          (if blockSize = umm_blocks 8 size then
            (some (8 * cf + 4), umm_disconnect_from_free_list s cf)
          else
            (some (8 * cf + 4),
              umm_malloc_split_branch s cf (umm_blocks 8 size))) →
        ∃ c s2, umm_malloc s size pol = (some (8 * c + 4), s2) ∧
          (8 * c + 4) % 8 = 4 ∧
          c ∈ chainList s ∧ 32768 ≤ nblock s c ∧
          umm_blocks 8 size ≤ BLOCKNO_MASK (nblock s c) - c ∧
          BLOCKNO_MASK (nblock s2 c) = c + umm_blocks 8 size ∧
          size ≤ umm_blocks 8 size * 8 - 4 := by
      intro cf blockSize hmem hge hsz hcoreeq
      rcases hRf cf hmem with ⟨hlt1, hlt2, hflag, hchain⟩
      have hbsz := hbnd cf hmem
      have hszv : BLOCKNO_MASK (nblock s cf) = cf + blockSize := by
        rw [hszeq cf hmem] at hsz
        omega
      have hmk : BLOCKNO_MASK (nblock s cf) < 32768 := by
        unfold BLOCKNO_MASK
        omega
      have hblt : cf + blockSize < 32768 := by omega
      have hnclamp : umm_blocks 8 size < 32767 := by omega
      rw [hmalloc, hcoreeq]
      by_cases hbe : blockSize = umm_blocks 8 size
      · rw [if_pos hbe]
        refine ⟨cf, umm_disconnect_from_free_list s cf, rfl, by omega,
          hchain, hflag, by omega, ?_, umm_blocks_bytes size hs hnclamp⟩
        unfold umm_disconnect_from_free_list
        dsimp only
        rw [nblock_setNblock, if_pos rfl, nblock_setPfree, nblock_setNfree]
        rw [hszv]
        unfold BLOCKNO_MASK
        omega
      · rw [if_neg hbe]
        refine ⟨cf, umm_malloc_split_branch s cf (umm_blocks 8 size), rfl,
          by omega, hchain, hflag, by omega, ?_,
          umm_blocks_bytes size hs hnclamp⟩
        unfold umm_malloc_split_branch umm_split_block
        dsimp only
        simp only [nblock_setNfree, nblock_setPfree, nblock_setPblock,
          nblock_setNblock, if_true]
        unfold BLOCKNO_MASK
        omega
    cases pol with
    | bestFit =>
      rcases mallocLoop_bestFit_found s (umm_blocks 8 size) (ringList s) 0
          65536 0 (nfree s 0) 32767 hring hlen hbnd (fun x hx => hx)
          (Or.inl ⟨rfl, hex⟩) with
        ⟨bsEnd, bbF, bszF, hloop, hge, hlt32, hszF, hmem⟩
      have hmaskne : BLOCKNO_MASK (nblock s bbF) ≠ 0 := by
        have h1 := (hRf bbF hmem).1
        omega
      refine main bbF bszF hmem hge hszF ?_
      rw [umm_malloc_core_eq s size Policy.bestFit _ hloop]
      dsimp only
      rw [if_pos (show (bszF : Nat) ≠ 32767 from by omega),
        if_pos (show (bszF : Nat) ≠ 32767 from by omega),
        if_pos ⟨hmaskne, hge⟩]
    | firstFit =>
      rcases mallocLoop_firstFit_found s (umm_blocks 8 size) (ringList s) 0
          65536 0 (nfree s 0) 32767 hring hlen hex with
        ⟨cfF, bsF, hloop, hmem, hge, hszF⟩
      have hmaskne : BLOCKNO_MASK (nblock s cfF) ≠ 0 := by
        have h1 := (hRf cfF hmem).1
        omega
      refine main cfF bsF hmem hge hszF ?_
      rw [umm_malloc_core_eq s size Policy.firstFit _ hloop]
      dsimp only
      rw [if_neg (show ¬ (32767 : Nat) ≠ 32767 from fun h => h rfl),
        if_neg (show ¬ (32767 : Nat) ≠ 32767 from fun h => h rfl),
        if_pos ⟨hmaskne, hge⟩]
  · right
    push_neg at hex
    rcases mallocLoop_noFit s pol (umm_blocks 8 size) (ringList s) 0 65536 0
        (nfree s 0) 32767 hring hlen (fun x hx => hex x hx) with
      ⟨bsEnd, hloop, hbs⟩
    have hlt : bsEnd < umm_blocks 8 size := by
      rcases hbs with rfl | ⟨x, hx, rfl⟩
      · omega
      · exact hex x hx
    constructor
    · rw [hmalloc, umm_malloc_core_eq s size pol _ hloop]
      dsimp only
      rw [if_neg (show ¬ (32767 : Nat) ≠ 32767 from fun h => h rfl),
        if_neg (show ¬ (32767 : Nat) ≠ 32767 from fun h => h rfl),
        if_neg (fun hcon => absurd hcon.2 (by omega))]
    · intro pr hpr
      unfold freeRuns at hpr
      rcases List.mem_map.mp hpr with ⟨x, hxf, rfl⟩
      rcases List.mem_filter.mp hxf with ⟨hxc, hxflag⟩
      have hflag : 32768 ≤ nblock s x := of_decide_eq_true hxflag
      have hxr : x ∈ ringList s := (hcoh x hxc).mp hflag
      have h2 := hex x hxr
      rw [hszeq x hxr] at h2
      exact h2

/-- Claim C7 witness: the amended allocate statement applied to the
initialized 128-byte heap with a 1-byte request under best fit. -/
theorem C7_amended_witness :
    HeapInv (umm_init_heap 128) ∧ 0 < 1 ∧
    ((∃ c s2, umm_malloc (umm_init_heap 128) 1 Policy.bestFit =
        (some (8 * c + 4), s2) ∧
      (8 * c + 4) % 8 = 4 ∧
      c ∈ chainList (umm_init_heap 128) ∧
      32768 ≤ nblock (umm_init_heap 128) c ∧
      umm_blocks 8 1 ≤ BLOCKNO_MASK (nblock (umm_init_heap 128) c) - c ∧
      BLOCKNO_MASK (nblock s2 c) = c + umm_blocks 8 1 ∧
      1 ≤ umm_blocks 8 1 * 8 - 4) ∨
    (umm_malloc (umm_init_heap 128) 1 Policy.bestFit =
        (none, umm_init_heap 128) ∧
      ∀ pr ∈ freeRuns (umm_init_heap 128), pr.2 < umm_blocks 8 1)) :=
  ⟨by decide, by decide,
    C7_amended (umm_init_heap 128) Policy.bestFit 1 (by decide) (by decide)⟩

theorem rd8_wr16_ne (s : HeapState) (b v a : Nat) (h1 : a ≠ b)
    (h2 : a ≠ b + 1) : rd8 (wr16 s b v) a = rd8 s a := by
  unfold wr16
  rw [rd8_wr8, if_neg h2, rd8_wr8, if_neg h1]

theorem rd8_setNblock (s : HeapState) (i v a : Nat)
    (h : a < 8 * i ∨ 8 * i + 2 ≤ a) :
    rd8 (setNblock s i v) a = rd8 s a := by
  unfold setNblock
  exact rd8_wr16_ne s _ _ a (by omega) (by omega)

theorem rd8_setPblock (s : HeapState) (i v a : Nat)
    (h : a < 8 * i + 2 ∨ 8 * i + 4 ≤ a) :
    rd8 (setPblock s i v) a = rd8 s a := by
  unfold setPblock
  exact rd8_wr16_ne s _ _ a (by omega) (by omega)

theorem rd8_setNfree (s : HeapState) (i v a : Nat)
    (h : a < 8 * i + 4 ∨ 8 * i + 6 ≤ a) :
    rd8 (setNfree s i v) a = rd8 s a := by
  unfold setNfree
  exact rd8_wr16_ne s _ _ a (by omega) (by omega)

theorem rd8_setPfree (s : HeapState) (i v a : Nat)
    (h : a < 8 * i + 6 ∨ 8 * i + 8 ≤ a) :
    rd8 (setPfree s i v) a = rd8 s a := by
  unfold setPfree
  exact rd8_wr16_ne s _ _ a (by omega) (by omega)

theorem umm_blocks_le (size m : Nat) (hpos : 0 < size) (hm1 : 1 ≤ m)
    (hm : size ≤ m * 8 - 4) : umm_blocks 8 size ≤ m := by
  unfold umm_blocks
  dsimp only
  split_ifs <;> omega

theorem chain_gap_aux (s : HeapState) :
    ∀ L b, isChainB s b L = true → ∀ c ∈ b :: L,
      BLOCKNO_MASK (nblock s c) ≠ 0 →
      ∀ f ∈ L, f ≤ c ∨ BLOCKNO_MASK (nblock s c) ≤ f := by
  intro L
  induction L with
  | nil => intro b _ c _ _ f hf; cases hf
  | cons y L ih =>
    intro b h c hc hcne f hf
    rcases (isChainB_cons s b y L).mp h with ⟨hm, hby, hyn, hpb, h2⟩
    rcases List.mem_cons.mp hc with rfl | hc2
    · right
      rw [hm]
      rcases List.mem_cons.mp hf with rfl | hf2
      · omega
      · exact le_of_lt (isChainB_mem s L y h2 f hf2).1
    · rcases List.mem_cons.mp hf with rfl | hf2
      · left
        rcases List.mem_cons.mp hc2 with rfl | hc3
        · omega
        · exact le_of_lt (isChainB_mem s L f h2 c hc3).1
      · exact ih y h2 c hc2 hcne f hf2

theorem ring_neighbor_aux (s : HeapState) :
    ∀ R b, isRingB s b R = true → b ∉ R → R.Nodup →
      ∀ x ∈ R, (nfree s x = 0 ∨ nfree s x ∈ R) ∧ nfree s x ≠ x ∧
        (pfree s x = b ∨ pfree s x ∈ R) ∧ pfree s x ≠ x := by
  intro R
  induction R with
  | nil => intro b _ _ _ x hx; cases hx
  | cons y R ih =>
    intro b h hb hnd x hx
    rcases (isRingB_cons s b y R).mp h with ⟨hnf, hy0, hyn, hpf, h2⟩
    have hynotR : y ∉ R := (List.nodup_cons.mp hnd).1
    have hndR : R.Nodup := (List.nodup_cons.mp hnd).2
    rcases List.mem_cons.mp hx with rfl | hx2
    · refine ⟨?_, ?_, Or.inl hpf, ?_⟩
      · cases R with
        | nil =>
          left
          exact (isRingB_nil s x).mp h2
        | cons z R2 =>
          right
          rcases (isRingB_cons s x z R2).mp h2 with ⟨hnf2, _, _, _, _⟩
          rw [hnf2]
          exact List.mem_cons_of_mem x (List.mem_cons_self z R2)
      · cases R with
        | nil =>
          rw [(isRingB_nil s x).mp h2]
          omega
        | cons z R2 =>
          rcases (isRingB_cons s x z R2).mp h2 with ⟨hnf2, _, _, _, _⟩
          rw [hnf2]
          intro hzx
          apply hynotR
          rw [← hzx]
          exact List.mem_cons_self z R2
      · rw [hpf]
        intro hbx
        apply hb
        rw [hbx]
        exact List.mem_cons_self x R
    · have h3 := ih y h2 hynotR hndR x hx2
      refine ⟨?_, h3.2.1, ?_, h3.2.2.2⟩
      · rcases h3.1 with h4 | h4
        · exact Or.inl h4
        · exact Or.inr (List.mem_cons_of_mem y h4)
      · rcases h3.2.2.1 with h4 | h4
        · exact Or.inr (h4 ▸ List.mem_cons_self y R)
        · exact Or.inr (List.mem_cons_of_mem y h4)

theorem split_nfree (s : HeapState) (c k m x : Nat) :
    nfree (umm_split_block s c k m) x = nfree s x := by
  unfold umm_split_block
  dsimp only
  simp [nfree_setNblock, nfree_setPblock]

theorem split_pfree (s : HeapState) (c k m x : Nat) :
    pfree (umm_split_block s c k m) x = pfree s x := by
  unfold umm_split_block
  dsimp only
  simp [pfree_setNblock, pfree_setPblock]

theorem split_numblocks (s : HeapState) (c k m : Nat) :
    (umm_split_block s c k m).numblocks = s.numblocks := rfl

theorem split_nblock_c (s : HeapState) (c k m : Nat) (h : k ≠ 0) :
    nblock (umm_split_block s c k m) c = (c + k) % 65536 := by
  unfold umm_split_block
  dsimp only
  simp [nblock_setNblock, nblock_setPblock]

theorem split_nblock_ck (s : HeapState) (c k m : Nat) (h : k ≠ 0) :
    nblock (umm_split_block s c k m) (c + k) =
      orFreemask (BLOCKNO_MASK (nblock s c)) m % 65536 := by
  unfold umm_split_block
  dsimp only
  simp only [nblock_setNblock, nblock_setPblock, if_true]
  rw [if_neg (show ¬ c + k = c from by omega)]

theorem split_nblock_other (s : HeapState) (c k m x : Nat) (h1 : x ≠ c)
    (h2 : x ≠ c + k) : nblock (umm_split_block s c k m) x = nblock s x := by
  unfold umm_split_block
  dsimp only
  simp only [nblock_setNblock, nblock_setPblock]
  rw [if_neg h1, if_neg h2]

theorem split_pblock_ck (s : HeapState) (c k m : Nat) (h : k ≠ 0)
    (h2 : BLOCKNO_MASK (nblock s c) ≠ c + k) :
    pblock (umm_split_block s c k m) (c + k) = c % 65536 := by
  unfold umm_split_block
  dsimp only
  simp only [pblock_setNblock, pblock_setPblock, nblock_setNblock,
    nblock_setPblock]
  rw [if_neg (show ¬ c = c + k from by omega)]
  rw [if_neg (show ¬ (c + k) = BLOCKNO_MASK (nblock s c) from fun hh =>
    h2 hh.symm)]
  simp

theorem split_pblock_other (s : HeapState) (c k m x : Nat) (h : k ≠ 0)
    (h1 : x ≠ c + k) (h2 : x ≠ BLOCKNO_MASK (nblock s c)) :
    pblock (umm_split_block s c k m) x = pblock s x := by
  unfold umm_split_block
  dsimp only
  simp only [pblock_setNblock, pblock_setPblock, nblock_setNblock,
    nblock_setPblock]
  rw [if_neg (show ¬ c = c + k from by omega), if_neg h2, if_neg h1]

theorem disc_nblock_c (s : HeapState) (c : Nat) :
    nblock (umm_disconnect_from_free_list s c) c =
      BLOCKNO_MASK (nblock s c) := by
  unfold umm_disconnect_from_free_list
  dsimp only
  simp only [nblock_setNblock, nblock_setNfree, nblock_setPfree, if_true]
  have h1 := rd16_lt s (8 * c)
  unfold BLOCKNO_MASK nblock
  omega

theorem disc_nblock_other (s : HeapState) (c x : Nat) (h : x ≠ c) :
    nblock (umm_disconnect_from_free_list s c) x = nblock s x := by
  unfold umm_disconnect_from_free_list
  dsimp only
  simp only [nblock_setNblock, nblock_setNfree, nblock_setPfree, if_neg h]

theorem disc_pblock (s : HeapState) (c x : Nat) :
    pblock (umm_disconnect_from_free_list s c) x = pblock s x := by
  unfold umm_disconnect_from_free_list
  dsimp only
  simp [pblock_setNblock, pblock_setNfree, pblock_setPfree]

theorem disc_numblocks (s : HeapState) (c : Nat) :
    (umm_disconnect_from_free_list s c).numblocks = s.numblocks := rfl

theorem disc_nfree_pf (s : HeapState) (c : Nat) :
    nfree (umm_disconnect_from_free_list s c) (pfree s c) = nfree s c := by
  unfold umm_disconnect_from_free_list
  dsimp only
  simp only [nfree_setNblock, nfree_setPfree, nfree_setNfree, if_true]
  have h1 := rd16_lt s (8 * c + 4)
  unfold nfree
  omega

theorem disc_nfree_other (s : HeapState) (c x : Nat) (h : x ≠ pfree s c) :
    nfree (umm_disconnect_from_free_list s c) x = nfree s x := by
  unfold umm_disconnect_from_free_list
  dsimp only
  simp only [nfree_setNblock, nfree_setPfree, nfree_setNfree, if_neg h]

theorem disc_pfree_nf (s : HeapState) (c : Nat) (hpc : pfree s c ≠ c) :
    pfree (umm_disconnect_from_free_list s c) (nfree s c) = pfree s c := by
  unfold umm_disconnect_from_free_list
  dsimp only
  simp only [pfree_setNblock, pfree_setPfree, pfree_setNfree,
    nfree_setNfree, if_neg (show ¬ c = pfree s c from fun hh => hpc hh.symm),
    if_true]
  have h1 := rd16_lt s (8 * c + 6)
  unfold pfree
  omega

theorem disc_pfree_other (s : HeapState) (c x : Nat) (hpc : pfree s c ≠ c)
    (h : x ≠ nfree s c) :
    pfree (umm_disconnect_from_free_list s c) x = pfree s x := by
  unfold umm_disconnect_from_free_list
  dsimp only
  simp only [pfree_setNblock, pfree_setPfree, pfree_setNfree,
    nfree_setNfree, if_neg (show ¬ c = pfree s c from fun hh => hpc hh.symm)]
  rw [if_neg h]

theorem rd8_split (s : HeapState) (c k m a : Nat) (hk : k ≠ 0)
    (h1 : a < 8 * c ∨ 8 * c + 2 ≤ a)
    (h2 : a < 8 * (c + k) ∨ 8 * (c + k) + 4 ≤ a)
    (h3 : a < 8 * BLOCKNO_MASK (nblock s c) + 2 ∨
      8 * BLOCKNO_MASK (nblock s c) + 4 ≤ a) :
    rd8 (umm_split_block s c k m) a = rd8 s a := by
  unfold umm_split_block
  dsimp only
  have hm : nblock (setPblock (setNblock s (c + k)
      (orFreemask (BLOCKNO_MASK (nblock s c)) m)) (c + k) c) c = nblock s c := by
    simp only [nblock_setNblock, nblock_setPblock]
    rw [if_neg (show ¬ c = c + k from by omega)]
  rw [hm]
  rw [rd8_setNblock _ _ _ _ (by omega), rd8_setPblock _ _ _ _ (by omega),
    rd8_setPblock _ _ _ _ (by omega), rd8_setNblock _ _ _ _ (by omega)]

theorem rd8_disc (s : HeapState) (c a : Nat) (hpc : pfree s c ≠ c)
    (h1 : a < 8 * c ∨ 8 * c + 2 ≤ a)
    (h2 : a < 8 * pfree s c + 4 ∨ 8 * pfree s c + 6 ≤ a)
    (h3 : a < 8 * nfree s c + 6 ∨ 8 * nfree s c + 8 ≤ a) :
    rd8 (umm_disconnect_from_free_list s c) a = rd8 s a := by
  unfold umm_disconnect_from_free_list
  dsimp only
  have hq : nfree (setNfree s (pfree s c) (nfree s c)) c = nfree s c := by
    simp only [nfree_setNfree]
    rw [if_neg (show ¬ c = pfree s c from fun hh => hpc hh.symm)]
  have hp : pfree (setNfree s (pfree s c) (nfree s c)) c = pfree s c := by
    simp [pfree_setNfree]
  rw [hq, hp]
  have hnb : nblock (setPfree (setNfree s (pfree s c) (nfree s c))
      (nfree s c) (pfree s c)) c = nblock s c := by
    simp [nblock_setNfree, nblock_setPfree]
  rw [hnb]
  rw [rd8_setNblock _ _ _ _ (by omega), rd8_setPfree _ _ _ _ (by omega),
    rd8_setNfree _ _ _ _ (by omega)]

/-- Claim C6 (amended): reallocating a used block at body offset
8 c + 4 to a smaller or equal positive size returns the pointer
unchanged, and preserves the first blocks_for(size) times 8 minus 4
bytes of the old contents (the usable bytes of the shrunken block, at
least size bytes), not the full old byte count: when the extent shrinks,
the split and the freeing of the tail write link words inside the old
region beyond the new capacity. -/
theorem C6_amended (s : HeapState) (pol : Policy) (c size : Nat)
    (hInv : HeapInv s)
    (hc : c ∈ chainList s) (hused : nblock s c < 32768)
    (hterm : BLOCKNO_MASK (nblock s c) ≠ 0)
    (hs : 0 < size)
    (hle : size ≤ (nblock s c - c) * 8 - 4) :
    (umm_realloc s (some (8 * c + 4)) size pol).1 = some (8 * c + 4) ∧
    ∀ i, i < umm_blocks 8 size * 8 - 4 →
      rd8 (umm_realloc s (some (8 * c + 4)) size pol).2 (8 * c + 4 + i) =
        rd8 s (8 * c + 4 + i) := by
  obtain ⟨hnb2, hnb15, hch, hring, hnd, hfl0, hflTop, hcoh, hrc, hnoadj⟩ := hInv
  have hcmem := isChainB_mem s (chainList s) 0 hch c hc
  have hmaskid : BLOCKNO_MASK (nblock s c) = nblock s c := by
    unfold BLOCKNO_MASK
    omega
  have hsucc := isChainB_succ s (chainList s) 0 hch c
    (List.mem_cons_of_mem 0 hc) hterm
  rw [hmaskid] at hsucc
  obtain ⟨hnchain, hcn, hpbn, hnn⟩ := hsucc
  have husub : usub16 (nblock s c) c = nblock s c - c :=
    usub16_eval _ _ (by omega) (by omega) (by omega)
  have hbk : umm_blocks 8 size ≤ nblock s c - c :=
    umm_blocks_le size _ hs (by omega) hle
  have hdiv : (8 * c + 4) / 8 = c := by omega
  have hk1 : 1 ≤ umm_blocks 8 size := umm_blocks_pos 8 size
  have hkey : umm_realloc s (some (8 * c + 4)) size pol =
      (if umm_blocks 8 size < nblock s c - c then
        (some (8 * c + 4),
          umm_free_core (umm_split_block s c (umm_blocks 8 size) 0)
            (8 * (c + umm_blocks 8 size) + 4))
      else (some (8 * c + 4), s)) := by
    unfold umm_realloc
    dsimp only
    rw [if_neg (show ¬ size = 0 from by omega), hdiv, husub, if_pos hbk]
  by_cases hsp : umm_blocks 8 size < nblock s c - c
  case neg =>
    rw [hkey, if_neg hsp]
    exact ⟨rfl, fun i _ => rfl⟩
  case pos =>
    rw [hkey, if_pos hsp]
    refine ⟨rfl, ?_⟩
    intro i hi
    have hkc : c + umm_blocks 8 size < nblock s c := by omega
    have ha1 : 8 * c + 4 ≤ 8 * c + 4 + i := by omega
    have ha2 : 8 * c + 4 + i < 8 * (c + umm_blocks 8 size) := by omega
    have h0notr : (0 : Nat) ∉ ringList s := fun h0 =>
      (isRingB_mem s (ringList s) 0 hring 0 h0).1 rfl
    have hringpos : ∀ f ∈ ringList s, f < c ∨ nblock s c ≤ f := by
      intro f hf
      have hfchain := hrc f hf
      have hgap := chain_gap_aux s (chainList s) 0 hch c
        (List.mem_cons_of_mem 0 hc) hterm f hfchain
      rw [hmaskid] at hgap
      have hfflag : 32768 ≤ nblock s f := (hcoh f hfchain).mpr hf
      rcases hgap with h | h
      · rcases Nat.lt_or_ge f c with h2 | h2
        · exact Or.inl h2
        · have hfc : f = c := by omega
          rw [hfc] at hfflag
          omega
      · exact Or.inr h
    have hheadring : nfree s 0 = 0 ∨ nfree s 0 ∈ ringList s := by
      cases hL : ringList s with
      | nil => exact Or.inl ((isRingB_nil s 0).mp (hL ▸ hring))
      | cons hd t =>
        right
        rcases (isRingB_cons s 0 hd t).mp (hL ▸ hring) with ⟨hnf0, _⟩
        rw [hnf0]
        exact List.mem_cons_self hd t
    -- facts about the split state
    have hA_nb_ck : nblock (umm_split_block s c (umm_blocks 8 size) 0)
        (c + umm_blocks 8 size) = nblock s c := by
      rw [split_nblock_ck s c _ 0 (by omega), hmaskid]
      unfold orFreemask
      rw [if_pos rfl]
      omega
    have hA_nb_c : nblock (umm_split_block s c (umm_blocks 8 size) 0) c =
        c + umm_blocks 8 size := by
      rw [split_nblock_c s c _ 0 (by omega)]
      omega
    have hA_nb_other : ∀ x, x ≠ c → x ≠ c + umm_blocks 8 size →
        nblock (umm_split_block s c (umm_blocks 8 size) 0) x = nblock s x :=
      fun x h1 h2 => split_nblock_other s c _ 0 x h1 h2
    have hA_pb_ck : pblock (umm_split_block s c (umm_blocks 8 size) 0)
        (c + umm_blocks 8 size) = c := by
      rw [split_pblock_ck s c _ 0 (by omega) (by rw [hmaskid]; omega)]
      omega
    have hA_nf : ∀ x, nfree (umm_split_block s c (umm_blocks 8 size) 0) x =
        nfree s x := fun x => split_nfree s c _ 0 x
    have hA_pf : ∀ x, pfree (umm_split_block s c (umm_blocks 8 size) 0) x =
        pfree s x := fun x => split_pfree s c _ 0 x
    have hstep1 : rd8 (umm_split_block s c (umm_blocks 8 size) 0)
        (8 * c + 4 + i) = rd8 s (8 * c + 4 + i) :=
      rd8_split s c _ 0 _ (by omega) (by omega) (by omega)
        (by rw [hmaskid]; omega)
    have hdiv2 : (8 * (c + umm_blocks 8 size) + 4) / 8 =
        c + umm_blocks 8 size := by omega
    -- the safety of any free-link write at an index that is 0 or a ring
    -- member, for addresses inside the preserved range
    have hsafe : ∀ f, (f = 0 ∨ f ∈ ringList s) →
        8 * f + 8 ≤ 8 * c + 4 + i ∨ 8 * c + 4 + i < 8 * f := by
      intro f hf
      rcases hf with rfl | hf
      · left
        omega
      · rcases hringpos f hf with h | h
        · left
          omega
        · right
          omega
    have hcont : ∀ u t, umm_assimilate_up u (c + umm_blocks 8 size) = t →
        pblock t (c + umm_blocks 8 size) = c →
        nblock t c = c + umm_blocks 8 size →
        (nfree t 0 = 0 ∨ nfree t 0 ∈ ringList s) →
        rd8 t (8 * c + 4 + i) = rd8 s (8 * c + 4 + i) →
        rd8 (umm_free_core u (8 * (c + umm_blocks 8 size) + 4))
          (8 * c + 4 + i) = rd8 s (8 * c + 4 + i) := by
      intro u t hu hpb hnbc hhead hframe
      have hidx := hsafe (nfree t 0) hhead
      unfold umm_free_core
      dsimp only
      rw [hdiv2, hu, hpb, hnbc]
      rw [if_neg (show ¬ 32768 ≤ c + umm_blocks 8 size from by omega)]
      rw [rd8_setNblock _ _ _ _ (by omega),
        rd8_setNfree _ _ _ _ (by omega),
        rd8_setPfree _ _ _ _ (by omega),
        rd8_setNfree _ _ _ _ (by omega),
        rd8_setPfree _ _ _ _ (by rcases hidx with h | h
                                 · exact Or.inr (by omega)
                                 · exact Or.inl (by omega))]
      exact hframe
    by_cases hnext : 32768 ≤ nblock s (nblock s c)
    · -- the tail of the split is assimilated with the following free
      -- block before the insertion at the ring head
      have hnring : nblock s c ∈ ringList s := (hcoh _ hnchain).mp hnext
      obtain ⟨hnf_n, hnfne, hpf_n, hpfne⟩ :=
        ring_neighbor_aux s (ringList s) 0 hring h0notr hnd (nblock s c)
          hnring
      have hmne : BLOCKNO_MASK (nblock s (nblock s c)) ≠ 0 := by
        intro h0
        have hlast := isChainB_mask_zero s (chainList s) 0 hch (nblock s c)
          hnchain h0
        rw [hlast] at hnext
        omega
      have hmsucc := isChainB_succ s (chainList s) 0 hch (nblock s c)
        (List.mem_cons_of_mem 0 hnchain) hmne
      have hnm : nblock s c < BLOCKNO_MASK (nblock s (nblock s c)) :=
        hmsucc.2.1
      have hMM : BLOCKNO_MASK (BLOCKNO_MASK (nblock s (nblock s c))) =
          BLOCKNO_MASK (nblock s (nblock s c)) := by
        unfold BLOCKNO_MASK
        omega
      have hs1eq : umm_assimilate_up
          (umm_split_block s c (umm_blocks 8 size) 0)
          (c + umm_blocks 8 size) =
          setNblock
            (setPblock
              (umm_disconnect_from_free_list
                (umm_split_block s c (umm_blocks 8 size) 0) (nblock s c))
              (BLOCKNO_MASK (nblock s (nblock s c)))
              (c + umm_blocks 8 size))
            (c + umm_blocks 8 size)
            (BLOCKNO_MASK (nblock s (nblock s c))) := by
        unfold umm_assimilate_up
        rw [hA_nb_ck]
        rw [hA_nb_other (nblock s c) (by omega) (by omega)]
        rw [if_pos hnext]
        dsimp only
        simp only [nblock_setPblock,
          disc_nblock_other (umm_split_block s c (umm_blocks 8 size) 0)
            (nblock s c) (c + umm_blocks 8 size)
            (show c + umm_blocks 8 size ≠ nblock s c from by omega),
          hA_nb_ck, disc_nblock_c,
          hA_nb_other (nblock s c) (by omega) (by omega), hMM]
      apply hcont _ _ hs1eq
      · rw [pblock_setNblock, pblock_setPblock,
          if_neg (show ¬ c + umm_blocks 8 size =
            BLOCKNO_MASK (nblock s (nblock s c)) from by omega),
          disc_pblock]
        exact hA_pb_ck
      · rw [nblock_setNblock,
          if_neg (show ¬ c = c + umm_blocks 8 size from by omega),
          nblock_setPblock, disc_nblock_other _ _ _ (by omega)]
        exact hA_nb_c
      · rw [nfree_setNblock, nfree_setPblock]
        by_cases hpf0 : pfree s (nblock s c) = 0
        · have hx := disc_nfree_pf
            (umm_split_block s c (umm_blocks 8 size) 0) (nblock s c)
          rw [split_pfree, hpf0] at hx
          rw [hx, split_nfree]
          exact hnf_n
        · rw [disc_nfree_other _ _ 0
            (by rw [split_pfree]; exact fun h => hpf0 h.symm), split_nfree]
          exact hheadring
      · rw [rd8_setNblock _ _ _ _ (by omega),
          rd8_setPblock _ _ _ _ (by omega)]
        rw [rd8_disc _ _ _ (by rw [split_pfree]; exact hpfne)
          (by omega)
          (by rw [split_pfree]
              rcases hsafe (pfree s (nblock s c)) hpf_n with h | h
              · exact Or.inr (by omega)
              · exact Or.inl (by omega))
          (by rw [split_nfree]
              rcases hsafe (nfree s (nblock s c)) hnf_n with h | h
              · exact Or.inr (by omega)
              · exact Or.inl (by omega))]
        exact hstep1
    · have hs1eq : umm_assimilate_up
          (umm_split_block s c (umm_blocks 8 size) 0)
          (c + umm_blocks 8 size) =
          umm_split_block s c (umm_blocks 8 size) 0 := by
        unfold umm_assimilate_up
        rw [hA_nb_ck, hA_nb_other (nblock s c) (by omega) (by omega)]
        rw [if_neg hnext]
      apply hcont _ _ hs1eq hA_pb_ck hA_nb_c ?_ hstep1
      rw [hA_nf]
      exact hheadring

/-- Claim C6 witness: the amended reallocate-shrink statement applied to
the heap holding one 3-block allocation at block 1, shrinking it to one
byte. -/
theorem C6_amended_witness :
    HeapInv (umm_malloc (umm_init_heap 128) 20 Policy.bestFit).2 ∧
    1 ∈ chainList (umm_malloc (umm_init_heap 128) 20 Policy.bestFit).2 ∧
    ((umm_realloc (umm_malloc (umm_init_heap 128) 20 Policy.bestFit).2
        (some (8 * 1 + 4)) 1 Policy.bestFit).1 = some (8 * 1 + 4) ∧
      ∀ i, i < umm_blocks 8 1 * 8 - 4 →
        rd8 (umm_realloc (umm_malloc (umm_init_heap 128) 20
            Policy.bestFit).2 (some (8 * 1 + 4)) 1 Policy.bestFit).2
          (8 * 1 + 4 + i) =
          rd8 (umm_malloc (umm_init_heap 128) 20 Policy.bestFit).2
            (8 * 1 + 4 + i)) :=
  ⟨by decide, by decide,
    C6_amended _ Policy.bestFit 1 1 (by decide) (by decide) (by decide)
      (by decide) (by decide) (by decide)⟩

theorem chainAux_congr (s2 s : HeapState) :
    ∀ fuel b, (∀ x ∈ b :: chainAux s fuel b,
      BLOCKNO_MASK (nblock s2 x) = BLOCKNO_MASK (nblock s x)) →
    chainAux s2 fuel b = chainAux s fuel b := by
  intro fuel
  induction fuel with
  | zero => intro b _; rfl
  | succ f ih =>
    intro b h
    have hb := h b (List.mem_cons_self b _)
    by_cases h0 : BLOCKNO_MASK (nblock s b) = 0
    · unfold chainAux
      rw [if_pos h0, if_pos (by rw [hb]; exact h0)]
    · unfold chainAux
      rw [if_neg h0, if_neg (by rw [hb]; exact h0), hb]
      have hrec := ih (BLOCKNO_MASK (nblock s b)) (by
        intro x hx
        apply h
        right
        unfold chainAux
        rw [if_neg h0]
        exact hx)
      rw [hrec]

theorem freeRuns_congr (s2 s : HeapState)
    (hc : chainList s2 = chainList s)
    (hnb : ∀ x ∈ chainList s, nblock s2 x = nblock s x) :
    freeRuns s2 = freeRuns s := by
  unfold freeRuns
  rw [hc]
  have hfil : (chainList s).filter (fun b => decide (32768 ≤ nblock s2 b)) =
      (chainList s).filter (fun b => decide (32768 ≤ nblock s b)) := by
    apply List.filter_congr
    intro x hx
    rw [hnb x hx]
  rw [hfil]
  apply List.map_congr_left
  intro x hx
  have hx2 : x ∈ chainList s := List.mem_of_mem_filter hx
  rw [hnb x hx2]

theorem free_core_insert_desc (t : HeapState) (C : Nat)
    (hnoup : nblock t (nblock t C) < 32768)
    (hprev : nblock t (pblock t C) < 32768) :
    (∀ x, x ≠ C → nblock (umm_free_core t (8 * C + 4)) x = nblock t x) ∧
    nblock (umm_free_core t (8 * C + 4)) C = orFreemask (nblock t C) 32768 := by
  have hdiv : (8 * C + 4) / 8 = C := by omega
  have hup : umm_assimilate_up t C = t := by
    unfold umm_assimilate_up
    rw [if_neg (by omega)]
  unfold umm_free_core
  dsimp only
  rw [hdiv, hup]
  rw [if_neg (by omega)]
  constructor
  · intro x hx
    rw [nblock_setNblock, if_neg hx]
    simp only [nblock_setNfree, nblock_setPfree]
  · rw [nblock_setNblock, if_pos rfl]
    simp only [nblock_setNfree, nblock_setPfree]
    have hlt : nblock t C < 65536 := rd16_lt t (8 * C)
    unfold orFreemask BLOCKNO_MASK
    rw [if_neg (show ¬ (32768 : Nat) = 0 from by omega)]
    omega

theorem chain_pred (s : HeapState) :
    ∀ L b, isChainB s b L = true → ∀ x ∈ L, ∃ p, (p = b ∨ p ∈ L) ∧
      BLOCKNO_MASK (nblock s p) = x ∧ pblock s x = p ∧ p < x := by
  intro L
  induction L with
  | nil => intro b _ x hx; cases hx
  | cons y L ih =>
    intro b h x hx
    rcases (isChainB_cons s b y L).mp h with ⟨hm, hby, hyn, hpb, h2⟩
    rcases List.mem_cons.mp hx with rfl | hx2
    · exact ⟨b, Or.inl rfl, hm, hpb, hby⟩
    · rcases ih y h2 x hx2 with ⟨p, hp1, hp2, hp3, hp4⟩
      refine ⟨p, ?_, hp2, hp3, hp4⟩
      rcases hp1 with rfl | hp1
      · exact Or.inr (List.mem_cons_self p L)
      · exact Or.inr (List.mem_cons_of_mem y hp1)

theorem umm_malloc_core_shape (s : HeapState) (size : Nat) (pol : Policy)
    (hInv : HeapInv s) (p : Nat) (s1 : HeapState)
    (h : umm_malloc_core s size pol = (some p, s1)) :
    ∃ cf, cf ∈ ringList s ∧ p = 8 * cf + 4 ∧
      umm_blocks 8 size ≤ BLOCKNO_MASK (nblock s cf) - cf ∧
      ((BLOCKNO_MASK (nblock s cf) - cf = umm_blocks 8 size ∧
        s1 = umm_disconnect_from_free_list s cf) ∨
       (umm_blocks 8 size < BLOCKNO_MASK (nblock s cf) - cf ∧
        s1 = umm_malloc_split_branch s cf (umm_blocks 8 size))) := by
  have hRf := ring_sz_facts s hInv
  obtain ⟨hnb2, hnb15, hch, hring, hnd, hfl0, hflTop, hcoh, hrc, hnoadj⟩ := hInv
  have hszeq : ∀ x ∈ ringList s,
      usub16 (BLOCKNO_MASK (nblock s x)) x =
        BLOCKNO_MASK (nblock s x) - x := by
    intro x hx
    rcases hRf x hx with ⟨h1, h2, _, _⟩
    exact usub16_eval _ _ (by omega) (by omega) (by omega)
  have hbnd : ∀ x ∈ ringList s,
      usub16 (BLOCKNO_MASK (nblock s x)) x < 32767 := by
    intro x hx
    rcases hRf x hx with ⟨h1, h2, _, _⟩
    rw [hszeq x hx]
    omega
  have hlen : (ringList s).length < 65536 := by
    have h := nodup_length_le (ringList s) s.numblocks hnd
      (fun x hx => lt_trans (hRf x hx).1 (hRf x hx).2.1)
    omega
  by_cases hex : ∃ x ∈ ringList s,
      umm_blocks 8 size ≤ usub16 (BLOCKNO_MASK (nblock s x)) x
  · have main : ∀ cf blockSize,
        cf ∈ ringList s → umm_blocks 8 size ≤ blockSize →
        usub16 (BLOCKNO_MASK (nblock s cf)) cf = blockSize →
        (if blockSize = umm_blocks 8 size then
            (some (8 * cf + 4), umm_disconnect_from_free_list s cf)
          else (some (8 * cf + 4),
            umm_malloc_split_branch s cf (umm_blocks 8 size))) =
          ((some p : Option Nat), s1) →
        ∃ cf2, cf2 ∈ ringList s ∧ p = 8 * cf2 + 4 ∧
          umm_blocks 8 size ≤ BLOCKNO_MASK (nblock s cf2) - cf2 ∧
          ((BLOCKNO_MASK (nblock s cf2) - cf2 = umm_blocks 8 size ∧
            s1 = umm_disconnect_from_free_list s cf2) ∨
           (umm_blocks 8 size < BLOCKNO_MASK (nblock s cf2) - cf2 ∧
            s1 = umm_malloc_split_branch s cf2 (umm_blocks 8 size))) := by
      intro cf blockSize hmem hge hsz heq
      have hsz2 : BLOCKNO_MASK (nblock s cf) - cf = blockSize := by
        rw [hszeq cf hmem] at hsz
        exact hsz
      by_cases hbe : blockSize = umm_blocks 8 size
      · rw [if_pos hbe] at heq
        injection heq with h1 h2
        injection h1 with h1
        exact ⟨cf, hmem, h1.symm, by omega, Or.inl ⟨by omega, h2.symm⟩⟩
      · rw [if_neg hbe] at heq
        injection heq with h1 h2
        injection h1 with h1
        exact ⟨cf, hmem, h1.symm, by omega, Or.inr ⟨by omega, h2.symm⟩⟩
    cases pol with
    | bestFit =>
      rcases mallocLoop_bestFit_found s (umm_blocks 8 size) (ringList s) 0
          65536 0 (nfree s 0) 32767 hring hlen hbnd (fun x hx => hx)
          (Or.inl ⟨rfl, hex⟩) with
        ⟨bsEnd, bbF, bszF, hloop, hge, hlt32, hszF, hmem⟩
      have hmaskne : BLOCKNO_MASK (nblock s bbF) ≠ 0 := by
        have h1 := (hRf bbF hmem).1
        omega
      have hcore : umm_malloc_core s size Policy.bestFit =
          (if bszF = umm_blocks 8 size then
            (some (8 * bbF + 4), umm_disconnect_from_free_list s bbF)
          else (some (8 * bbF + 4),
            umm_malloc_split_branch s bbF (umm_blocks 8 size))) := by
        rw [umm_malloc_core_eq s size Policy.bestFit _ hloop]
        dsimp only
        rw [if_pos (show (bszF : Nat) ≠ 32767 from by omega),
          if_pos (show (bszF : Nat) ≠ 32767 from by omega),
          if_pos ⟨hmaskne, hge⟩]
      rw [hcore] at h
      exact main bbF bszF hmem hge hszF h
    | firstFit =>
      rcases mallocLoop_firstFit_found s (umm_blocks 8 size) (ringList s) 0
          65536 0 (nfree s 0) 32767 hring hlen hex with
        ⟨cfF, bsF, hloop, hmem, hge, hszF⟩
      have hmaskne : BLOCKNO_MASK (nblock s cfF) ≠ 0 := by
        have h1 := (hRf cfF hmem).1
        omega
      have hcore : umm_malloc_core s size Policy.firstFit =
          (if bsF = umm_blocks 8 size then
            (some (8 * cfF + 4), umm_disconnect_from_free_list s cfF)
          else (some (8 * cfF + 4),
            umm_malloc_split_branch s cfF (umm_blocks 8 size))) := by
        rw [umm_malloc_core_eq s size Policy.firstFit _ hloop]
        dsimp only
        rw [if_neg (show ¬ (32767 : Nat) ≠ 32767 from fun h => h rfl),
          if_neg (show ¬ (32767 : Nat) ≠ 32767 from fun h => h rfl),
          if_pos ⟨hmaskne, hge⟩]
      rw [hcore] at h
      exact main cfF bsF hmem hge hszF h
  · push_neg at hex
    rcases mallocLoop_noFit s pol (umm_blocks 8 size) (ringList s) 0 65536 0
        (nfree s 0) 32767 hring hlen (fun x hx => hex x hx) with
      ⟨bsEnd, hloop, hbs⟩
    have hlt : bsEnd < umm_blocks 8 size := by
      rcases hbs with rfl | ⟨x, hx, rfl⟩
      · have := umm_blocks_pos 8 size
        omega
      · exact hex x hx
    have hcore : umm_malloc_core s size pol = (none, s) := by
      rw [umm_malloc_core_eq s size pol _ hloop]
      dsimp only
      rw [if_neg (show ¬ (32767 : Nat) ≠ 32767 from fun h => h rfl),
        if_neg (show ¬ (32767 : Nat) ≠ 32767 from fun h => h rfl),
        if_neg (fun hcon => absurd hcon.2 (by omega))]
    rw [hcore] at h
    simp at h

theorem free_core_eq_assim (t : HeapState) (C : Nat)
    (hprev : nblock (umm_assimilate_up t C)
      (pblock (umm_assimilate_up t C) C) < 32768) :
    (∀ x, x ≠ C → nblock (umm_free_core t (8 * C + 4)) x =
      nblock (umm_assimilate_up t C) x) ∧
    nblock (umm_free_core t (8 * C + 4)) C =
      orFreemask (nblock (umm_assimilate_up t C) C) 32768 := by
  have hdiv : (8 * C + 4) / 8 = C := by omega
  unfold umm_free_core
  dsimp only
  rw [hdiv]
  rw [if_neg (by omega)]
  constructor
  · intro x hx
    rw [nblock_setNblock, if_neg hx]
    simp only [nblock_setNfree, nblock_setPfree]
  · rw [nblock_setNblock, if_pos rfl]
    simp only [nblock_setNfree, nblock_setPfree]
    have hlt : nblock (umm_assimilate_up t C) C < 65536 :=
      rd16_lt (umm_assimilate_up t C) (8 * C)
    unfold orFreemask BLOCKNO_MASK
    rw [if_neg (show ¬ (32768 : Nat) = 0 from by omega)]
    omega

/-- Claim C3: on a heap satisfying the structural invariant, whenever
allocate succeeds, freeing the returned pointer restores exactly the
list of free runs (start index, extent in blocks) the heap had before
the allocation; only the free-ring ordering may differ. -/
theorem C3_free_alloc_freeRuns (s : HeapState) (pol : Policy)
    (size p : Nat) (hInv : HeapInv s)
    (hp : (umm_malloc s size pol).1 = some p) :
    freeRuns (umm_free (umm_malloc s size pol).2 (some p)) = freeRuns s := by
  obtain ⟨s1, hm⟩ : ∃ s1, umm_malloc s size pol = (some p, s1) :=
    ⟨(umm_malloc s size pol).2, by rw [← hp]⟩
  rw [hm]
  show freeRuns (umm_free s1 (some p)) = freeRuns s
  by_cases hz : size = 0
  · unfold umm_malloc at hm
    rw [if_pos hz] at hm
    simp at hm
  · have hcore : umm_malloc_core s size pol = (some p, s1) := by
      unfold umm_malloc at hm
      rwa [if_neg hz] at hm
    have hRf := ring_sz_facts s hInv
    obtain ⟨cf, hmem, rfl, hge, hcase⟩ :=
      umm_malloc_core_shape s size pol hInv p s1 hcore
    obtain ⟨hnb2, hnb15, hch, hring, hnd, hfl0, hflTop, hcoh, hrc, hnoadj⟩ :=
      hInv
    rcases hRf cf hmem with ⟨hlt1, hlt2, hflag, hchain⟩
    have hlt65 : nblock s cf < 65536 := rd16_lt s (8 * cf)
    have hm32 : BLOCKNO_MASK (nblock s cf) < 32768 := by
      unfold BLOCKNO_MASK
      omega
    have hnoadjcf : nblock s (BLOCKNO_MASK (nblock s cf)) < 32768 :=
      hnoadj cf hchain hflag
    have hn0cf : BLOCKNO_MASK (nblock s cf) ≠ cf := by omega
    obtain ⟨pp, hpmem, hpm, hpb, hplt⟩ :=
      chain_pred s (chainList s) 0 hch cf hchain
    have hpused : nblock s pp < 32768 := by
      rcases hpmem with rfl | hpmem2
      · exact hfl0
      · by_contra hcon
        push_neg at hcon
        have h2 := hnoadj pp hpmem2 hcon
        rw [hpm] at h2
        omega
    rcases hcase with ⟨hbe, rfl⟩ | ⟨hltk, rfl⟩
    · -- exact fit: disconnect, then the free reinserts the same extent
      have hdo : ∀ x, x ≠ cf →
          nblock (umm_disconnect_from_free_list s cf) x = nblock s x :=
        fun x hx => disc_nblock_other s cf x hx
      have hup : umm_assimilate_up (umm_disconnect_from_free_list s cf) cf =
          umm_disconnect_from_free_list s cf := by
        unfold umm_assimilate_up
        rw [disc_nblock_c, hdo _ hn0cf]
        rw [if_neg (by omega)]
      have hprev : nblock (umm_assimilate_up
            (umm_disconnect_from_free_list s cf) cf)
          (pblock (umm_assimilate_up
            (umm_disconnect_from_free_list s cf) cf) cf) < 32768 := by
        rw [hup, disc_pblock, hpb]
        rw [hdo pp (by omega)]
        exact hpused
      obtain ⟨hfo, hfc⟩ :=
        free_core_eq_assim (umm_disconnect_from_free_list s cf) cf hprev
      have hnbF : ∀ x,
          nblock (umm_free_core (umm_disconnect_from_free_list s cf)
            (8 * cf + 4)) x = nblock s x := by
        intro x
        rcases eq_or_ne x cf with rfl | hx
        · rw [hfc, hup, disc_nblock_c]
          unfold orFreemask BLOCKNO_MASK
          rw [if_neg (show ¬ (32768 : Nat) = 0 from by omega)]
          omega
        · rw [hfo x hx, hup, hdo x hx]
      show freeRuns (umm_free_core (umm_disconnect_from_free_list s cf)
        (8 * cf + 4)) = freeRuns s
      apply freeRuns_congr
      · unfold chainList
        apply chainAux_congr
        intro x _
        rw [hnbF x]
      · intro x _
        rw [hnbF x]
    · -- split fit: the tail lands on the ring, the free reassimilates it
      have hk1 : 1 ≤ umm_blocks 8 size := umm_blocks_pos 8 size
      have hmaskne : BLOCKNO_MASK (nblock s cf) ≠ 0 := by omega
      have hn1ne : cf ≠ cf + umm_blocks 8 size := by omega
      have hn1chain : cf + umm_blocks 8 size ∉ chainList s := by
        intro hin
        have h2 := chain_gap_aux s (chainList s) 0 hch cf
          (List.mem_cons_of_mem 0 hchain) hmaskne
          (cf + umm_blocks 8 size) hin
        omega
      have hT0c : nblock (umm_malloc_split_branch s cf (umm_blocks 8 size))
          cf = cf + umm_blocks 8 size := by
        unfold umm_malloc_split_branch
        dsimp only
        simp only [nblock_setNfree, nblock_setPfree]
        rw [split_nblock_c s cf _ 32768 (by omega)]
        omega
      have hT0n1 : nblock (umm_malloc_split_branch s cf (umm_blocks 8 size))
          (cf + umm_blocks 8 size) = BLOCKNO_MASK (nblock s cf) + 32768 := by
        unfold umm_malloc_split_branch
        dsimp only
        simp only [nblock_setNfree, nblock_setPfree]
        rw [split_nblock_ck s cf _ 32768 (by omega)]
        unfold orFreemask BLOCKNO_MASK
        rw [if_neg (show ¬ (32768 : Nat) = 0 from by omega)]
        omega
      have hT0o : ∀ x, x ≠ cf → x ≠ cf + umm_blocks 8 size →
          nblock (umm_malloc_split_branch s cf (umm_blocks 8 size)) x =
            nblock s x := by
        intro x h1 h2
        unfold umm_malloc_split_branch
        dsimp only
        simp only [nblock_setNfree, nblock_setPfree]
        exact split_nblock_other s cf _ 32768 x h1 h2
      have hT0pb : pblock (umm_malloc_split_branch s cf (umm_blocks 8 size))
          cf = pblock s cf := by
        unfold umm_malloc_split_branch
        dsimp only
        simp only [pblock_setNfree, pblock_setPfree]
        exact split_pblock_other s cf _ 32768 cf (by omega) (by omega)
          (fun h => hn0cf h.symm)
      have hAc : nblock (umm_disconnect_from_free_list
          (umm_malloc_split_branch s cf (umm_blocks 8 size))
          (cf + umm_blocks 8 size)) cf = cf + umm_blocks 8 size := by
        rw [disc_nblock_other _ _ _ hn1ne]
        exact hT0c
      have hAn1 : nblock (umm_disconnect_from_free_list
          (umm_malloc_split_branch s cf (umm_blocks 8 size))
          (cf + umm_blocks 8 size)) (cf + umm_blocks 8 size) =
          BLOCKNO_MASK (nblock s cf) := by
        rw [disc_nblock_c, hT0n1]
        unfold BLOCKNO_MASK
        omega
      have hAo : ∀ x, x ≠ cf → x ≠ cf + umm_blocks 8 size →
          nblock (umm_disconnect_from_free_list
            (umm_malloc_split_branch s cf (umm_blocks 8 size))
            (cf + umm_blocks 8 size)) x = nblock s x := by
        intro x h1 h2
        rw [disc_nblock_other _ _ _ h2]
        exact hT0o x h1 h2
      have hcond : 32768 ≤ nblock (umm_malloc_split_branch s cf
          (umm_blocks 8 size)) (nblock (umm_malloc_split_branch s cf
          (umm_blocks 8 size)) cf) := by
        rw [hT0c, hT0n1]
        omega
      have hmm : BLOCKNO_MASK (BLOCKNO_MASK (nblock s cf)) =
          BLOCKNO_MASK (nblock s cf) := by
        unfold BLOCKNO_MASK
        omega
      have hTc : nblock (umm_assimilate_up (umm_malloc_split_branch s cf
          (umm_blocks 8 size)) cf) cf = BLOCKNO_MASK (nblock s cf) := by
        unfold umm_assimilate_up
        rw [if_pos hcond]
        dsimp only
        rw [hT0c]
        rw [nblock_setNblock, if_pos rfl]
        simp only [nblock_setPblock]
        rw [hAc, hAn1]
        unfold BLOCKNO_MASK
        omega
      have hTo : ∀ x, x ≠ cf → x ≠ cf + umm_blocks 8 size →
          nblock (umm_assimilate_up (umm_malloc_split_branch s cf
            (umm_blocks 8 size)) cf) x = nblock s x := by
        intro x h1 h2
        unfold umm_assimilate_up
        rw [if_pos hcond]
        dsimp only
        rw [hT0c]
        rw [nblock_setNblock, if_neg h1]
        simp only [nblock_setPblock]
        exact hAo x h1 h2
      have hTpb : pblock (umm_assimilate_up (umm_malloc_split_branch s cf
          (umm_blocks 8 size)) cf) cf = pblock s cf := by
        unfold umm_assimilate_up
        rw [if_pos hcond]
        dsimp only
        rw [hT0c]
        simp only [pblock_setNblock]
        rw [hAc, hAn1, hmm]
        rw [pblock_setPblock,
          if_neg (show ¬ cf = BLOCKNO_MASK (nblock s cf) from
            fun h => hn0cf h.symm)]
        rw [disc_pblock]
        exact hT0pb
      have hprev : nblock (umm_assimilate_up (umm_malloc_split_branch s cf
            (umm_blocks 8 size)) cf)
          (pblock (umm_assimilate_up (umm_malloc_split_branch s cf
            (umm_blocks 8 size)) cf) cf) < 32768 := by
        rw [hTpb, hpb]
        rw [hTo pp (by omega) (by omega)]
        exact hpused
      obtain ⟨hfo, hfc⟩ := free_core_eq_assim
        (umm_malloc_split_branch s cf (umm_blocks 8 size)) cf hprev
      have hnbF : ∀ x, x ≠ cf + umm_blocks 8 size →
          nblock (umm_free_core (umm_malloc_split_branch s cf
            (umm_blocks 8 size)) (8 * cf + 4)) x = nblock s x := by
        intro x hx
        rcases eq_or_ne x cf with rfl | hxc
        · rw [hfc, hTc]
          unfold orFreemask BLOCKNO_MASK
          rw [if_neg (show ¬ (32768 : Nat) = 0 from by omega)]
          omega
        · rw [hfo x hxc, hTo x hxc hx]
      show freeRuns (umm_free_core (umm_malloc_split_branch s cf
        (umm_blocks 8 size)) (8 * cf + 4)) = freeRuns s
      apply freeRuns_congr
      · unfold chainList
        apply chainAux_congr
        intro x hx
        rcases List.mem_cons.mp hx with rfl | hxm2
        · rw [hnbF 0 (by omega)]
        · rw [hnbF x (fun h => hn1chain (h ▸ hxm2))]
      · intro x hx
        rw [hnbF x (fun h => hn1chain (h ▸ hx))]

/-- Claim C3 witness: allocating five bytes from the freshly initialized
128-byte heap and freeing the returned pointer restores the original
free-run list. -/
theorem C3_free_alloc_freeRuns_witness :
    HeapInv (umm_init_heap 128) ∧
    (umm_malloc (umm_init_heap 128) 5 Policy.bestFit).1 = some 12 ∧
    freeRuns (umm_free (umm_malloc (umm_init_heap 128) 5 Policy.bestFit).2
      (some 12)) = freeRuns (umm_init_heap 128) :=
  ⟨by decide, by decide,
    C3_free_alloc_freeRuns (umm_init_heap 128) Policy.bestFit 5 12
      (by decide) (by decide)⟩

theorem isChainB_congr (s2 s : HeapState) (hnum : s2.numblocks = s.numblocks) :
    ∀ L b, (∀ x ∈ b :: L, BLOCKNO_MASK (nblock s2 x) =
        BLOCKNO_MASK (nblock s x)) →
      (∀ x ∈ L, pblock s2 x = pblock s x) →
      isChainB s b L = true → isChainB s2 b L = true := by
  intro L
  induction L with
  | nil =>
    intro b hm hp h
    rcases (isChainB_nil s b).mp h with ⟨h1, h2⟩
    exact (isChainB_nil s2 b).mpr
      ⟨by rw [hm b (List.mem_cons_self b _)]; exact h1, by rw [hnum]; exact h2⟩
  | cons x L ih =>
    intro b hm hp h
    rcases (isChainB_cons s b x L).mp h with ⟨h1, h2, h3, h4, h5⟩
    refine (isChainB_cons s2 b x L).mpr
      ⟨by rw [hm b (List.mem_cons_self b _)]; exact h1, h2,
        by rw [hnum]; exact h3,
        by rw [hp x (List.mem_cons_self x L)]; exact h4, ?_⟩
    exact ih x (fun z hz => hm z (List.mem_cons_of_mem b hz))
      (fun z hz => hp z (List.mem_cons_of_mem x hz)) h5

theorem isRingB_congr (s2 s : HeapState) (hnum : s2.numblocks = s.numblocks) :
    ∀ L b, (∀ x ∈ b :: L, nfree s2 x = nfree s x) →
      (∀ x ∈ L, pfree s2 x = pfree s x) →
      isRingB s b L = true → isRingB s2 b L = true := by
  intro L
  induction L with
  | nil =>
    intro b hn hp h
    exact (isRingB_nil s2 b).mpr
      (by rw [hn b (List.mem_cons_self b _)]; exact (isRingB_nil s b).mp h)
  | cons x L ih =>
    intro b hn hp h
    rcases (isRingB_cons s b x L).mp h with ⟨h1, h2, h3, h4, h5⟩
    refine (isRingB_cons s2 b x L).mpr
      ⟨by rw [hn b (List.mem_cons_self b _)]; exact h1, h2,
        by rw [hnum]; exact h3,
        by rw [hp x (List.mem_cons_self x L)]; exact h4, ?_⟩
    exact ih x (fun z hz => hn z (List.mem_cons_of_mem b hz))
      (fun z hz => hp z (List.mem_cons_of_mem x hz)) h5

theorem chainAux_of_isChainB (s : HeapState) :
    ∀ L b fuel, isChainB s b L = true → L.length < fuel →
      chainAux s fuel b = L := by
  intro L
  induction L with
  | nil =>
    intro b fuel h hf
    obtain ⟨f, rfl⟩ : ∃ f, fuel = f + 1 := ⟨fuel - 1, by omega⟩
    rcases (isChainB_nil s b).mp h with ⟨h1, _⟩
    unfold chainAux
    rw [if_pos h1]
  | cons x L ih =>
    intro b fuel h hf
    obtain ⟨f, rfl⟩ : ∃ f, fuel = f + 1 := ⟨fuel - 1, by omega⟩
    rcases (isChainB_cons s b x L).mp h with ⟨h1, h2, _, _, h5⟩
    unfold chainAux
    rw [if_neg (by omega : ¬ BLOCKNO_MASK (nblock s b) = 0), h1]
    rw [ih x f h5 (by simpa using hf)]

theorem ringAux_of_isRingB (s : HeapState) :
    ∀ L b fuel, isRingB s b L = true → L.length < fuel →
      ringAux s fuel b = L := by
  intro L
  induction L with
  | nil =>
    intro b fuel h hf
    obtain ⟨f, rfl⟩ : ∃ f, fuel = f + 1 := ⟨fuel - 1, by omega⟩
    unfold ringAux
    rw [if_pos ((isRingB_nil s b).mp h)]
  | cons x L ih =>
    intro b fuel h hf
    obtain ⟨f, rfl⟩ : ∃ f, fuel = f + 1 := ⟨fuel - 1, by omega⟩
    rcases (isRingB_cons s b x L).mp h with ⟨h1, h2, _, _, h5⟩
    unfold ringAux
    rw [h1, if_neg h2]
    rw [ih x f h5 (by simpa using hf)]

theorem ring_pred_tail (s : HeapState) :
    ∀ R b x, isRingB s b (x :: R) = true → ∀ f ∈ R, pfree s f ∈ x :: R := by
  intro R
  induction R with
  | nil => intro b x _ f hf; cases hf
  | cons y R ih =>
    intro b x h f hf
    rcases (isRingB_cons s b x (y :: R)).mp h with ⟨_, _, _, _, h2⟩
    rcases List.mem_cons.mp hf with rfl | hf2
    · rcases (isRingB_cons s x f R).mp h2 with ⟨_, _, _, hpf2, _⟩
      rw [hpf2]
      exact List.mem_cons_self x _
    · exact List.mem_cons_of_mem x (ih x y h2 f hf2)

theorem isRingB_erase (s s2 : HeapState) (f : Nat)
    (hnum : s2.numblocks = s.numblocks)
    (hnfF : nfree s2 (pfree s f) = nfree s f)
    (hpfF : pfree s2 (nfree s f) = pfree s f)
    (hnfO : ∀ x, x ≠ pfree s f → nfree s2 x = nfree s x)
    (hpfO : ∀ x, x ≠ nfree s f → pfree s2 x = pfree s x) :
    ∀ R b, isRingB s b R = true → R.Nodup → b ∉ R → f ∈ R →
      isRingB s2 b (R.erase f) = true := by
  intro R
  induction R with
  | nil => intro b _ _ _ hf; cases hf
  | cons x R ih =>
    intro b h hnd hb hf
    rcases (isRingB_cons s b x R).mp h with ⟨hnf, hx0, hxn, hpf, h2⟩
    have hxR : x ∉ R := (List.nodup_cons.mp hnd).1
    have hndR : R.Nodup := (List.nodup_cons.mp hnd).2
    have hbx : b ≠ x := fun hh => hb (hh ▸ List.mem_cons_self x R)
    have hbR : b ∉ R := fun hh => hb (List.mem_cons_of_mem x hh)
    rcases eq_or_ne x f with rfl | hxf
    · rw [List.erase_cons_head]
      cases R with
      | nil =>
        apply (isRingB_nil s2 b).mpr
        rw [← hpf, hnfF]
        exact (isRingB_nil s x).mp h2
      | cons y R2 =>
        rcases (isRingB_cons s x y R2).mp h2 with ⟨hnf2, hy0, hyn, hpf2, h3⟩
        have hbny : b ≠ y := fun hh => hb (by
          rw [hh]
          exact List.mem_cons_of_mem x (List.mem_cons_self y R2))
        have hbR2 : b ∉ R2 := fun hh => hb (List.mem_cons_of_mem x
          (List.mem_cons_of_mem y hh))
        have hyR2 : y ∉ R2 := (List.nodup_cons.mp hndR).1
        refine (isRingB_cons s2 b y R2).mpr
          ⟨by rw [← hpf, hnfF, hnf2], hy0, by rw [hnum]; exact hyn,
            by rw [← hnf2, hpfF, hpf], ?_⟩
        apply isRingB_congr s2 s hnum R2 y
        · intro z hz
          apply hnfO
          rw [hpf]
          rcases List.mem_cons.mp hz with rfl | hz2
          · exact fun hh => hbny hh.symm
          · exact fun hh => hbR2 (hh ▸ hz2)
        · intro z hz
          apply hpfO
          rw [hnf2]
          exact fun hh => hyR2 (hh ▸ hz)
        · exact h3
    · rw [List.erase_cons, if_neg (show ¬ (x == f) = true from by simp [hxf])]
      have hfR : f ∈ R := by
        rcases List.mem_cons.mp hf with rfl | hh
        · exact absurd rfl hxf
        · exact hh
      have hpfmem : pfree s f ∈ x :: R := ring_pred_tail s R b x h f hfR
      have hbpf : b ≠ pfree s f := fun hh => hb (hh ▸ hpfmem)
      refine (isRingB_cons s2 b x _).mpr
        ⟨by rw [hnfO b hbpf]; exact hnf, hx0, by rw [hnum]; exact hxn, ?_,
          ih x h2 hndR hxR hfR⟩
      have hxnf : x ≠ nfree s f := by
        intro hh
        rcases (ring_neighbor_aux s R x h2 hxR hndR f hfR).1 with h0 | hmem
        · rw [← hh] at h0
          exact hx0 h0
        · rw [← hh] at hmem
          exact hxR hmem
      rw [hpfO x hxnf]
      exact hpf

theorem mapReplace_id (v w : Nat) :
    ∀ L : List Nat, v ∉ L →
      L.map (fun x => if x = v then w else x) = L := by
  intro L
  induction L with
  | nil => intro _; rfl
  | cons x L ih =>
    intro hv
    have hxv : x ≠ v := fun hh => hv (hh ▸ List.mem_cons_self x L)
    simp only [List.map_cons, if_neg hxv]
    rw [ih (fun hh => hv (List.mem_cons_of_mem x hh))]

theorem isRingB_replace (s s2 : HeapState) (v w : Nat)
    (hnum : s2.numblocks = s.numblocks)
    (hw0 : w ≠ 0) (hwn : w < s.numblocks)
    (hnfP : nfree s2 (pfree s v) = w)
    (hpfW : pfree s2 w = pfree s v)
    (hnfW : nfree s2 w = nfree s v)
    (hpfN : pfree s2 (nfree s v) = w)
    (hnfO : ∀ x, x ≠ pfree s v → x ≠ w → nfree s2 x = nfree s x)
    (hpfO : ∀ x, x ≠ nfree s v → x ≠ w → pfree s2 x = pfree s x) :
    ∀ R b, isRingB s b R = true → R.Nodup → b ∉ R → w ∉ R → b ≠ w →
      v ∈ R → isRingB s2 b (R.map (fun x => if x = v then w else x)) = true := by
  intro R
  induction R with
  | nil => intro b _ _ _ _ _ hv; cases hv
  | cons x R ih =>
    intro b h hnd hb hw hbw hv
    rcases (isRingB_cons s b x R).mp h with ⟨hnf, hx0, hxn, hpf, h2⟩
    have hxR : x ∉ R := (List.nodup_cons.mp hnd).1
    have hndR : R.Nodup := (List.nodup_cons.mp hnd).2
    have hbR : b ∉ R := fun hh => hb (List.mem_cons_of_mem x hh)
    have hwR : w ∉ R := fun hh => hw (List.mem_cons_of_mem x hh)
    have hwx : w ≠ x := fun hh => hw (hh ▸ List.mem_cons_self x R)
    rcases eq_or_ne x v with rfl | hxv
    · simp only [List.map_cons, if_pos rfl]
      rw [mapReplace_id x w R hxR]
      refine (isRingB_cons s2 b w R).mpr
        ⟨by rw [← hpf]; exact hnfP, hw0, by rw [hnum]; exact hwn,
          by rw [hpfW, hpf], ?_⟩
      cases R with
      | nil =>
        apply (isRingB_nil s2 w).mpr
        rw [hnfW]
        exact (isRingB_nil s x).mp h2
      | cons y R2 =>
        rcases (isRingB_cons s x y R2).mp h2 with ⟨hnf2, hy0, hyn, hpf2, h3⟩
        have hyR2 : y ∉ R2 := (List.nodup_cons.mp hndR).1
        refine (isRingB_cons s2 w y R2).mpr
          ⟨by rw [hnfW, hnf2], hy0, by rw [hnum]; exact hyn,
            by rw [← hnf2, hpfN], ?_⟩
        apply isRingB_congr s2 s hnum R2 y
        · intro z hz
          refine hnfO z ?_ ?_
          · rw [hpf]
            exact fun hh => hb (hh ▸ List.mem_cons_of_mem x hz)
          · exact fun hh => hwR (hh ▸ hz)
        · intro z hz
          refine hpfO z ?_ ?_
          · rw [hnf2]
            exact fun hh => hyR2 (hh ▸ hz)
          · exact fun hh => hwR (hh ▸ List.mem_cons_of_mem y hz)
        · exact h3
    · simp only [List.map_cons, if_neg hxv]
      have hvR : v ∈ R := by
        rcases List.mem_cons.mp hv with rfl | hh
        · exact absurd rfl hxv
        · exact hh
      have hpfmem : pfree s v ∈ x :: R := ring_pred_tail s R b x h v hvR
      have hbpf : b ≠ pfree s v := fun hh => hb (hh ▸ hpfmem)
      have hxnf : x ≠ nfree s v := by
        intro hh
        rcases (ring_neighbor_aux s R x h2 hxR hndR v hvR).1 with h0 | hmem
        · rw [← hh] at h0
          exact hx0 h0
        · rw [← hh] at hmem
          exact hxR hmem
      refine (isRingB_cons s2 b x _).mpr
        ⟨by rw [hnfO b hbpf hbw]; exact hnf, hx0, by rw [hnum]; exact hxn,
          by rw [hpfO x hxnf (fun hh => hwx hh.symm)]; exact hpf,
          ih x h2 hndR hxR hwR (fun hh => hwx hh.symm) hvR⟩

theorem isRingB_cons_insert (s s2 : HeapState) (c : Nat)
    (hnum : s2.numblocks = s.numblocks)
    (hc0 : c ≠ 0) (hcn : c < s.numblocks)
    (hnf0 : nfree s2 0 = c)
    (hpfC : pfree s2 c = 0)
    (hnfC : nfree s2 c = nfree s 0)
    (hpfH : pfree s2 (nfree s 0) = c)
    (hnfO : ∀ x, x ≠ 0 → x ≠ c → nfree s2 x = nfree s x)
    (hpfO : ∀ x, x ≠ nfree s 0 → x ≠ c → pfree s2 x = pfree s x)
    (R : List Nat) (h : isRingB s 0 R = true) (hnd : R.Nodup)
    (h0R : 0 ∉ R) (hcR : c ∉ R) :
    isRingB s2 0 (c :: R) = true := by
  refine (isRingB_cons s2 0 c R).mpr
    ⟨hnf0, hc0, by rw [hnum]; exact hcn, hpfC, ?_⟩
  cases R with
  | nil =>
    apply (isRingB_nil s2 c).mpr
    rw [hnfC]
    exact (isRingB_nil s 0).mp h
  | cons y R2 =>
    rcases (isRingB_cons s 0 y R2).mp h with ⟨hnf2, hy0, hyn, hpf2, h3⟩
    have hyR2 : y ∉ R2 := (List.nodup_cons.mp hnd).1
    have hcy : c ≠ y := fun hh => hcR (hh ▸ List.mem_cons_self y R2)
    have hcR2 : c ∉ R2 := fun hh => hcR (List.mem_cons_of_mem y hh)
    have h0R2 : 0 ∉ R2 := fun hh => h0R (List.mem_cons_of_mem y hh)
    refine (isRingB_cons s2 c y R2).mpr
      ⟨by rw [hnfC, hnf2], hy0, by rw [hnum]; exact hyn,
        by rw [← hnf2, hpfH], ?_⟩
    apply isRingB_congr s2 s hnum R2 y
    · intro z hz
      refine hnfO z ?_ ?_
      · exact fun hh => h0R (hh ▸ hz)
      · exact fun hh => hcR (hh ▸ hz)
    · intro z hz
      refine hpfO z ?_ ?_
      · rw [hnf2]
        exact fun hh => hyR2 (hh ▸ hz)
      · exact fun hh => hcR2 (hh ▸ hz)
    · exact h3

theorem isChainB_insertAfter (s s2 : HeapState) (v w : Nat)
    (hnum : s2.numblocks = s.numblocks)
    (hvw : v < w) (hwn : w < BLOCKNO_MASK (nblock s v))
    (hmV : BLOCKNO_MASK (nblock s2 v) = w)
    (hmW : BLOCKNO_MASK (nblock s2 w) = BLOCKNO_MASK (nblock s v))
    (hpbW : pblock s2 w = v)
    (hpbN : pblock s2 (BLOCKNO_MASK (nblock s v)) = w)
    (hmO : ∀ x, x ≠ v → x ≠ w →
      BLOCKNO_MASK (nblock s2 x) = BLOCKNO_MASK (nblock s x))
    (hpbO : ∀ x, x ≠ w → x ≠ BLOCKNO_MASK (nblock s v) →
      pblock s2 x = pblock s x) :
    ∀ L b, isChainB s b L = true → (∀ x ∈ b :: L, x ≠ w) → b ≠ v →
      v ∈ L → isChainB s2 b (insertAfterL v w L) = true := by
  intro L
  induction L with
  | nil => intro b _ _ _ hv; cases hv
  | cons x L ih =>
    intro b h hfr hbv hv
    rcases (isChainB_cons s b x L).mp h with ⟨hm, hbx, hxn, hpb, h2⟩
    have hbw : b ≠ w := hfr b (List.mem_cons_self b _)
    have hxw : x ≠ w := hfr x (List.mem_cons_of_mem b (List.mem_cons_self x L))
    rcases eq_or_ne x v with rfl | hxv
    · unfold insertAfterL
      rw [if_pos rfl]
      cases L with
      | nil =>
        rcases (isChainB_nil s x).mp h2 with ⟨h0, _⟩
        rw [h0] at hwn
        omega
      | cons y T =>
        rcases (isChainB_cons s x y T).mp h2 with ⟨hm2, hxy, hyn, hpb2, h3⟩
        have hyv : x < y := hxy
        refine (isChainB_cons s2 b x _).mpr
          ⟨by rw [hmO b hbv hbw]; exact hm, hbx, by rw [hnum]; exact hxn,
            by rw [hpbO x hxw (by omega)]; exact hpb, ?_⟩
        refine (isChainB_cons s2 x w _).mpr
          ⟨hmV, hvw, by rw [hnum]; rw [hm2] at hwn; omega, hpbW, ?_⟩
        refine (isChainB_cons s2 w y T).mpr
          ⟨by rw [hmW]; exact hm2, by rw [hm2] at hwn; exact hwn,
            by rw [hnum]; exact hyn, by rw [← hm2]; exact hpbN, ?_⟩
        apply isChainB_congr s2 s hnum T y
        · intro z hz
          refine hmO z ?_ ?_
          · rcases List.mem_cons.mp hz with rfl | hz2
            · omega
            · have := (isChainB_mem s T y h3 z hz2).1
              omega
          · rcases List.mem_cons.mp hz with rfl | hz2
            · rw [hm2] at hwn
              omega
            · have := (isChainB_mem s T y h3 z hz2).1
              rw [hm2] at hwn
              omega
        · intro z hz
          have hzgt := (isChainB_mem s T y h3 z hz).1
          refine hpbO z ?_ ?_
          · rw [hm2] at hwn
            omega
          · rw [hm2]
            omega
        · exact h3
    · unfold insertAfterL
      rw [if_neg hxv]
      have hvL : v ∈ L := by
        rcases List.mem_cons.mp hv with rfl | hh
        · exact absurd rfl hxv
        · exact hh
      have hxltv := (isChainB_mem s L x h2 v hvL).1
      refine (isChainB_cons s2 b x _).mpr
        ⟨by rw [hmO b hbv hbw]; exact hm, hbx, by rw [hnum]; exact hxn,
          by rw [hpbO x hxw (by omega)]; exact hpb,
          ih x h2 (fun z hz => hfr z (List.mem_cons_of_mem b hz)) hxv hvL⟩

theorem isChainB_remove (s s2 : HeapState) (u v : Nat)
    (hnum : s2.numblocks = s.numblocks)
    (huv : u < v)
    (hsucc : BLOCKNO_MASK (nblock s u) = v)
    (hvlt : v < BLOCKNO_MASK (nblock s v))
    (hmU : BLOCKNO_MASK (nblock s2 u) = BLOCKNO_MASK (nblock s v))
    (hpbN : pblock s2 (BLOCKNO_MASK (nblock s v)) = u)
    (hmO : ∀ x, x ≠ u → x ≠ v →
      BLOCKNO_MASK (nblock s2 x) = BLOCKNO_MASK (nblock s x))
    (hpbO : ∀ x, x ≠ BLOCKNO_MASK (nblock s v) → x ≠ v →
      pblock s2 x = pblock s x) :
    ∀ L b, isChainB s b L = true → (u = b ∨ u ∈ L) → b ≠ v →
      isChainB s2 b (L.erase v) = true := by
  intro L
  induction L with
  | nil =>
    intro b h hu _
    rcases hu with rfl | hu2
    · rcases (isChainB_nil s u).mp h with ⟨h0, _⟩
      omega
    · cases hu2
  | cons x L ih =>
    intro b h hu hbv
    rcases (isChainB_cons s b x L).mp h with ⟨hm, hbx, hxn, hpb, h2⟩
    rcases hu with rfl | huL
    · -- b is the absorbing block u; its successor x is v, which drops out
      have hxv : x = v := by rw [← hm, hsucc]
      rw [hxv] at hm hbx hxn hpb h2 ⊢
      rw [List.erase_cons_head]
      cases L with
      | nil =>
        rcases (isChainB_nil s v).mp h2 with ⟨h0, _⟩
        omega
      | cons y T =>
        rcases (isChainB_cons s v y T).mp h2 with ⟨hm2, hxy, hyn, hpb2, h3⟩
        refine (isChainB_cons s2 u y T).mpr
          ⟨by rw [hmU, hm2], by omega, by rw [hnum]; exact hyn,
            by rw [← hm2]; exact hpbN, ?_⟩
        apply isChainB_congr s2 s hnum T y
        · intro z hz
          rcases List.mem_cons.mp hz with h4 | h4
          · exact hmO z (by omega) (by omega)
          · have h5 := (isChainB_mem s T y h3 z h4).1
            exact hmO z (by omega) (by omega)
        · intro z hz
          have h5 := (isChainB_mem s T y h3 z hz).1
          refine hpbO z ?_ (by omega)
          rw [hm2]
          omega
        · exact h3
    · -- u lies further on; the current step is untouched
      have hxvne : x ≠ v := by
        rcases List.mem_cons.mp huL with h4 | h4
        · omega
        · have h5 := (isChainB_mem s L x h2 u h4).1
          omega
      rw [List.erase_cons, if_neg (show ¬ (x == v) = true from by
        simp [hxvne])]
      have hbu : b ≠ u := by
        rcases List.mem_cons.mp huL with h4 | h4
        · omega
        · have h5 := (isChainB_mem s L x h2 u h4).1
          omega
      have hxne_n0 : x ≠ BLOCKNO_MASK (nblock s v) := by
        rcases List.mem_cons.mp huL with h4 | h4
        · omega
        · have h5 := (isChainB_mem s L x h2 u h4).1
          omega
      refine (isChainB_cons s2 b x _).mpr
        ⟨by rw [hmO b hbu hbv]; exact hm, hbx, by rw [hnum]; exact hxn,
          by rw [hpbO x hxne_n0 hxvne]; exact hpb,
          ih x h2 (List.mem_cons.mp huL) hxvne⟩

theorem mask_lt (v : Nat) : BLOCKNO_MASK v < 32768 := by
  unfold BLOCKNO_MASK
  omega

theorem mask_mask (v : Nat) : BLOCKNO_MASK (BLOCKNO_MASK v) = BLOCKNO_MASK v := by
  unfold BLOCKNO_MASK
  omega

theorem ring_zero_not_mem (s : HeapState) (R : List Nat) (b : Nat)
    (h : isRingB s b R = true) : 0 ∉ R :=
  fun hh => (isRingB_mem s R b h 0 hh).1 rfl

theorem HeapInv_disc_desc (s u : HeapState) (f : Nat) (hInv : HeapInv s)
    (hf : f ∈ ringList s)
    (hnum : u.numblocks = s.numblocks)
    (hnbF : nblock u f = BLOCKNO_MASK (nblock s f))
    (hnbO : ∀ x, x ≠ f → nblock u x = nblock s x)
    (hpbO : ∀ x, pblock u x = pblock s x)
    (hnfF : nfree u (pfree s f) = nfree s f)
    (hnfO : ∀ x, x ≠ pfree s f → nfree u x = nfree s x)
    (hpfF : pfree u (nfree s f) = pfree s f)
    (hpfO : ∀ x, x ≠ nfree s f → pfree u x = pfree s x) :
    HeapInv u ∧ chainList u = chainList s ∧
      ringList u = (ringList s).erase f := by
  obtain ⟨hnb2, hnb15, hch, hring, hnd, hfl0, hflTop, hcoh, hrc, hnoadj⟩ := hInv
  have h0R : 0 ∉ ringList s := ring_zero_not_mem s (ringList s) 0 hring
  have hfch : f ∈ chainList s := hrc f hf
  have hfflag : 32768 ≤ nblock s f := (hcoh f hfch).mpr hf
  have hf0 : 0 < f := (isChainB_mem s (chainList s) 0 hch f hfch).1
  have hftop : f ≠ s.numblocks - 1 := by
    intro hh
    rw [hh] at hfflag
    omega
  have hmaskAll : ∀ x, BLOCKNO_MASK (nblock u x) = BLOCKNO_MASK (nblock s x) := by
    intro x
    rcases eq_or_ne x f with rfl | hx
    · rw [hnbF, mask_mask]
    · rw [hnbO x hx]
  have hcheq : chainList u = chainList s := by
    unfold chainList
    exact chainAux_congr u s 65536 0 (fun x _ => hmaskAll x)
  have hchu : isChainB u 0 (chainList s) = true :=
    isChainB_congr u s hnum (chainList s) 0 (fun x _ => hmaskAll x)
      (fun x _ => hpbO x) hch
  have hringu : isRingB u 0 ((ringList s).erase f) = true :=
    isRingB_erase s u f hnum hnfF hpfF hnfO hpfO (ringList s) 0 hring hnd
      h0R hf
  have hrlen : ((ringList s).erase f).length < 65536 := by
    have h1 := nodup_length_le (ringList s) s.numblocks hnd
      (fun x hx => (isRingB_mem s (ringList s) 0 hring x hx).2)
    have h2 := ((ringList s).erase_sublist f).length_le
    omega
  have hrgeq : ringList u = (ringList s).erase f := by
    unfold ringList
    exact ringAux_of_isRingB u _ 0 65536 hringu hrlen
  refine ⟨⟨by omega, by omega, ?_, ?_, ?_, ?_, ?_, ?_, ?_, ?_⟩, hcheq, hrgeq⟩
  · rw [hcheq]
    exact hchu
  · rw [hrgeq]
    exact hringu
  · rw [hrgeq]
    exact hnd.erase f
  · rw [hnbO 0 (by omega)]
    exact hfl0
  · rw [hnum, hnbO (s.numblocks - 1) (fun hh => hftop hh.symm)]
    exact hflTop
  · intro x hx
    rw [hcheq] at hx
    rw [hrgeq]
    rcases eq_or_ne x f with rfl | hxf
    · rw [hnbF]
      constructor
      · intro hcon
        have := mask_lt (nblock s x)
        omega
      · intro hcon
        exact absurd hcon hnd.not_mem_erase
    · rw [hnbO x hxf, hnd.mem_erase_iff]
      constructor
      · intro hflag
        exact ⟨hxf, (hcoh x hx).mp hflag⟩
      · intro hmem
        exact (hcoh x hx).mpr hmem.2
  · intro x hx
    rw [hrgeq] at hx
    rw [hcheq]
    exact hrc x (List.mem_of_mem_erase hx)
  · intro x hx hflag
    rw [hcheq] at hx
    have hxf : x ≠ f := by
      intro hh
      rw [hh, hnbF] at hflag
      have := mask_lt (nblock s f)
      omega
    rw [hnbO x hxf] at hflag
    rw [hmaskAll x]
    rcases eq_or_ne (BLOCKNO_MASK (nblock s x)) f with heq | hne2
    · rw [heq, hnbF]
      exact mask_lt (nblock s f)
    · rw [hnbO _ hne2]
      exact hnoadj x hx hflag

theorem HeapInv_insert_desc (s u : HeapState) (c : Nat) (hInv : HeapInv s)
    (hc : c ∈ chainList s) (hcu : nblock s c < 32768)
    (hne : BLOCKNO_MASK (nblock s c) ≠ 0)
    (hnext : nblock s (BLOCKNO_MASK (nblock s c)) < 32768)
    (hprev : nblock s (pblock s c) < 32768)
    (hnum : u.numblocks = s.numblocks)
    (hnbC : nblock u c = BLOCKNO_MASK (nblock s c) + 32768)
    (hnbO : ∀ x, x ≠ c → nblock u x = nblock s x)
    (hpbA : ∀ x, pblock u x = pblock s x)
    (hnf0 : nfree u 0 = c)
    (hnfC : nfree u c = nfree s 0)
    (hnfO : ∀ x, x ≠ 0 → x ≠ c → nfree u x = nfree s x)
    (hpfC : pfree u c = 0)
    (hpfH : pfree u (nfree s 0) = c)
    (hpfO : ∀ x, x ≠ c → x ≠ nfree s 0 → pfree u x = pfree s x) :
    HeapInv u ∧ chainList u = chainList s ∧
      ringList u = c :: ringList s := by
  obtain ⟨hnb2, hnb15, hch, hring, hnd, hfl0, hflTop, hcoh, hrc, hnoadj⟩ := hInv
  have h0R : 0 ∉ ringList s := ring_zero_not_mem s (ringList s) 0 hring
  have hcR : c ∉ ringList s := by
    intro hh
    have := (hcoh c hc).mpr hh
    omega
  have hc0 : 0 < c := (isChainB_mem s (chainList s) 0 hch c hc).1
  have hcn : c < s.numblocks := (isChainB_mem s (chainList s) 0 hch c hc).2
  have hsucc := isChainB_succ s (chainList s) 0 hch c
    (List.mem_cons_of_mem 0 hc) hne
  have hctop : c ≠ s.numblocks - 1 := by
    have h1 := hsucc.2.1
    have h2 := hsucc.2.2.2
    omega
  have hmaskAll : ∀ x, BLOCKNO_MASK (nblock u x) =
      BLOCKNO_MASK (nblock s x) := by
    intro x
    rcases eq_or_ne x c with rfl | hx
    · rw [hnbC]
      have := mask_lt (nblock s x)
      unfold BLOCKNO_MASK
      omega
    · rw [hnbO x hx]
  have hcheq : chainList u = chainList s := by
    unfold chainList
    exact chainAux_congr u s 65536 0 (fun x _ => hmaskAll x)
  have hchu : isChainB u 0 (chainList s) = true :=
    isChainB_congr u s hnum (chainList s) 0 (fun x _ => hmaskAll x)
      (fun x _ => hpbA x) hch
  have hringu : isRingB u 0 (c :: ringList s) = true :=
    isRingB_cons_insert s u c hnum (by omega) hcn hnf0 hpfC hnfC hpfH
      hnfO (fun x h1 h2 => hpfO x h2 h1) (ringList s) hring hnd h0R hcR
  have hrlen : (c :: ringList s).length < 65536 := by
    have h1 := nodup_length_le (ringList s) s.numblocks hnd
      (fun x hx => (isRingB_mem s (ringList s) 0 hring x hx).2)
    simp only [List.length_cons]
    omega
  have hrgeq : ringList u = c :: ringList s := by
    unfold ringList
    exact ringAux_of_isRingB u _ 0 65536 hringu hrlen
  refine ⟨⟨by omega, by omega, ?_, ?_, ?_, ?_, ?_, ?_, ?_, ?_⟩, hcheq, hrgeq⟩
  · rw [hcheq]
    exact hchu
  · rw [hrgeq]
    exact hringu
  · rw [hrgeq]
    exact List.nodup_cons.mpr ⟨hcR, hnd⟩
  · rw [hnbO 0 (by omega)]
    exact hfl0
  · rw [hnum, hnbO (s.numblocks - 1) (fun hh => hctop hh.symm)]
    exact hflTop
  · intro x hx
    rw [hcheq] at hx
    rw [hrgeq]
    rcases eq_or_ne x c with rfl | hxc
    · rw [hnbC]
      constructor
      · intro _
        exact List.mem_cons_self x _
      · intro _
        omega
    · rw [hnbO x hxc]
      constructor
      · intro hflag
        exact List.mem_cons_of_mem c ((hcoh x hx).mp hflag)
      · intro hmem
        rcases List.mem_cons.mp hmem with h4 | h4
        · exact absurd h4 hxc
        · exact (hcoh x hx).mpr h4
  · intro x hx
    rw [hrgeq] at hx
    rw [hcheq]
    rcases List.mem_cons.mp hx with rfl | h4
    · exact hc
    · exact hrc x h4
  · intro x hx hflag
    rw [hcheq] at hx
    rw [hmaskAll x]
    rcases eq_or_ne x c with rfl | hxc
    · rw [hnbO _ (by omega)]
      exact hnext
    · rw [hnbO x hxc] at hflag
      have htne : BLOCKNO_MASK (nblock s x) ≠ c := by
        intro hh
        have hne2 : BLOCKNO_MASK (nblock s x) ≠ 0 := by omega
        have h5 := (isChainB_succ s (chainList s) 0 hch x
          (List.mem_cons_of_mem 0 hx) hne2).2.2.1
        rw [hh] at h5
        rw [h5] at hprev
        omega
      rw [hnbO _ htne]
      exact hnoadj x hx hflag

theorem isChainB_nodup (s : HeapState) :
    ∀ L b, isChainB s b L = true → L.Nodup := by
  intro L
  induction L with
  | nil => intro b _; exact List.nodup_nil
  | cons x L ih =>
    intro b h
    rcases (isChainB_cons s b x L).mp h with ⟨_, _, _, _, h2⟩
    refine List.nodup_cons.mpr ⟨?_, ih x h2⟩
    intro hx
    have := (isChainB_mem s L x h2 x hx).1
    omega

theorem HeapInv_assim_up_desc (s u : HeapState) (c : Nat) (hInv : HeapInv s)
    (hc : c ∈ chainList s) (hcu : nblock s c < 32768)
    (hne : BLOCKNO_MASK (nblock s c) ≠ 0)
    (hnf : 32768 ≤ nblock s (BLOCKNO_MASK (nblock s c)))
    (hnum : u.numblocks = s.numblocks)
    (hnbC : nblock u c =
      BLOCKNO_MASK (nblock s (BLOCKNO_MASK (nblock s c))))
    (hnbO : ∀ x, x ≠ c → x ≠ BLOCKNO_MASK (nblock s c) →
      nblock u x = nblock s x)
    (hpbNN : pblock u
      (BLOCKNO_MASK (nblock s (BLOCKNO_MASK (nblock s c)))) = c)
    (hpbO : ∀ x,
      x ≠ BLOCKNO_MASK (nblock s (BLOCKNO_MASK (nblock s c))) →
      pblock u x = pblock s x)
    (hnfF : nfree u (pfree s (BLOCKNO_MASK (nblock s c))) =
      nfree s (BLOCKNO_MASK (nblock s c)))
    (hnfO : ∀ x, x ≠ pfree s (BLOCKNO_MASK (nblock s c)) →
      nfree u x = nfree s x)
    (hpfF : pfree u (nfree s (BLOCKNO_MASK (nblock s c))) =
      pfree s (BLOCKNO_MASK (nblock s c)))
    (hpfO : ∀ x, x ≠ nfree s (BLOCKNO_MASK (nblock s c)) →
      pfree u x = pfree s x) :
    HeapInv u ∧
    chainList u = (chainList s).erase (BLOCKNO_MASK (nblock s c)) ∧
    ringList u = (ringList s).erase (BLOCKNO_MASK (nblock s c)) ∧
    c ∈ chainList u ∧
    nblock u c = BLOCKNO_MASK (nblock s (BLOCKNO_MASK (nblock s c))) ∧
    BLOCKNO_MASK (nblock u c) ≠ 0 ∧
    pblock u c = pblock s c := by
  obtain ⟨hnb2, hnb15, hch, hring, hnd, hfl0, hflTop, hcoh, hrc, hnoadj⟩ := hInv
  have hchnd : (chainList s).Nodup := isChainB_nodup s (chainList s) 0 hch
  have h0R : 0 ∉ ringList s := ring_zero_not_mem s (ringList s) 0 hring
  have hc0 : 0 < c := (isChainB_mem s (chainList s) 0 hch c hc).1
  have hcn : c < s.numblocks := (isChainB_mem s (chainList s) 0 hch c hc).2
  have hsucc := isChainB_succ s (chainList s) 0 hch c
    (List.mem_cons_of_mem 0 hc) hne
  have hnch : BLOCKNO_MASK (nblock s c) ∈ chainList s := hsucc.1
  have hcltn : c < BLOCKNO_MASK (nblock s c) := hsucc.2.1
  have hpbn : pblock s (BLOCKNO_MASK (nblock s c)) = c := hsucc.2.2.1
  have hnlt : BLOCKNO_MASK (nblock s c) < s.numblocks := hsucc.2.2.2
  have hnring : BLOCKNO_MASK (nblock s c) ∈ ringList s :=
    (hcoh _ hnch).mp hnf
  have hnne0 : BLOCKNO_MASK (nblock s (BLOCKNO_MASK (nblock s c))) ≠ 0 := by
    intro hh
    have h2 := isChainB_mask_zero s (chainList s) 0 hch _ hnch hh
    rw [h2] at hnf
    omega
  have hsucc2 := isChainB_succ s (chainList s) 0 hch _
    (List.mem_cons_of_mem 0 hnch) hnne0
  have hnnch : BLOCKNO_MASK (nblock s (BLOCKNO_MASK (nblock s c))) ∈
      chainList s := hsucc2.1
  have hnltnn : BLOCKNO_MASK (nblock s c) <
      BLOCKNO_MASK (nblock s (BLOCKNO_MASK (nblock s c))) := hsucc2.2.1
  have hnnused : nblock s
      (BLOCKNO_MASK (nblock s (BLOCKNO_MASK (nblock s c)))) < 32768 :=
    hnoadj _ hnch hnf
  have hcnotring : c ∉ ringList s := by
    intro hh
    have := (hcoh c hc).mpr hh
    omega
  have hntop : BLOCKNO_MASK (nblock s c) ≠ s.numblocks - 1 := by
    intro hh
    rw [hh] at hnf
    omega
  have hctop : c ≠ s.numblocks - 1 := by omega
  have hchu : isChainB u 0
      ((chainList s).erase (BLOCKNO_MASK (nblock s c))) = true := by
    apply isChainB_remove s u c (BLOCKNO_MASK (nblock s c)) hnum hcltn rfl
      hnltnn (by rw [hnbC, mask_mask]) hpbNN
      (fun x h1 h2 => by rw [hnbO x h1 h2])
      (fun x h1 h2 => hpbO x h1) (chainList s) 0 hch (Or.inr hc) (by omega)
  have hclen : ((chainList s).erase (BLOCKNO_MASK (nblock s c))).length
      < 65536 := by
    have h1 := isChainB_length s (chainList s) 0 hch
    have h2 := ((chainList s).erase_sublist
      (BLOCKNO_MASK (nblock s c))).length_le
    omega
  have hcheq : chainList u =
      (chainList s).erase (BLOCKNO_MASK (nblock s c)) := by
    unfold chainList
    exact chainAux_of_isChainB u _ 0 65536 hchu hclen
  have hringu : isRingB u 0
      ((ringList s).erase (BLOCKNO_MASK (nblock s c))) = true :=
    isRingB_erase s u (BLOCKNO_MASK (nblock s c)) hnum hnfF hpfF hnfO hpfO
      (ringList s) 0 hring hnd h0R hnring
  have hrlen : ((ringList s).erase (BLOCKNO_MASK (nblock s c))).length
      < 65536 := by
    have h1 := nodup_length_le (ringList s) s.numblocks hnd
      (fun x hx => (isRingB_mem s (ringList s) 0 hring x hx).2)
    have h2 := ((ringList s).erase_sublist
      (BLOCKNO_MASK (nblock s c))).length_le
    omega
  have hrgeq : ringList u =
      (ringList s).erase (BLOCKNO_MASK (nblock s c)) := by
    unfold ringList
    exact ringAux_of_isRingB u _ 0 65536 hringu hrlen
  have hcmem : c ∈ chainList u := by
    rw [hcheq]
    exact hchnd.mem_erase_iff.mpr ⟨by omega, hc⟩
  refine ⟨⟨by omega, by omega, ?_, ?_, ?_, ?_, ?_, ?_, ?_, ?_⟩, hcheq, hrgeq,
    hcmem, hnbC, by rw [hnbC, mask_mask]; exact hnne0,
    hpbO c (by omega)⟩
  · rw [hcheq]
    exact hchu
  · rw [hrgeq]
    exact hringu
  · rw [hrgeq]
    exact hnd.erase _
  · rw [hnbO 0 (by omega) (by omega)]
    exact hfl0
  · rw [hnum, hnbO (s.numblocks - 1) (fun hh => hctop hh.symm)
      (fun hh => hntop hh.symm)]
    exact hflTop
  · intro x hx
    rw [hcheq] at hx
    rw [hrgeq]
    have hxn : x ≠ BLOCKNO_MASK (nblock s c) :=
      (hchnd.mem_erase_iff.mp hx).1
    have hxch : x ∈ chainList s := List.mem_of_mem_erase hx
    rcases eq_or_ne x c with rfl | hxc
    · rw [hnbC]
      constructor
      · intro hcon
        have := mask_lt (nblock s (BLOCKNO_MASK (nblock s x)))
        omega
      · intro hcon
        exact absurd (List.mem_of_mem_erase hcon) hcnotring
    · rw [hnbO x hxc hxn, hnd.mem_erase_iff]
      constructor
      · intro hflag
        exact ⟨hxn, (hcoh x hxch).mp hflag⟩
      · intro hmem
        exact (hcoh x hxch).mpr hmem.2
  · intro x hx
    rw [hrgeq] at hx
    rw [hcheq]
    have hxn : x ≠ BLOCKNO_MASK (nblock s c) := (hnd.mem_erase_iff.mp hx).1
    exact hchnd.mem_erase_iff.mpr ⟨hxn, hrc x (List.mem_of_mem_erase hx)⟩
  · intro x hx hflag
    rw [hcheq] at hx
    have hxn : x ≠ BLOCKNO_MASK (nblock s c) :=
      (hchnd.mem_erase_iff.mp hx).1
    have hxch : x ∈ chainList s := List.mem_of_mem_erase hx
    have hxc : x ≠ c := by
      intro hh
      rw [hh, hnbC] at hflag
      have := mask_lt (nblock s (BLOCKNO_MASK (nblock s c)))
      omega
    rw [hnbO x hxc hxn] at hflag
    have hmaskx : BLOCKNO_MASK (nblock u x) = BLOCKNO_MASK (nblock s x) := by
      rw [hnbO x hxc hxn]
    rw [hmaskx]
    have htn : BLOCKNO_MASK (nblock s x) ≠ BLOCKNO_MASK (nblock s c) := by
      intro hh
      have hne2 : BLOCKNO_MASK (nblock s x) ≠ 0 := by omega
      have h5 := (isChainB_succ s (chainList s) 0 hch x
        (List.mem_cons_of_mem 0 hxch) hne2).2.2.1
      rw [hh, hpbn] at h5
      rw [← h5] at hflag
      omega
    rcases eq_or_ne (BLOCKNO_MASK (nblock s x)) c with heq | hne3
    · rw [heq, hnbC]
      exact mask_lt _
    · rw [hnbO _ hne3 htn]
      exact hnoadj x hxch hflag

theorem mask_orFreemask (v m : Nat) (hm : m = 0 ∨ m = 32768) :
    BLOCKNO_MASK (orFreemask v m) = BLOCKNO_MASK v := by
  unfold orFreemask BLOCKNO_MASK
  rcases hm with rfl | rfl
  · rw [if_pos rfl]
  · rw [if_neg (by omega)]
    omega

theorem HeapInv_assim_down_desc (s u : HeapState) (c m : Nat)
    (hInv : HeapInv s)
    (hc : c ∈ chainList s) (hcu : nblock s c < 32768)
    (hne : BLOCKNO_MASK (nblock s c) ≠ 0)
    (hnextused : m = 32768 → nblock s (BLOCKNO_MASK (nblock s c)) < 32768)
    (hp0 : pblock s c ≠ 0)
    (hcase : (m = 32768 ∧ pblock s c ∈ ringList s) ∨
      (m = 0 ∧ pblock s c ∉ ringList s))
    (hnum : u.numblocks = s.numblocks)
    (hnbP : nblock u (pblock s c) = orFreemask (nblock s c) m)
    (hnbO : ∀ x, x ≠ pblock s c → nblock u x = nblock s x)
    (hpbN : pblock u (BLOCKNO_MASK (nblock s c)) = pblock s c)
    (hpbO : ∀ x, x ≠ BLOCKNO_MASK (nblock s c) → pblock u x = pblock s x)
    (hnfA : ∀ x, nfree u x = nfree s x)
    (hpfA : ∀ x, pfree u x = pfree s x) :
    HeapInv u ∧
    chainList u = (chainList s).erase c ∧
    ringList u = ringList s ∧
    pblock s c ∈ chainList u ∧
    BLOCKNO_MASK (nblock u (pblock s c)) = BLOCKNO_MASK (nblock s c) := by
  obtain ⟨hnb2, hnb15, hch, hring, hnd, hfl0, hflTop, hcoh, hrc, hnoadj⟩ := hInv
  have hchnd : (chainList s).Nodup := isChainB_nodup s (chainList s) 0 hch
  have hmor : m = 0 ∨ m = 32768 := by
    rcases hcase with ⟨h1, _⟩ | ⟨h1, _⟩
    · exact Or.inr h1
    · exact Or.inl h1
  obtain ⟨pp, hpmem, hpm, hpb, hplt⟩ :=
    chain_pred s (chainList s) 0 hch c hc
  have hppch : pp ∈ chainList s := by
    rcases hpmem with rfl | h4
    · rw [hpb] at hp0
      exact absurd rfl hp0
    · exact h4
  have hc0 : 0 < c := (isChainB_mem s (chainList s) 0 hch c hc).1
  have hcn : c < s.numblocks := (isChainB_mem s (chainList s) 0 hch c hc).2
  have hsucc := isChainB_succ s (chainList s) 0 hch c
    (List.mem_cons_of_mem 0 hc) hne
  have hcltn : c < BLOCKNO_MASK (nblock s c) := hsucc.2.1
  have hnlt : BLOCKNO_MASK (nblock s c) < s.numblocks := hsucc.2.2.2
  have hcnotring : c ∉ ringList s := by
    intro hh
    have := (hcoh c hc).mpr hh
    omega
  have hpptop : pp ≠ s.numblocks - 1 := by omega
  have hctop : c ≠ s.numblocks - 1 := by omega
  have hmaskP : BLOCKNO_MASK (nblock u pp) = BLOCKNO_MASK (nblock s c) := by
    rw [← hpb, hnbP, mask_orFreemask (nblock s c) m hmor]
  have hchu : isChainB u 0 ((chainList s).erase c) = true := by
    apply isChainB_remove s u pp c hnum hplt hpm hcltn hmaskP
      (by rw [hpbN, hpb])
      (fun x h1 h2 => by rw [hnbO x (by rw [hpb]; exact h1)])
      (fun x h1 h2 => hpbO x h1) (chainList s) 0 hch (Or.inr hppch)
      (by omega)
  have hclen : ((chainList s).erase c).length < 65536 := by
    have h1 := isChainB_length s (chainList s) 0 hch
    have h2 := ((chainList s).erase_sublist c).length_le
    omega
  have hcheq : chainList u = (chainList s).erase c := by
    unfold chainList
    exact chainAux_of_isChainB u _ 0 65536 hchu hclen
  have hringu : isRingB u 0 (ringList s) = true :=
    isRingB_congr u s hnum (ringList s) 0 (fun x _ => hnfA x)
      (fun x _ => hpfA x) hring
  have hrlen : (ringList s).length < 65536 := by
    have h1 := nodup_length_le (ringList s) s.numblocks hnd
      (fun x hx => (isRingB_mem s (ringList s) 0 hring x hx).2)
    omega
  have hrgeq : ringList u = ringList s := by
    unfold ringList
    exact ringAux_of_isRingB u _ 0 65536 hringu hrlen
  have hppmem : pp ∈ chainList u := by
    rw [hcheq]
    exact hchnd.mem_erase_iff.mpr ⟨by omega, hppch⟩
  refine ⟨⟨by omega, by omega, ?_, ?_, ?_, ?_, ?_, ?_, ?_, ?_⟩, hcheq, hrgeq,
    by rw [hpb]; exact hppmem, by rw [hpb]; exact hmaskP⟩
  · rw [hcheq]
    exact hchu
  · rw [hrgeq]
    exact hringu
  · rw [hrgeq]
    exact hnd
  · rw [hnbO 0 (by rw [hpb]; omega)]
    exact hfl0
  · rw [hnum, hnbO (s.numblocks - 1) (by rw [hpb]; omega)]
    exact hflTop
  · intro x hx
    rw [hcheq] at hx
    rw [hrgeq]
    have hxc : x ≠ c := (hchnd.mem_erase_iff.mp hx).1
    have hxch : x ∈ chainList s := List.mem_of_mem_erase hx
    rcases eq_or_ne x pp with rfl | hxpp
    · rw [← hpb, hnbP]
      rcases hcase with ⟨hm1, hm2⟩ | ⟨hm1, hm2⟩
      · subst hm1
        unfold orFreemask
        rw [if_neg (by omega)]
        constructor
        · intro _
          exact hm2
        · intro _
          omega
      · subst hm1
        unfold orFreemask
        rw [if_pos rfl]
        constructor
        · intro hcon
          omega
        · intro hcon
          exact absurd hcon hm2
    · rw [hnbO x (by rw [hpb]; exact hxpp)]
      exact hcoh x hxch
  · intro x hx
    rw [hrgeq] at hx
    rw [hcheq]
    have hxc : x ≠ c := fun hh => hcnotring (hh ▸ hx)
    exact hchnd.mem_erase_iff.mpr ⟨hxc, hrc x hx⟩
  · intro x hx hflag
    rw [hcheq] at hx
    have hxc : x ≠ c := (hchnd.mem_erase_iff.mp hx).1
    have hxch : x ∈ chainList s := List.mem_of_mem_erase hx
    rcases eq_or_ne x pp with rfl | hxpp
    · rw [hmaskP]
      have hnc : BLOCKNO_MASK (nblock s c) ≠ x := by omega
      rw [hnbO _ (by rw [hpb]; exact fun hh => hnc hh)]
      rcases hcase with ⟨hm1, hm2⟩ | ⟨hm1, hm2⟩
      · exact hnextused hm1
      · exfalso
        rw [← hpb, hnbP] at hflag
        subst hm1
        unfold orFreemask at hflag
        rw [if_pos rfl] at hflag
        omega
    · rw [hnbO x (by rw [hpb]; exact hxpp)] at hflag
      have hmaskx : BLOCKNO_MASK (nblock u x) =
          BLOCKNO_MASK (nblock s x) := by
        rw [hnbO x (by rw [hpb]; exact hxpp)]
      rw [hmaskx]
      rcases eq_or_ne (BLOCKNO_MASK (nblock s x)) pp with heq | htpp
      · rw [heq, ← hpb, hnbP]
        rcases hcase with ⟨hm1, hm2⟩ | ⟨hm1, hm2⟩
        · exfalso
          have h5 := hnoadj x hxch hflag
          rw [heq] at h5
          rw [hpb] at hm2
          have := (hcoh pp hppch).mpr hm2
          omega
        · subst hm1
          unfold orFreemask
          rw [if_pos rfl]
          omega
      · rw [hnbO _ (by rw [hpb]; exact htpp)]
        exact hnoadj x hxch hflag

theorem insertAfterL_mem (v w : Nat) :
    ∀ L : List Nat, ∀ x, x ∈ insertAfterL v w L → x ∈ L ∨ x = w := by
  intro L
  induction L with
  | nil => intro x hx; cases hx
  | cons y L ih =>
    intro x hx
    unfold insertAfterL at hx
    rcases eq_or_ne y v with rfl | hyv
    · rw [if_pos rfl] at hx
      rcases List.mem_cons.mp hx with rfl | hx2
      · exact Or.inl (List.mem_cons_self x L)
      · rcases List.mem_cons.mp hx2 with rfl | hx3
        · exact Or.inr rfl
        · exact Or.inl (List.mem_cons_of_mem y hx3)
    · rw [if_neg hyv] at hx
      rcases List.mem_cons.mp hx with rfl | hx2
      · exact Or.inl (List.mem_cons_self x L)
      · rcases ih x hx2 with h4 | h4
        · exact Or.inl (List.mem_cons_of_mem y h4)
        · exact Or.inr h4

theorem insertAfterL_mem_of (v w : Nat) :
    ∀ L : List Nat, ∀ x, x ∈ L → x ∈ insertAfterL v w L := by
  intro L
  induction L with
  | nil => intro x hx; cases hx
  | cons y L ih =>
    intro x hx
    unfold insertAfterL
    rcases eq_or_ne y v with rfl | hyv
    · rw [if_pos rfl]
      rcases List.mem_cons.mp hx with rfl | hx2
      · exact List.mem_cons_self x _
      · exact List.mem_cons_of_mem y (List.mem_cons_of_mem w hx2)
    · rw [if_neg hyv]
      rcases List.mem_cons.mp hx with rfl | hx2
      · exact List.mem_cons_self x _
      · exact List.mem_cons_of_mem y (ih x hx2)

theorem insertAfterL_mem_w (v w : Nat) :
    ∀ L : List Nat, v ∈ L → w ∈ insertAfterL v w L := by
  intro L
  induction L with
  | nil => intro hv; cases hv
  | cons y L ih =>
    intro hv
    unfold insertAfterL
    rcases eq_or_ne y v with rfl | hyv
    · rw [if_pos rfl]
      exact List.mem_cons_of_mem y (List.mem_cons_self w L)
    · rw [if_neg hyv]
      have hv2 : v ∈ L := by
        rcases List.mem_cons.mp hv with rfl | h4
        · exact absurd rfl hyv
        · exact h4
      exact List.mem_cons_of_mem y (ih hv2)

theorem insertAfterL_length (v w : Nat) :
    ∀ L : List Nat, (insertAfterL v w L).length ≤ L.length + 1 := by
  intro L
  induction L with
  | nil => simp [insertAfterL]
  | cons y L ih =>
    unfold insertAfterL
    rcases eq_or_ne y v with rfl | hyv
    · rw [if_pos rfl]
      simp
    · rw [if_neg hyv]
      simp only [List.length_cons]
      omega

theorem mapReplace_nodup (v w : Nat) :
    ∀ R : List Nat, R.Nodup → w ∉ R →
      (R.map (fun x => if x = v then w else x)).Nodup := by
  intro R
  induction R with
  | nil => intro _ _; exact List.nodup_nil
  | cons x R ih =>
    intro hnd hw
    have hxR : x ∉ R := (List.nodup_cons.mp hnd).1
    have hndR : R.Nodup := (List.nodup_cons.mp hnd).2
    have hwx : w ≠ x := fun hh => hw (hh ▸ List.mem_cons_self x R)
    have hwR : w ∉ R := fun hh => hw (List.mem_cons_of_mem x hh)
    simp only [List.map_cons]
    refine List.nodup_cons.mpr ⟨?_, ih hndR hwR⟩
    rcases eq_or_ne x v with rfl | hxv
    · rw [if_pos rfl]
      intro hmem
      rcases List.mem_map.mp hmem with ⟨z, hz, hfz⟩
      rcases eq_or_ne z x with rfl | hzx
      · exact hxR hz
      · rw [if_neg hzx] at hfz
        rw [hfz] at hz
        exact hwR hz
    · rw [if_neg hxv]
      intro hmem
      rcases List.mem_map.mp hmem with ⟨z, hz, hfz⟩
      rcases eq_or_ne z v with rfl | hzv
      · rw [if_pos rfl] at hfz
        exact hwx hfz
      · rw [if_neg hzv] at hfz
        rw [hfz] at hz
        exact hxR hz

theorem HeapInv_split_branch_desc (s u : HeapState) (cf k : Nat)
    (hInv : HeapInv s)
    (hcf : cf ∈ ringList s) (hk : 1 ≤ k)
    (hklt : cf + k < BLOCKNO_MASK (nblock s cf))
    (hnum : u.numblocks = s.numblocks)
    (hnbC : nblock u cf = cf + k)
    (hnbW : nblock u (cf + k) = BLOCKNO_MASK (nblock s cf) + 32768)
    (hnbO : ∀ x, x ≠ cf → x ≠ cf + k → nblock u x = nblock s x)
    (hpbW : pblock u (cf + k) = cf)
    (hpbN : pblock u (BLOCKNO_MASK (nblock s cf)) = cf + k)
    (hpbO : ∀ x, x ≠ cf + k → x ≠ BLOCKNO_MASK (nblock s cf) →
      pblock u x = pblock s x)
    (hnfP : nfree u (pfree s cf) = cf + k)
    (hpfW : pfree u (cf + k) = pfree s cf)
    (hnfW : nfree u (cf + k) = nfree s cf)
    (hpfN : pfree u (nfree s cf) = cf + k)
    (hnfO : ∀ x, x ≠ pfree s cf → x ≠ cf + k → nfree u x = nfree s x)
    (hpfO : ∀ x, x ≠ nfree s cf → x ≠ cf + k → pfree u x = pfree s x) :
    HeapInv u ∧
    chainList u = insertAfterL cf (cf + k) (chainList s) ∧
    ringList u = (ringList s).map (fun x => if x = cf then cf + k else x) := by
  obtain ⟨hnb2, hnb15, hch, hring, hnd, hfl0, hflTop, hcoh, hrc, hnoadj⟩ := hInv
  have h0R : 0 ∉ ringList s := ring_zero_not_mem s (ringList s) 0 hring
  have hfch : cf ∈ chainList s := hrc cf hcf
  have hfflag : 32768 ≤ nblock s cf := (hcoh cf hfch).mpr hcf
  have hcf0 : 0 < cf := (isChainB_mem s (chainList s) 0 hch cf hfch).1
  have hm32 : BLOCKNO_MASK (nblock s cf) < 32768 := mask_lt _
  have hne : BLOCKNO_MASK (nblock s cf) ≠ 0 := by omega
  have hsucc := isChainB_succ s (chainList s) 0 hch cf
    (List.mem_cons_of_mem 0 hfch) hne
  have hn0ch : BLOCKNO_MASK (nblock s cf) ∈ chainList s := hsucc.1
  have hcfn0 : cf < BLOCKNO_MASK (nblock s cf) := hsucc.2.1
  have hn0lt : BLOCKNO_MASK (nblock s cf) < s.numblocks := hsucc.2.2.2
  have hnoadjcf : nblock s (BLOCKNO_MASK (nblock s cf)) < 32768 :=
    hnoadj cf hfch hfflag
  have hn1ch : cf + k ∉ chainList s := by
    intro hin
    have h2 := chain_gap_aux s (chainList s) 0 hch cf
      (List.mem_cons_of_mem 0 hfch) hne (cf + k) hin
    omega
  have hn1ring : cf + k ∉ ringList s := fun hh => hn1ch (hrc _ hh)
  have hfrch : ∀ x ∈ (0 : Nat) :: chainList s, x ≠ cf + k := by
    intro x hx
    rcases List.mem_cons.mp hx with rfl | hx2
    · omega
    · exact fun hh => hn1ch (hh ▸ hx2)
  have hchu : isChainB u 0 (insertAfterL cf (cf + k) (chainList s)) = true := by
    apply isChainB_insertAfter s u cf (cf + k) hnum (by omega) hklt
      (by rw [hnbC]; unfold BLOCKNO_MASK; omega)
      (by rw [hnbW]; unfold BLOCKNO_MASK; omega)
      hpbW hpbN (fun x h1 h2 => by rw [hnbO x h1 h2]) hpbO
      (chainList s) 0 hch hfrch (by omega) hfch
  have hclen : (insertAfterL cf (cf + k) (chainList s)).length < 65536 := by
    have h1 := isChainB_length s (chainList s) 0 hch
    have h2 := insertAfterL_length cf (cf + k) (chainList s)
    omega
  have hcheq : chainList u = insertAfterL cf (cf + k) (chainList s) := by
    unfold chainList
    exact chainAux_of_isChainB u _ 0 65536 hchu hclen
  have hringu : isRingB u 0
      ((ringList s).map (fun x => if x = cf then cf + k else x)) = true :=
    isRingB_replace s u cf (cf + k) hnum (by omega) (by omega)
      hnfP hpfW hnfW hpfN hnfO hpfO (ringList s) 0 hring hnd h0R hn1ring
      (by omega) hcf
  have hrlen : ((ringList s).map
      (fun x => if x = cf then cf + k else x)).length < 65536 := by
    have h1 := nodup_length_le (ringList s) s.numblocks hnd
      (fun x hx => (isRingB_mem s (ringList s) 0 hring x hx).2)
    rw [List.length_map]
    omega
  have hrgeq : ringList u =
      (ringList s).map (fun x => if x = cf then cf + k else x) := by
    unfold ringList
    exact ringAux_of_isRingB u _ 0 65536 hringu hrlen
  have hmem_n1 : cf + k ∈
      (ringList s).map (fun x => if x = cf then cf + k else x) :=
    List.mem_map.mpr ⟨cf, hcf, if_pos rfl⟩
  have hmem_of : ∀ x ∈ ringList s, x ≠ cf →
      x ∈ (ringList s).map (fun x => if x = cf then cf + k else x) :=
    fun x hx hxc => List.mem_map.mpr ⟨x, hx, if_neg hxc⟩
  have hmem_inv : ∀ x ∈
      (ringList s).map (fun x => if x = cf then cf + k else x),
      x = cf + k ∨ (x ∈ ringList s ∧ x ≠ cf) := by
    intro x hx
    rcases List.mem_map.mp hx with ⟨z, hz, hfz⟩
    rcases eq_or_ne z cf with rfl | hzc
    · rw [if_pos rfl] at hfz
      exact Or.inl hfz.symm
    · rw [if_neg hzc] at hfz
      exact Or.inr ⟨hfz ▸ hz, hfz ▸ hzc⟩
  have hcf_not : cf ∉
      (ringList s).map (fun x => if x = cf then cf + k else x) := by
    intro hh
    rcases hmem_inv cf hh with h4 | h4
    · omega
    · exact h4.2 rfl
  have hcftop : cf ≠ s.numblocks - 1 := by
    intro hh
    rw [hh] at hfflag
    omega
  refine ⟨⟨by omega, by omega, ?_, ?_, ?_, ?_, ?_, ?_, ?_, ?_⟩, hcheq, hrgeq⟩
  · rw [hcheq]
    exact hchu
  · rw [hrgeq]
    exact hringu
  · rw [hrgeq]
    exact mapReplace_nodup cf (cf + k) (ringList s) hnd hn1ring
  · rw [hnbO 0 (by omega) (by omega)]
    exact hfl0
  · rw [hnum, hnbO (s.numblocks - 1) (fun hh => hcftop hh.symm) (by omega)]
    exact hflTop
  · intro x hx
    rw [hcheq] at hx
    rw [hrgeq]
    rcases insertAfterL_mem cf (cf + k) (chainList s) x hx with hxch | rfl
    · rcases eq_or_ne x cf with rfl | hxc
      · rw [hnbC]
        constructor
        · intro hcon
          omega
        · intro hcon
          exact absurd hcon hcf_not
      · have hxn1 : x ≠ cf + k := fun hh => hn1ch (hh ▸ hxch)
        rw [hnbO x hxc hxn1]
        constructor
        · intro hflag
          exact hmem_of x ((hcoh x hxch).mp hflag) hxc
        · intro hmem
          rcases hmem_inv x hmem with h4 | h4
          · exact absurd h4 hxn1
          · exact (hcoh x hxch).mpr h4.1
    · rw [hnbW]
      constructor
      · intro _
        exact hmem_n1
      · intro _
        omega
  · intro x hx
    rw [hrgeq] at hx
    rw [hcheq]
    rcases hmem_inv x hx with rfl | h4
    · exact insertAfterL_mem_w cf (cf + k) (chainList s) hfch
    · exact insertAfterL_mem_of cf (cf + k) (chainList s) x (hrc x h4.1)
  · intro x hx hflag
    rw [hcheq] at hx
    rcases insertAfterL_mem cf (cf + k) (chainList s) x hx with hxch | rfl
    · rcases eq_or_ne x cf with rfl | hxc
      · rw [hnbC] at hflag
        omega
      · have hxn1 : x ≠ cf + k := fun hh => hn1ch (hh ▸ hxch)
        rw [hnbO x hxc hxn1] at hflag
        have hmaskx : BLOCKNO_MASK (nblock u x) =
            BLOCKNO_MASK (nblock s x) := by
          rw [hnbO x hxc hxn1]
        rw [hmaskx]
        have hne2 : BLOCKNO_MASK (nblock s x) ≠ 0 := by
          intro hh
          have h5 := isChainB_mask_zero s (chainList s) 0 hch x hxch hh
          rw [h5] at hflag
          omega
        have htch : BLOCKNO_MASK (nblock s x) ∈ chainList s :=
          (isChainB_succ s (chainList s) 0 hch x
            (List.mem_cons_of_mem 0 hxch) hne2).1
        have htn1 : BLOCKNO_MASK (nblock s x) ≠ cf + k :=
          fun hh => hn1ch (hh ▸ htch)
        rcases eq_or_ne (BLOCKNO_MASK (nblock s x)) cf with heq | hne3
        · rw [heq, hnbC]
          omega
        · rw [hnbO _ hne3 htn1]
          exact hnoadj x hxch hflag
    · have hmaskw : BLOCKNO_MASK (nblock u (cf + k)) =
          BLOCKNO_MASK (nblock s cf) := by
        rw [hnbW]
        unfold BLOCKNO_MASK
        omega
      rw [hmaskw]
      rw [hnbO _ (by omega) (by omega)]
      exact hnoadjcf

theorem HeapInv_disc (s : HeapState) (f : Nat) (hInv : HeapInv s)
    (hf : f ∈ ringList s) :
    HeapInv (umm_disconnect_from_free_list s f) ∧
    chainList (umm_disconnect_from_free_list s f) = chainList s ∧
    ringList (umm_disconnect_from_free_list s f) = (ringList s).erase f := by
  obtain ⟨h1, h2, h3, hring, hnd, h6, h7, h8, h9, h10⟩ := hInv
  have h0R := ring_zero_not_mem s (ringList s) 0 hring
  have hpfne : pfree s f ≠ f :=
    (ring_neighbor_aux s (ringList s) 0 hring h0R hnd f hf).2.2.2
  exact HeapInv_disc_desc s _ f
    ⟨h1, h2, h3, hring, hnd, h6, h7, h8, h9, h10⟩ hf rfl
    (disc_nblock_c s f)
    (fun x hx => disc_nblock_other s f x hx)
    (fun x => disc_pblock s f x)
    (disc_nfree_pf s f)
    (fun x hx => disc_nfree_other s f x hx)
    (disc_pfree_nf s f hpfne)
    (fun x hx => disc_pfree_other s f x hpfne hx)

theorem HeapInv_assim_up (s : HeapState) (c : Nat) (hInv : HeapInv s)
    (hc : c ∈ chainList s) (hcu : nblock s c < 32768)
    (hne : BLOCKNO_MASK (nblock s c) ≠ 0)
    (hup : 32768 ≤ nblock s (nblock s c)) :
    HeapInv (umm_assimilate_up s c) ∧
    chainList (umm_assimilate_up s c) =
      (chainList s).erase (BLOCKNO_MASK (nblock s c)) ∧
    ringList (umm_assimilate_up s c) =
      (ringList s).erase (BLOCKNO_MASK (nblock s c)) ∧
    c ∈ chainList (umm_assimilate_up s c) ∧
    nblock (umm_assimilate_up s c) c =
      BLOCKNO_MASK (nblock s (BLOCKNO_MASK (nblock s c))) ∧
    BLOCKNO_MASK (nblock (umm_assimilate_up s c) c) ≠ 0 ∧
    pblock (umm_assimilate_up s c) c = pblock s c ∧
    (∀ x, x ≠ c → x ≠ BLOCKNO_MASK (nblock s c) →
      nblock (umm_assimilate_up s c) x = nblock s x) := by
  have hraw : BLOCKNO_MASK (nblock s c) = nblock s c := by
    unfold BLOCKNO_MASK
    omega
  obtain ⟨hnb2, hnb15, hch, hring, hnd, hfl0, hflTop, hcoh, hrc, hnoadj⟩ :=
    hInv
  have h0R := ring_zero_not_mem s (ringList s) 0 hring
  have hsucc := isChainB_succ s (chainList s) 0 hch c
    (List.mem_cons_of_mem 0 hc) hne
  have hNch : BLOCKNO_MASK (nblock s c) ∈ chainList s := hsucc.1
  have hcN : c < BLOCKNO_MASK (nblock s c) := hsucc.2.1
  have hNflag : 32768 ≤ nblock s (BLOCKNO_MASK (nblock s c)) := by
    rw [hraw]
    exact hup
  have hNring : BLOCKNO_MASK (nblock s c) ∈ ringList s :=
    (hcoh _ hNch).mp hNflag
  have hpfne : pfree s (BLOCKNO_MASK (nblock s c)) ≠
      BLOCKNO_MASK (nblock s c) :=
    (ring_neighbor_aux s (ringList s) 0 hring h0R hnd _ hNring).2.2.2
  have hcne : c ≠ nblock s c := by omega
  -- fields of the inner disconnect state
  have hAc : nblock (umm_disconnect_from_free_list s (nblock s c)) c =
      nblock s c := disc_nblock_other s (nblock s c) c hcne
  have hAN : nblock (umm_disconnect_from_free_list s (nblock s c))
      (nblock s c) = BLOCKNO_MASK (nblock s (nblock s c)) :=
    disc_nblock_c s (nblock s c)
  have hcond : 32768 ≤ nblock s (nblock s c) := hup
  have hueq : umm_assimilate_up s c =
      setNblock (setPblock (umm_disconnect_from_free_list s (nblock s c))
        (BLOCKNO_MASK (nblock s (nblock s c))) c) c
        (BLOCKNO_MASK (nblock s (nblock s c))) := by
    unfold umm_assimilate_up
    rw [if_pos hcond]
    dsimp only
    simp only [nblock_setPblock]
    rw [hAc, hAN, mask_mask]
  have hnbC : nblock (umm_assimilate_up s c) c =
      BLOCKNO_MASK (nblock s (BLOCKNO_MASK (nblock s c))) := by
    rw [hueq, nblock_setNblock, if_pos rfl, hraw]
    have := mask_lt (nblock s (nblock s c))
    omega
  have hnbO : ∀ x, x ≠ c → x ≠ BLOCKNO_MASK (nblock s c) →
      nblock (umm_assimilate_up s c) x = nblock s x := by
    intro x hx1 hx2
    rw [hueq, nblock_setNblock, if_neg hx1, nblock_setPblock]
    rw [hraw] at hx2
    exact disc_nblock_other s (nblock s c) x hx2
  have hpbNN : pblock (umm_assimilate_up s c)
      (BLOCKNO_MASK (nblock s (BLOCKNO_MASK (nblock s c)))) = c := by
    rw [hueq, pblock_setNblock, hraw, pblock_setPblock, if_pos rfl]
    have h5 := (isChainB_mem s (chainList s) 0 hch c hc).2
    omega
  have hpbO : ∀ x, x ≠ BLOCKNO_MASK (nblock s (BLOCKNO_MASK (nblock s c))) →
      pblock (umm_assimilate_up s c) x = pblock s x := by
    intro x hx
    rw [hraw] at hx
    rw [hueq, pblock_setNblock, pblock_setPblock, if_neg hx, disc_pblock]
  have hres := HeapInv_assim_up_desc s (umm_assimilate_up s c) c
    ⟨hnb2, hnb15, hch, hring, hnd, hfl0, hflTop, hcoh, hrc, hnoadj⟩
    hc hcu hne hNflag
    (by rw [hueq, setNblock_numblocks, setPblock_numblocks, disc_numblocks])
    hnbC hnbO hpbNN hpbO
    (by
      rw [hraw, hueq]
      simp only [nfree_setNblock, nfree_setPblock]
      exact disc_nfree_pf s (nblock s c))
    (by
      intro x hx
      rw [hraw] at hx
      rw [hueq]
      simp only [nfree_setNblock, nfree_setPblock]
      exact disc_nfree_other s (nblock s c) x hx)
    (by
      rw [hraw, hueq]
      simp only [pfree_setNblock, pfree_setPblock]
      rw [hraw] at hpfne
      exact disc_pfree_nf s (nblock s c) hpfne)
    (by
      intro x hx
      rw [hraw] at hx hpfne
      rw [hueq]
      simp only [pfree_setNblock, pfree_setPblock]
      exact disc_pfree_other s (nblock s c) x hpfne hx)
  exact ⟨hres.1, hres.2.1, hres.2.2.1, hres.2.2.2.1, hres.2.2.2.2.1,
    hres.2.2.2.2.2.1, hres.2.2.2.2.2.2, hnbO⟩

theorem split_pblock_n0 (s : HeapState) (c k m : Nat) (h : k ≠ 0)
    (h2 : BLOCKNO_MASK (nblock s c) ≠ c + k) :
    pblock (umm_split_block s c k m) (BLOCKNO_MASK (nblock s c)) =
      (c + k) % 65536 := by
  unfold umm_split_block
  dsimp only
  simp only [pblock_setNblock, pblock_setPblock, nblock_setNblock,
    nblock_setPblock]
  rw [if_neg (show ¬ c = c + k from by omega)]
  rw [if_pos rfl]

theorem HeapInv_split_used_desc (s u : HeapState) (c k : Nat)
    (hInv : HeapInv s)
    (hc : c ∈ chainList s) (hcu : nblock s c < 32768) (hk : 1 ≤ k)
    (hklt : c + k < BLOCKNO_MASK (nblock s c))
    (hnum : u.numblocks = s.numblocks)
    (hnbC : nblock u c = c + k)
    (hnbW : nblock u (c + k) = BLOCKNO_MASK (nblock s c))
    (hnbO : ∀ x, x ≠ c → x ≠ c + k → nblock u x = nblock s x)
    (hpbW : pblock u (c + k) = c)
    (hpbN : pblock u (BLOCKNO_MASK (nblock s c)) = c + k)
    (hpbO : ∀ x, x ≠ c + k → x ≠ BLOCKNO_MASK (nblock s c) →
      pblock u x = pblock s x)
    (hnfA : ∀ x, nfree u x = nfree s x)
    (hpfA : ∀ x, pfree u x = pfree s x) :
    HeapInv u ∧
    chainList u = insertAfterL c (c + k) (chainList s) ∧
    ringList u = ringList s ∧
    c + k ∈ chainList u ∧
    BLOCKNO_MASK (nblock u (c + k)) ≠ 0 ∧
    nblock u (c + k) < 32768 := by
  obtain ⟨hnb2, hnb15, hch, hring, hnd, hfl0, hflTop, hcoh, hrc, hnoadj⟩ :=
    hInv
  have hm32 : BLOCKNO_MASK (nblock s c) < 32768 := mask_lt _
  have hne : BLOCKNO_MASK (nblock s c) ≠ 0 := by omega
  have hc0 : 0 < c := (isChainB_mem s (chainList s) 0 hch c hc).1
  have hsucc := isChainB_succ s (chainList s) 0 hch c
    (List.mem_cons_of_mem 0 hc) hne
  have hn0lt : BLOCKNO_MASK (nblock s c) < s.numblocks := hsucc.2.2.2
  have hcnotring : c ∉ ringList s := by
    intro hh
    have := (hcoh c hc).mpr hh
    omega
  have hn1ch : c + k ∉ chainList s := by
    intro hin
    have h2 := chain_gap_aux s (chainList s) 0 hch c
      (List.mem_cons_of_mem 0 hc) hne (c + k) hin
    omega
  have hn1ring : c + k ∉ ringList s := fun hh => hn1ch (hrc _ hh)
  have hfrch : ∀ x ∈ (0 : Nat) :: chainList s, x ≠ c + k := by
    intro x hx
    rcases List.mem_cons.mp hx with rfl | hx2
    · omega
    · exact fun hh => hn1ch (hh ▸ hx2)
  have hchu : isChainB u 0 (insertAfterL c (c + k) (chainList s)) = true := by
    apply isChainB_insertAfter s u c (c + k) hnum (by omega) hklt
      (by rw [hnbC]; unfold BLOCKNO_MASK; omega)
      (by rw [hnbW, mask_mask])
      hpbW hpbN (fun x h1 h2 => by rw [hnbO x h1 h2]) hpbO
      (chainList s) 0 hch hfrch (by omega) hc
  have hclen : (insertAfterL c (c + k) (chainList s)).length < 65536 := by
    have h1 := isChainB_length s (chainList s) 0 hch
    have h2 := insertAfterL_length c (c + k) (chainList s)
    omega
  have hcheq : chainList u = insertAfterL c (c + k) (chainList s) := by
    unfold chainList
    exact chainAux_of_isChainB u _ 0 65536 hchu hclen
  have hringu : isRingB u 0 (ringList s) = true :=
    isRingB_congr u s hnum (ringList s) 0 (fun x _ => hnfA x)
      (fun x _ => hpfA x) hring
  have hrlen : (ringList s).length < 65536 := by
    have h1 := nodup_length_le (ringList s) s.numblocks hnd
      (fun x hx => (isRingB_mem s (ringList s) 0 hring x hx).2)
    omega
  have hrgeq : ringList u = ringList s := by
    unfold ringList
    exact ringAux_of_isRingB u _ 0 65536 hringu hrlen
  have hwmem : c + k ∈ chainList u := by
    rw [hcheq]
    exact insertAfterL_mem_w c (c + k) (chainList s) hc
  have hctop : c ≠ s.numblocks - 1 := by
    have h1 := hsucc.2.1
    omega
  refine ⟨⟨by omega, by omega, ?_, ?_, ?_, ?_, ?_, ?_, ?_, ?_⟩, hcheq, hrgeq,
    hwmem, by rw [hnbW, mask_mask]; exact hne, by rw [hnbW]; omega⟩
  · rw [hcheq]
    exact hchu
  · rw [hrgeq]
    exact hringu
  · rw [hrgeq]
    exact hnd
  · rw [hnbO 0 (by omega) (by omega)]
    exact hfl0
  · rw [hnum, hnbO (s.numblocks - 1) (fun hh => hctop hh.symm) (by omega)]
    exact hflTop
  · intro x hx
    rw [hcheq] at hx
    rw [hrgeq]
    rcases insertAfterL_mem c (c + k) (chainList s) x hx with hxch | rfl
    · rcases eq_or_ne x c with rfl | hxc
      · rw [hnbC]
        constructor
        · intro hcon
          omega
        · intro hcon
          exact absurd hcon hcnotring
      · have hxn1 : x ≠ c + k := fun hh => hn1ch (hh ▸ hxch)
        rw [hnbO x hxc hxn1]
        exact hcoh x hxch
    · rw [hnbW]
      constructor
      · intro hcon
        omega
      · intro hcon
        exact absurd hcon hn1ring
  · intro x hx
    rw [hrgeq] at hx
    rw [hcheq]
    exact insertAfterL_mem_of c (c + k) (chainList s) x (hrc x hx)
  · intro x hx hflag
    rw [hcheq] at hx
    rcases insertAfterL_mem c (c + k) (chainList s) x hx with hxch | rfl
    · rcases eq_or_ne x c with rfl | hxc
      · rw [hnbC] at hflag
        omega
      · have hxn1 : x ≠ c + k := fun hh => hn1ch (hh ▸ hxch)
        rw [hnbO x hxc hxn1] at hflag
        have hmaskx : BLOCKNO_MASK (nblock u x) =
            BLOCKNO_MASK (nblock s x) := by
          rw [hnbO x hxc hxn1]
        rw [hmaskx]
        have hne2 : BLOCKNO_MASK (nblock s x) ≠ 0 := by
          intro hh
          have h5 := isChainB_mask_zero s (chainList s) 0 hch x hxch hh
          rw [h5] at hflag
          omega
        have htch : BLOCKNO_MASK (nblock s x) ∈ chainList s :=
          (isChainB_succ s (chainList s) 0 hch x
            (List.mem_cons_of_mem 0 hxch) hne2).1
        have htn1 : BLOCKNO_MASK (nblock s x) ≠ c + k :=
          fun hh => hn1ch (hh ▸ htch)
        rcases eq_or_ne (BLOCKNO_MASK (nblock s x)) c with heq | hne3
        · rw [heq, hnbC]
          omega
        · rw [hnbO _ hne3 htn1]
          exact hnoadj x hxch hflag
    · rw [hnbW] at hflag
      omega

theorem HeapInv_split_used (s : HeapState) (c k : Nat) (hInv : HeapInv s)
    (hc : c ∈ chainList s) (hcu : nblock s c < 32768) (hk : 1 ≤ k)
    (hklt : c + k < BLOCKNO_MASK (nblock s c)) :
    HeapInv (umm_split_block s c k 0) ∧
    chainList (umm_split_block s c k 0) =
      insertAfterL c (c + k) (chainList s) ∧
    ringList (umm_split_block s c k 0) = ringList s ∧
    c + k ∈ chainList (umm_split_block s c k 0) ∧
    BLOCKNO_MASK (nblock (umm_split_block s c k 0) (c + k)) ≠ 0 ∧
    nblock (umm_split_block s c k 0) (c + k) < 32768 := by
  have hm32 : BLOCKNO_MASK (nblock s c) < 32768 := mask_lt _
  have hnum : s.numblocks ≤ 32767 := hInv.2.1
  have hcn : c < s.numblocks :=
    (isChainB_mem s (chainList s) 0 hInv.2.2.1 c hc).2
  have h1 : nblock (umm_split_block s c k 0) c = c + k := by
    rw [split_nblock_c s c k 0 (by omega)]
    omega
  have h2 : nblock (umm_split_block s c k 0) (c + k) =
      BLOCKNO_MASK (nblock s c) := by
    rw [split_nblock_ck s c k 0 (by omega)]
    unfold orFreemask
    rw [if_pos rfl]
    unfold BLOCKNO_MASK
    omega
  have h3 : pblock (umm_split_block s c k 0) (c + k) = c := by
    rw [split_pblock_ck s c k 0 (by omega) (by omega)]
    omega
  have h4 : pblock (umm_split_block s c k 0) (BLOCKNO_MASK (nblock s c)) =
      c + k := by
    rw [split_pblock_n0 s c k 0 (by omega) (by omega)]
    omega
  exact HeapInv_split_used_desc s _ c k hInv hc hcu hk hklt rfl h1 h2
    (fun x hx1 hx2 => split_nblock_other s c k 0 x hx1 hx2)
    h3 h4
    (fun x hx1 hx2 => split_pblock_other s c k 0 x (by omega) hx1 hx2)
    (fun x => split_nfree s c k 0 x)
    (fun x => split_pfree s c k 0 x)

theorem HeapInv_split_branch (s : HeapState) (cf k : Nat) (hInv : HeapInv s)
    (hcf : cf ∈ ringList s) (hk : 1 ≤ k)
    (hklt : cf + k < BLOCKNO_MASK (nblock s cf)) :
    HeapInv (umm_malloc_split_branch s cf k) ∧
    chainList (umm_malloc_split_branch s cf k) =
      insertAfterL cf (cf + k) (chainList s) ∧
    ringList (umm_malloc_split_branch s cf k) =
      (ringList s).map (fun x => if x = cf then cf + k else x) := by
  obtain ⟨hnb2, hnb15, hch, hring, hnd, hfl0, hflTop, hcoh, hrc, hnoadj⟩ :=
    hInv
  have hm32 : BLOCKNO_MASK (nblock s cf) < 32768 := mask_lt _
  have h0R := ring_zero_not_mem s (ringList s) 0 hring
  have hfch : cf ∈ chainList s := hrc cf hcf
  have hcn : cf < s.numblocks :=
    (isChainB_mem s (chainList s) 0 hch cf hfch).2
  have hnbr := ring_neighbor_aux s (ringList s) 0 hring h0R hnd cf hcf
  have hpfne : pfree s cf ≠ cf := hnbr.2.2.2
  have hnfne : nfree s cf ≠ cf := hnbr.2.1
  have hne : BLOCKNO_MASK (nblock s cf) ≠ 0 := by omega
  have hn1ch : cf + k ∉ chainList s := by
    intro hin
    have h2 := chain_gap_aux s (chainList s) 0 hch cf
      (List.mem_cons_of_mem 0 hfch) hne (cf + k) hin
    omega
  have hn1ring : cf + k ∉ ringList s := fun hh => hn1ch (hrc _ hh)
  have hpfn1 : pfree s cf ≠ cf + k := by
    rcases hnbr.2.2.1 with h4 | h4
    · rw [h4]
      omega
    · exact fun hh => hn1ring (hh ▸ h4)
  have hnfn1 : nfree s cf ≠ cf + k := by
    rcases hnbr.1 with h4 | h4
    · rw [h4]
      omega
    · exact fun hh => hn1ring (hh ▸ h4)
  have hbnf : nfree s cf < 65536 := rd16_lt s (8 * cf + 4)
  have hbpf : pfree s cf < 65536 := rd16_lt s (8 * cf + 6)
  have hT0c : nblock (umm_malloc_split_branch s cf k) cf = cf + k := by
    unfold umm_malloc_split_branch
    dsimp only
    simp only [nblock_setNfree, nblock_setPfree]
    rw [split_nblock_c s cf k 32768 (by omega)]
    omega
  have hT0n1 : nblock (umm_malloc_split_branch s cf k) (cf + k) =
      BLOCKNO_MASK (nblock s cf) + 32768 := by
    unfold umm_malloc_split_branch
    dsimp only
    simp only [nblock_setNfree, nblock_setPfree]
    rw [split_nblock_ck s cf k 32768 (by omega)]
    unfold orFreemask BLOCKNO_MASK
    rw [if_neg (show ¬ (32768 : Nat) = 0 from by omega)]
    omega
  have hT0o : ∀ x, x ≠ cf → x ≠ cf + k →
      nblock (umm_malloc_split_branch s cf k) x = nblock s x := by
    intro x h1 h2
    unfold umm_malloc_split_branch
    dsimp only
    simp only [nblock_setNfree, nblock_setPfree]
    exact split_nblock_other s cf k 32768 x h1 h2
  have hT0pbW : pblock (umm_malloc_split_branch s cf k) (cf + k) = cf := by
    unfold umm_malloc_split_branch
    dsimp only
    simp only [pblock_setNfree, pblock_setPfree]
    rw [split_pblock_ck s cf k 32768 (by omega) (by omega)]
    omega
  have hT0pbN : pblock (umm_malloc_split_branch s cf k)
      (BLOCKNO_MASK (nblock s cf)) = cf + k := by
    unfold umm_malloc_split_branch
    dsimp only
    simp only [pblock_setNfree, pblock_setPfree]
    rw [split_pblock_n0 s cf k 32768 (by omega) (by omega)]
    omega
  have hT0pbO : ∀ x, x ≠ cf + k → x ≠ BLOCKNO_MASK (nblock s cf) →
      pblock (umm_malloc_split_branch s cf k) x = pblock s x := by
    intro x h1 h2
    unfold umm_malloc_split_branch
    dsimp only
    simp only [pblock_setNfree, pblock_setPfree]
    exact split_pblock_other s cf k 32768 x (by omega) h1 h2
  have hT0nfP : nfree (umm_malloc_split_branch s cf k) (pfree s cf) =
      cf + k := by
    unfold umm_malloc_split_branch
    dsimp only
    simp only [nfree_setNfree, nfree_setPfree, pfree_setNfree,
      pfree_setPfree, split_nfree, split_pfree]
    split_ifs <;> omega
  have hT0pfW : pfree (umm_malloc_split_branch s cf k) (cf + k) =
      pfree s cf := by
    unfold umm_malloc_split_branch
    dsimp only
    simp only [nfree_setNfree, nfree_setPfree, pfree_setNfree,
      pfree_setPfree, split_nfree, split_pfree]
    split_ifs <;> omega
  have hT0nfW : nfree (umm_malloc_split_branch s cf k) (cf + k) =
      nfree s cf := by
    unfold umm_malloc_split_branch
    dsimp only
    simp only [nfree_setNfree, nfree_setPfree, pfree_setNfree,
      pfree_setPfree, split_nfree, split_pfree]
    split_ifs <;> omega
  have hT0pfN : pfree (umm_malloc_split_branch s cf k) (nfree s cf) =
      cf + k := by
    unfold umm_malloc_split_branch
    dsimp only
    simp only [nfree_setNfree, nfree_setPfree, pfree_setNfree,
      pfree_setPfree, split_nfree, split_pfree]
    split_ifs <;> omega
  have hT0nfO : ∀ x, x ≠ pfree s cf → x ≠ cf + k →
      nfree (umm_malloc_split_branch s cf k) x = nfree s x := by
    intro x h1 h2
    unfold umm_malloc_split_branch
    dsimp only
    simp only [nfree_setNfree, nfree_setPfree, pfree_setNfree,
      pfree_setPfree, split_nfree, split_pfree]
    split_ifs <;> omega
  have hT0pfO : ∀ x, x ≠ nfree s cf → x ≠ cf + k →
      pfree (umm_malloc_split_branch s cf k) x = pfree s x := by
    intro x h1 h2
    unfold umm_malloc_split_branch
    dsimp only
    simp only [nfree_setNfree, nfree_setPfree, pfree_setNfree,
      pfree_setPfree, split_nfree, split_pfree]
    split_ifs <;> omega
  exact HeapInv_split_branch_desc s _ cf k
    ⟨hnb2, hnb15, hch, hring, hnd, hfl0, hflTop, hcoh, hrc, hnoadj⟩
    hcf hk hklt rfl hT0c hT0n1 hT0o hT0pbW hT0pbN hT0pbO hT0nfP hT0pfW
    hT0nfW hT0pfN hT0nfO hT0pfO

theorem ring_head_ne (s : HeapState) (c : Nat)
    (hring : isRingB s 0 (ringList s) = true) (hc0 : c ≠ 0)
    (hcR : c ∉ ringList s) : nfree s 0 ≠ c := by
  cases hR : ringList s with
  | nil =>
    rw [hR] at hring
    rw [(isRingB_nil s 0).mp hring]
    exact fun hh => hc0 hh.symm
  | cons y R =>
    rw [hR] at hring hcR
    rcases (isRingB_cons s 0 y R).mp hring with ⟨h1, _, _, _, _⟩
    rw [h1]
    exact fun hh => hcR (hh ▸ List.mem_cons_self y R)

theorem HeapInv_assim_down (s : HeapState) (c m : Nat) (hInv : HeapInv s)
    (hc : c ∈ chainList s) (hcu : nblock s c < 32768)
    (hne : BLOCKNO_MASK (nblock s c) ≠ 0)
    (hnextused : m = 32768 → nblock s (BLOCKNO_MASK (nblock s c)) < 32768)
    (hp0 : pblock s c ≠ 0)
    (hcase : (m = 32768 ∧ pblock s c ∈ ringList s) ∨
      (m = 0 ∧ pblock s c ∉ ringList s)) :
    HeapInv (umm_assimilate_down s c m).2 ∧
    chainList (umm_assimilate_down s c m).2 = (chainList s).erase c ∧
    ringList (umm_assimilate_down s c m).2 = ringList s ∧
    pblock s c ∈ chainList (umm_assimilate_down s c m).2 ∧
    BLOCKNO_MASK (nblock (umm_assimilate_down s c m).2 (pblock s c)) =
      BLOCKNO_MASK (nblock s c) ∧
    (umm_assimilate_down s c m).1 = pblock s c ∧
    nblock (umm_assimilate_down s c m).2 (pblock s c) =
      orFreemask (nblock s c) m := by
  have hraw : BLOCKNO_MASK (nblock s c) = nblock s c := by
    unfold BLOCKNO_MASK
    omega
  have hmor : m = 0 ∨ m = 32768 := by
    rcases hcase with ⟨h1, _⟩ | ⟨h1, _⟩
    · exact Or.inr h1
    · exact Or.inl h1
  obtain ⟨pp, hpmem, hpm, hpb, hplt⟩ :=
    chain_pred s (chainList s) 0 hInv.2.2.1 c hc
  have hcltn : c < BLOCKNO_MASK (nblock s c) :=
    (isChainB_succ s (chainList s) 0 hInv.2.2.1 c
      (List.mem_cons_of_mem 0 hc) hne).2.1
  have hcp : c ≠ pblock s c := by
    rw [hpb]
    omega
  have hbnb : nblock s c < 65536 := rd16_lt s (8 * c)
  have hbpb : pblock s c < 65536 := rd16_lt s (8 * c + 2)
  have hofb : orFreemask (nblock s c) m < 65536 := by
    unfold orFreemask BLOCKNO_MASK
    rcases hmor with rfl | rfl
    · rw [if_pos rfl]
      omega
    · rw [if_neg (by omega)]
      omega
  have hnbP : nblock (umm_assimilate_down s c m).2 (pblock s c) =
      orFreemask (nblock s c) m := by
    unfold umm_assimilate_down
    dsimp only
    rw [nblock_setPblock, nblock_setNblock, if_pos rfl]
    omega
  have hnbO : ∀ x, x ≠ pblock s c →
      nblock (umm_assimilate_down s c m).2 x = nblock s x := by
    intro x hx
    unfold umm_assimilate_down
    dsimp only
    rw [nblock_setPblock, nblock_setNblock, if_neg hx]
  have hnb1c : nblock (setNblock s (pblock s c)
      (orFreemask (nblock s c) m)) c = nblock s c := by
    rw [nblock_setNblock, if_neg hcp]
  have hpbN : pblock (umm_assimilate_down s c m).2
      (BLOCKNO_MASK (nblock s c)) = pblock s c := by
    unfold umm_assimilate_down
    dsimp only
    rw [hnb1c, pblock_setPblock, if_pos (by rw [hraw]),
      pblock_setNblock]
    omega
  have hpbO : ∀ x, x ≠ BLOCKNO_MASK (nblock s c) →
      pblock (umm_assimilate_down s c m).2 x = pblock s x := by
    intro x hx
    rw [hraw] at hx
    unfold umm_assimilate_down
    dsimp only
    rw [hnb1c, pblock_setPblock, if_neg hx, pblock_setNblock]
  have hres := HeapInv_assim_down_desc s (umm_assimilate_down s c m).2 c m
    hInv hc hcu hne hnextused hp0 hcase
    (by unfold umm_assimilate_down; dsimp only
        rw [setPblock_numblocks, setNblock_numblocks])
    hnbP hnbO hpbN hpbO
    (by
      intro x
      unfold umm_assimilate_down
      dsimp only
      rw [nfree_setPblock, nfree_setNblock])
    (by
      intro x
      unfold umm_assimilate_down
      dsimp only
      rw [pfree_setPblock, pfree_setNblock])
  refine ⟨hres.1, hres.2.1, hres.2.2.1, hres.2.2.2.1, hres.2.2.2.2, ?_,
    hnbP⟩
  show pblock (umm_assimilate_down s c m).2 c = pblock s c
  exact hpbO c (by omega)

theorem HeapInv_free_core (s : HeapState) (c : Nat) (hInv : HeapInv s)
    (hc : c ∈ chainList s) (hcu : nblock s c < 32768)
    (hne : BLOCKNO_MASK (nblock s c) ≠ 0) :
    HeapInv (umm_free_core s (8 * c + 4)) := by
  have hdiv : (8 * c + 4) / 8 = c := by omega
  have hraw : BLOCKNO_MASK (nblock s c) = nblock s c := by
    unfold BLOCKNO_MASK
    omega
  obtain ⟨hnb2, hnb15, hch, hring, hnd, hfl0, hflTop, hcoh, hrc, hnoadj⟩ :=
    hInv
  have hkey : HeapInv (umm_assimilate_up s c) ∧
      c ∈ chainList (umm_assimilate_up s c) ∧
      nblock (umm_assimilate_up s c) c < 32768 ∧
      BLOCKNO_MASK (nblock (umm_assimilate_up s c) c) ≠ 0 ∧
      nblock (umm_assimilate_up s c)
        (BLOCKNO_MASK (nblock (umm_assimilate_up s c) c)) < 32768 := by
    by_cases hup : 32768 ≤ nblock s (nblock s c)
    · obtain ⟨hInv1, hcheq1, hrgeq1, hc1, hnb1, hne1, hpb1, hnbO1⟩ :=
        HeapInv_assim_up s c
          ⟨hnb2, hnb15, hch, hring, hnd, hfl0, hflTop, hcoh, hrc, hnoadj⟩
          hc hcu hne hup
      refine ⟨hInv1, hc1, by rw [hnb1]; exact mask_lt _, hne1, ?_⟩
      rw [hnb1, mask_mask]
      have hNflag : 32768 ≤ nblock s (BLOCKNO_MASK (nblock s c)) := by
        rw [hraw]
        exact hup
      have hsucc := isChainB_succ s (chainList s) 0 hch c
        (List.mem_cons_of_mem 0 hc) hne
      have hNch := hsucc.1
      have hcN := hsucc.2.1
      have hnn := hnoadj _ hNch hNflag
      have hNN0 : BLOCKNO_MASK (nblock s (BLOCKNO_MASK (nblock s c))) ≠
          0 := by
        intro hh
        have h2 := isChainB_mask_zero s (chainList s) 0 hch _ hNch hh
        rw [h2] at hNflag
        omega
      have hNNgt : BLOCKNO_MASK (nblock s c) <
          BLOCKNO_MASK (nblock s (BLOCKNO_MASK (nblock s c))) :=
        (isChainB_succ s (chainList s) 0 hch _
          (List.mem_cons_of_mem 0 hNch) hNN0).2.1
      rw [hnbO1 _ (by omega) (by omega)]
      exact hnn
    · have heq : umm_assimilate_up s c = s := by
        unfold umm_assimilate_up
        rw [if_neg hup]
      rw [heq]
      refine ⟨⟨hnb2, hnb15, hch, hring, hnd, hfl0, hflTop, hcoh, hrc,
        hnoadj⟩, hc, hcu, hne, ?_⟩
      rw [hraw]
      omega
  obtain ⟨hInv1, hc1, hcu1, hne1, hnext1⟩ := hkey
  obtain ⟨hnb2a, hnb15a, hch1, hring1, hnd1, hfl01, hflTop1, hcoh1, hrc1,
    hnoadj1⟩ := hInv1
  unfold umm_free_core
  dsimp only
  rw [hdiv]
  by_cases hdown : 32768 ≤ nblock (umm_assimilate_up s c)
      (pblock (umm_assimilate_up s c) c)
  · rw [if_pos hdown]
    have hp0 : pblock (umm_assimilate_up s c) c ≠ 0 := by
      intro hh
      rw [hh] at hdown
      omega
    obtain ⟨pp1, hpmem1, hpm1, hpb1, hplt1⟩ :=
      chain_pred (umm_assimilate_up s c)
        (chainList (umm_assimilate_up s c)) 0 hch1 c hc1
    have hppch1 : pblock (umm_assimilate_up s c) c ∈
        chainList (umm_assimilate_up s c) := by
      rw [hpb1]
      rcases hpmem1 with rfl | h4
      · rw [hpb1] at hp0
        exact absurd rfl hp0
      · exact h4
    have hpring : pblock (umm_assimilate_up s c) c ∈
        ringList (umm_assimilate_up s c) :=
      (hcoh1 _ hppch1).mp hdown
    exact (HeapInv_assim_down (umm_assimilate_up s c) c 32768
      ⟨hnb2a, hnb15a, hch1, hring1, hnd1, hfl01, hflTop1, hcoh1, hrc1,
        hnoadj1⟩
      hc1 hcu1 hne1 (fun _ => hnext1) hp0 (Or.inl ⟨rfl, hpring⟩)).1
  · rw [if_neg hdown]
    have hc0 : 0 < c :=
      (isChainB_mem (umm_assimilate_up s c)
        (chainList (umm_assimilate_up s c)) 0 hch1 c hc1).1
    have hcn : c < (umm_assimilate_up s c).numblocks :=
      (isChainB_mem (umm_assimilate_up s c)
        (chainList (umm_assimilate_up s c)) 0 hch1 c hc1).2
    have hcring : c ∉ ringList (umm_assimilate_up s c) := by
      intro hh
      have := (hcoh1 c hc1).mpr hh
      omega
    have hhead : nfree (umm_assimilate_up s c) 0 ≠ c :=
      ring_head_ne (umm_assimilate_up s c) c hring1 (by omega) hcring
    have hb0 : nfree (umm_assimilate_up s c) 0 < 65536 :=
      rd16_lt (umm_assimilate_up s c) 4
    have hbc : nblock (umm_assimilate_up s c) c < 65536 :=
      rd16_lt (umm_assimilate_up s c) (8 * c)
    refine (HeapInv_insert_desc (umm_assimilate_up s c) _ c
      ⟨hnb2a, hnb15a, hch1, hring1, hnd1, hfl01, hflTop1, hcoh1, hrc1,
        hnoadj1⟩
      hc1 hcu1 hne1 hnext1 (by omega) ?_ ?_ ?_ ?_ ?_ ?_ ?_ ?_ ?_ ?_).1
    · rfl
    · rw [nblock_setNblock, if_pos rfl]
      simp only [nblock_setNfree, nblock_setPfree]
      unfold orFreemask BLOCKNO_MASK
      rw [if_neg (show ¬ (32768 : Nat) = 0 from by omega)]
      omega
    · intro x hx
      rw [nblock_setNblock, if_neg hx]
      simp only [nblock_setNfree, nblock_setPfree]
    · intro x
      simp only [pblock_setNblock, pblock_setNfree, pblock_setPfree]
    · simp only [nfree_setNblock, nfree_setNfree, nfree_setPfree]
      split_ifs <;> omega
    · simp only [nfree_setNblock, nfree_setNfree, nfree_setPfree]
      split_ifs <;> omega
    · intro x hx1 hx2
      simp only [nfree_setNblock, nfree_setNfree, nfree_setPfree]
      split_ifs <;> omega
    · simp only [pfree_setNblock, pfree_setNfree, pfree_setPfree]
      split_ifs <;> omega
    · simp only [pfree_setNblock, pfree_setNfree, pfree_setPfree]
      split_ifs <;> omega
    · intro x hx1 hx2
      simp only [pfree_setNblock, pfree_setNfree, pfree_setPfree]
      split_ifs <;> omega

theorem HeapInv_malloc (s : HeapState) (size : Nat) (pol : Policy)
    (hInv : HeapInv s) : HeapInv (umm_malloc s size pol).2 := by
  by_cases hz : size = 0
  · subst hz
    unfold umm_malloc
    rw [if_pos rfl]
    exact hInv
  · have hmeq : umm_malloc s size pol = umm_malloc_core s size pol := by
      unfold umm_malloc
      rw [if_neg hz]
    rw [hmeq]
    rcases hres : (umm_malloc_core s size pol).1 with _ | p
    · rw [umm_malloc_core_fail_eq s size pol hres]
      exact hInv
    · have hcoreeq : umm_malloc_core s size pol =
          (some p, (umm_malloc_core s size pol).2) := by
        rw [← hres]
      obtain ⟨cf, hmem, rfl, hge, hcase⟩ :=
        umm_malloc_core_shape s size pol hInv p
          (umm_malloc_core s size pol).2 hcoreeq
      have hRf := ring_sz_facts s hInv
      rcases hRf cf hmem with ⟨hlt1, hlt2, hflag, hchain⟩
      rcases hcase with ⟨hbe, hs1⟩ | ⟨hlt, hs1⟩
      · rw [hs1]
        exact (HeapInv_disc s cf hInv hmem).1
      · rw [hs1]
        exact (HeapInv_split_branch s cf (umm_blocks 8 size) hInv hmem
          (umm_blocks_pos 8 size) (by omega)).1

theorem rd8_writeBytes_out :
    ∀ (L : List Nat) (t : HeapState) (a x : Nat),
      x < a ∨ a + L.length ≤ x → rd8 (writeBytes t a L) x = rd8 t x := by
  intro L
  induction L with
  | nil => intro t a x _; rfl
  | cons b bs ih =>
    intro t a x hx
    simp only [List.length_cons] at hx
    have hx1 : ¬ x = a := by omega
    unfold writeBytes
    rw [ih (wr8 t a b) (a + 1) x (by omega)]
    rw [rd8_wr8, if_neg hx1]

theorem memmove_rd8_out (t : HeapState) (dst src n x : Nat)
    (hx : x < dst ∨ dst + n ≤ x) :
    rd8 (memmove t dst src n) x = rd8 t x := by
  unfold memmove
  apply rd8_writeBytes_out
  unfold readBytes
  rw [List.length_map, List.length_range]
  exact hx

theorem memmove_numblocks (t : HeapState) (dst src n : Nat) :
    (memmove t dst src n).numblocks = t.numblocks := by
  unfold memmove
  generalize readBytes t src n = L
  induction L generalizing t dst with
  | nil => rfl
  | cons b bs ih =>
    unfold writeBytes
    exact ih (wr8 t dst b) (dst + 1)

theorem chain_last_mem (s : HeapState) :
    ∀ L b, isChainB s b L = true →
      b = s.numblocks - 1 ∨ s.numblocks - 1 ∈ L := by
  intro L
  induction L with
  | nil =>
    intro b h
    exact Or.inl ((isChainB_nil s b).mp h).2
  | cons x L ih =>
    intro b h
    rcases (isChainB_cons s b x L).mp h with ⟨_, _, _, _, h5⟩
    rcases ih x h5 with h6 | h6
    · exact Or.inr (h6 ▸ List.mem_cons_self x L)
    · exact Or.inr (List.mem_cons_of_mem x h6)

theorem HeapInv_bytes_frame (t t2 : HeapState) (a n : Nat)
    (hInv : HeapInv t)
    (hnum : t2.numblocks = t.numblocks)
    (hbytes : ∀ x, x < a ∨ a + n ≤ x → rd8 t2 x = rd8 t x)
    (hhdr : ∀ b ∈ (0 : Nat) :: chainList t, 8 * b + 4 ≤ a ∨ a + n ≤ 8 * b)
    (hlink : ∀ b ∈ (0 : Nat) :: ringList t,
      8 * b + 8 ≤ a ∨ a + n ≤ 8 * b) :
    HeapInv t2 ∧ chainList t2 = chainList t ∧ ringList t2 = ringList t := by
  obtain ⟨hnb2, hnb15, hch, hring, hnd, hfl0, hflTop, hcoh, hrc, hnoadj⟩ :=
    hInv
  have hnb : ∀ b ∈ (0 : Nat) :: chainList t, nblock t2 b = nblock t b := by
    intro b hb
    unfold nblock rd16
    rw [hbytes (8 * b) (by have h := hhdr b hb; omega),
      hbytes (8 * b + 1) (by have h := hhdr b hb; omega)]
  have hpb : ∀ b ∈ (0 : Nat) :: chainList t, pblock t2 b = pblock t b := by
    intro b hb
    unfold pblock rd16
    rw [hbytes (8 * b + 2) (by have h := hhdr b hb; omega),
      hbytes (8 * b + 3) (by have h := hhdr b hb; omega)]
  have hnf : ∀ b ∈ (0 : Nat) :: ringList t, nfree t2 b = nfree t b := by
    intro b hb
    unfold nfree rd16
    rw [hbytes (8 * b + 4) (by have h := hlink b hb; omega),
      hbytes (8 * b + 5) (by have h := hlink b hb; omega)]
  have hpf : ∀ b ∈ (0 : Nat) :: ringList t, pfree t2 b = pfree t b := by
    intro b hb
    unfold pfree rd16
    rw [hbytes (8 * b + 6) (by have h := hlink b hb; omega),
      hbytes (8 * b + 7) (by have h := hlink b hb; omega)]
  have hcheq : chainList t2 = chainList t := by
    unfold chainList
    exact chainAux_congr t2 t 65536 0 (fun x hx => by rw [hnb x hx])
  have hchu : isChainB t2 0 (chainList t) = true :=
    isChainB_congr t2 t hnum (chainList t) 0 (fun x hx => by rw [hnb x hx])
      (fun x hx => hpb x (List.mem_cons_of_mem 0 hx)) hch
  have hringu : isRingB t2 0 (ringList t) = true :=
    isRingB_congr t2 t hnum (ringList t) 0 (fun x hx => hnf x hx)
      (fun x hx => hpf x (List.mem_cons_of_mem 0 hx)) hring
  have hrlen : (ringList t).length < 65536 := by
    have h1 := nodup_length_le (ringList t) t.numblocks hnd
      (fun x hx => (isRingB_mem t (ringList t) 0 hring x hx).2)
    omega
  have hrgeq : ringList t2 = ringList t := by
    unfold ringList
    exact ringAux_of_isRingB t2 _ 0 65536 hringu hrlen
  have htop : t.numblocks - 1 ∈ (0 : Nat) :: chainList t := by
    rcases chain_last_mem t (chainList t) 0 hch with h4 | h4
    · rw [← h4]
      exact List.mem_cons_self 0 _
    · exact List.mem_cons_of_mem 0 h4
  refine ⟨⟨by omega, by omega, ?_, ?_, ?_, ?_, ?_, ?_, ?_, ?_⟩, hcheq, hrgeq⟩
  · rw [hcheq]
    exact hchu
  · rw [hrgeq]
    exact hringu
  · rw [hrgeq]
    exact hnd
  · rw [hnb 0 (List.mem_cons_self 0 _)]
    exact hfl0
  · rw [hnum, hnb (t.numblocks - 1) htop]
    exact hflTop
  · intro x hx
    rw [hcheq] at hx
    rw [hrgeq, hnb x (List.mem_cons_of_mem 0 hx)]
    exact hcoh x hx
  · intro x hx
    rw [hrgeq] at hx
    rw [hcheq]
    exact hrc x hx
  · intro x hx hflag
    rw [hcheq] at hx
    rw [hnb x (List.mem_cons_of_mem 0 hx)] at hflag
    rw [hnb x (List.mem_cons_of_mem 0 hx)]
    have hne2 : BLOCKNO_MASK (nblock t x) ≠ 0 := by
      intro hh
      have h5 := isChainB_mask_zero t (chainList t) 0 hch x hx hh
      rw [h5] at hflag
      omega
    have htch : BLOCKNO_MASK (nblock t x) ∈ chainList t :=
      (isChainB_succ t (chainList t) 0 hch x
        (List.mem_cons_of_mem 0 hx) hne2).1
    rw [hnb _ (List.mem_cons_of_mem 0 htch)]
    exact hnoadj x hx hflag

theorem HeapInv_tail (t : HeapState) (c2 blocks : Nat) (hInv : HeapInv t)
    (hc : c2 ∈ chainList t) (hcu : nblock t c2 < 32768)
    (hblt : c2 + blocks < BLOCKNO_MASK (nblock t c2)) (hb1 : 1 ≤ blocks) :
    HeapInv (umm_free_core (umm_split_block t c2 blocks 0)
      (8 * (c2 + blocks) + 4)) := by
  obtain ⟨h1, hch2, hrg2, hmem2, hne2, hused2⟩ :=
    HeapInv_split_used t c2 blocks hInv hc hcu hb1 hblt
  exact HeapInv_free_core _ (c2 + blocks) h1 hmem2 hused2 hne2

theorem HeapInv_memmove_body (t : HeapState) (w src n : Nat)
    (hInv : HeapInv t) (hw : w ∈ chainList t)
    (hwu : nblock t w < 32768)
    (hn : 8 * w + 4 + n ≤ 8 * BLOCKNO_MASK (nblock t w)) :
    HeapInv (memmove t (8 * w + 4) src n) ∧
    chainList (memmove t (8 * w + 4) src n) = chainList t ∧
    ringList (memmove t (8 * w + 4) src n) = ringList t ∧
    (∀ x ∈ chainList t,
      nblock (memmove t (8 * w + 4) src n) x = nblock t x) := by
  obtain ⟨hnb2, hnb15, hch, hring, hnd, hfl0, hflTop, hcoh, hrc, hnoadj⟩ :=
    hInv
  have hw0 : 0 < w := (isChainB_mem t (chainList t) 0 hch w hw).1
  have hmgt : w < BLOCKNO_MASK (nblock t w) := by omega
  have hmne : BLOCKNO_MASK (nblock t w) ≠ 0 := by omega
  have hgap := chain_gap_aux t (chainList t) 0 hch w
    (List.mem_cons_of_mem 0 hw) hmne
  have hwring : w ∉ ringList t := by
    intro hh
    have := (hcoh w hw).mpr hh
    omega
  have hhdr : ∀ b ∈ (0 : Nat) :: chainList t,
      8 * b + 4 ≤ 8 * w + 4 ∨ 8 * w + 4 + n ≤ 8 * b := by
    intro b hb
    rcases List.mem_cons.mp hb with rfl | hb2
    · left
      omega
    · rcases hgap b hb2 with h4 | h4
      · left
        omega
      · right
        omega
  have hlink : ∀ b ∈ (0 : Nat) :: ringList t,
      8 * b + 8 ≤ 8 * w + 4 ∨ 8 * w + 4 + n ≤ 8 * b := by
    intro b hb
    rcases List.mem_cons.mp hb with rfl | hb2
    · left
      omega
    · have hbch : b ∈ chainList t := hrc b hb2
      have hbw : b ≠ w := fun hh => hwring (hh ▸ hb2)
      rcases hgap b hbch with h4 | h4
      · left
        omega
      · right
        omega
  have hres := HeapInv_bytes_frame t (memmove t (8 * w + 4) src n)
    (8 * w + 4) n
    ⟨hnb2, hnb15, hch, hring, hnd, hfl0, hflTop, hcoh, hrc, hnoadj⟩
    (memmove_numblocks t (8 * w + 4) src n)
    (fun x hx => memmove_rd8_out t (8 * w + 4) src n x hx)
    hhdr hlink
  refine ⟨hres.1, hres.2.1, hres.2.2, ?_⟩
  intro x hx
  have h4 := hhdr x (List.mem_cons_of_mem 0 hx)
  unfold nblock rd16
  rw [memmove_rd8_out t (8 * w + 4) src n (8 * x) (by omega),
    memmove_rd8_out t (8 * w + 4) src n (8 * x + 1) (by omega)]

theorem HeapInv_free (s : HeapState) (ptr : Option Nat) (hInv : HeapInv s)
    (hv : ValidPtr s ptr) : HeapInv (umm_free s ptr) := by
  match ptr with
  | none => exact hInv
  | some p =>
    obtain ⟨c, hc, rfl, hcu, hne⟩ := hv
    exact HeapInv_free_core s c hInv hc hcu hne

set_option maxHeartbeats 3200000 in
set_option maxRecDepth 2048 in
theorem HeapInv_realloc (s : HeapState) (ptr : Option Nat) (size : Nat)
    (pol : Policy) (hInv : HeapInv s) (hv : ValidPtr s ptr) :
    HeapInv (umm_realloc s ptr size pol).2 := by
  rcases ptr with _ | p
  · exact HeapInv_malloc s size pol hInv
  · obtain ⟨c, hc, rfl, hcu, hne⟩ := hv
    by_cases hz : size = 0
    · subst hz
      unfold umm_realloc
      dsimp only
      rw [if_pos rfl]
      exact HeapInv_free_core s c hInv hc hcu hne
    · have hInvT := hInv
      obtain ⟨hnb2, hnb15, hch, hring, hnd, hfl0, hflTop, hcoh, hrc,
        hnoadj⟩ := hInv
      have hraw : BLOCKNO_MASK (nblock s c) = nblock s c := by
        unfold BLOCKNO_MASK
        omega
      have hsucc := isChainB_succ s (chainList s) 0 hch c
        (List.mem_cons_of_mem 0 hc) hne
      have hNch : BLOCKNO_MASK (nblock s c) ∈ chainList s := hsucc.1
      have hcN : c < BLOCKNO_MASK (nblock s c) := hsucc.2.1
      have hpbNc : pblock s (BLOCKNO_MASK (nblock s c)) = c := hsucc.2.2.1
      have hNnb : BLOCKNO_MASK (nblock s c) < s.numblocks := hsucc.2.2.2
      have hc0 : 0 < c := (isChainB_mem s (chainList s) 0 hch c hc).1
      unfold umm_realloc
      dsimp only
      rw [if_neg hz]
      rw [show (8 * c + 4) / 8 = c from by omega]
      set blocks := umm_blocks 8 size with hblocks
      set bsV := usub16 (nblock s c) c with hbsV
      set nextV := (if 32768 ≤ nblock s (nblock s c) then
        usub16 (BLOCKNO_MASK (nblock s (nblock s c))) (nblock s c)
        else 0) with hnextV
      set prevV := (if 32768 ≤ nblock s (pblock s c) then
        usub16 c (pblock s c) else 0) with hprevV
      set curV := usub32 (bsV * 8) 4 with hcurV
      have hblocks1 : 1 ≤ blocks := umm_blocks_pos 8 size
      have hnbb : nblock s c < 65536 := rd16_lt s (8 * c)
      have hcnb : c < s.numblocks :=
        (isChainB_mem s (chainList s) 0 hch c hc).2
      have hm32c : BLOCKNO_MASK (nblock s c) < 32768 := mask_lt _
      have hbseq : bsV = BLOCKNO_MASK (nblock s c) - c := by
        rw [hbsV, usub16_eval (nblock s c) c (by omega) (by omega)
          (by omega)]
        omega
      have hcurveq : curV = bsV * 8 - 4 := by
        rw [hcurV]
        exact usub32_eval _ _ (by omega) (by omega) (by omega)
      by_cases h1 : blocks ≤ bsV
      · rw [if_pos h1]
        dsimp only
        by_cases htail : blocks < bsV
        · rw [if_pos htail]
          exact HeapInv_tail s c blocks hInvT hc hcu (by omega) hblocks1
        · rw [if_neg htail]
          exact hInvT
      · rw [if_neg h1]
        by_cases h2 : bsV + nextV = blocks
        · rw [if_pos h2]
          dsimp only
          have hnf : 32768 ≤ nblock s (nblock s c) := by
            by_contra hcon
            push_neg at hcon
            rw [hnextV] at h2
            rw [if_neg (by omega)] at h2
            omega
          obtain ⟨hInv1, hcheq1, hrgeq1, hc1, hnb1, hne1, hpb1, hnbO1⟩ :=
            HeapInv_assim_up s c hInvT hc hcu hne hnf
          have hNfree : 32768 ≤ nblock s (BLOCKNO_MASK (nblock s c)) := by
            rw [hraw]
            exact hnf
          have hNN0 : BLOCKNO_MASK (nblock s (BLOCKNO_MASK (nblock s c))) ≠
              0 := by
            intro hh
            have h5 := isChainB_mask_zero s (chainList s) 0 hch _ hNch hh
            rw [h5] at hNfree
            omega
          have hsucc2 := isChainB_succ s (chainList s) 0 hch _
            (List.mem_cons_of_mem 0 hNch) hNN0
          have hNNgt := hsucc2.2.1
          have hNNlt := hsucc2.2.2.2
          have hnexteq : nextV =
              BLOCKNO_MASK (nblock s (BLOCKNO_MASK (nblock s c))) -
                BLOCKNO_MASK (nblock s c) := by
            rw [hnextV, if_pos hnf]
            conv_lhs => rw [← hraw]
            exact usub16_eval
              (BLOCKNO_MASK (nblock s (BLOCKNO_MASK (nblock s c))))
              (BLOCKNO_MASK (nblock s c)) (by omega) (by omega)
              (by have := mask_lt (nblock s c); omega)
          have hbs2 : (bsV + nextV) % 65536 = bsV + nextV := by omega
          rw [hbs2]
          by_cases htail : blocks < bsV + nextV
          · rw [if_pos htail]
            exact HeapInv_tail _ c blocks hInv1 hc1
              (by rw [hnb1]; exact mask_lt _)
              (by rw [hnb1, mask_mask]; omega) hblocks1
          · rw [if_neg htail]
            exact hInv1
        · rw [if_neg h2]
          by_cases h3 : prevV = 0 ∧ blocks ≤ bsV + nextV
          · rw [if_pos h3]
            dsimp only
            have hnf : 32768 ≤ nblock s (nblock s c) := by
              by_contra hcon
              push_neg at hcon
              rw [hnextV] at h3
              rw [if_neg (by omega)] at h3
              omega
            obtain ⟨hInv1, hcheq1, hrgeq1, hc1, hnb1, hne1, hpb1, hnbO1⟩ :=
              HeapInv_assim_up s c hInvT hc hcu hne hnf
            have hNfree : 32768 ≤ nblock s (BLOCKNO_MASK (nblock s c)) := by
              rw [hraw]
              exact hnf
            have hNN0 : BLOCKNO_MASK (nblock s
                (BLOCKNO_MASK (nblock s c))) ≠ 0 := by
              intro hh
              have h5 := isChainB_mask_zero s (chainList s) 0 hch _ hNch hh
              rw [h5] at hNfree
              omega
            have hsucc2 := isChainB_succ s (chainList s) 0 hch _
              (List.mem_cons_of_mem 0 hNch) hNN0
            have hNNgt := hsucc2.2.1
            have hNNlt := hsucc2.2.2.2
            have hnexteq : nextV =
                BLOCKNO_MASK (nblock s (BLOCKNO_MASK (nblock s c))) -
                  BLOCKNO_MASK (nblock s c) := by
              rw [hnextV, if_pos hnf]
              conv_lhs => rw [← hraw]
              exact usub16_eval
                (BLOCKNO_MASK (nblock s (BLOCKNO_MASK (nblock s c))))
                (BLOCKNO_MASK (nblock s c)) (by omega) (by omega)
                (by have := mask_lt (nblock s c); omega)
            have hbs2 : (bsV + nextV) % 65536 = bsV + nextV := by omega
            rw [hbs2]
            by_cases htail : blocks < bsV + nextV
            · rw [if_pos htail]
              exact HeapInv_tail _ c blocks hInv1 hc1
                (by rw [hnb1]; exact mask_lt _)
                (by rw [hnb1, mask_mask]; omega) hblocks1
            · rw [if_neg htail]
              exact hInv1
          · rw [if_neg h3]
            by_cases h4 : blocks ≤ prevV + bsV
            · rw [if_pos h4]
              dsimp only
              have hprev0 : prevV ≠ 0 := by
                intro hh
                exact h3 ⟨hh, by omega⟩
              have hpf : 32768 ≤ nblock s (pblock s c) := by
                by_contra hcon
                push_neg at hcon
                rw [hprevV] at hprev0
                rw [if_neg (by omega)] at hprev0
                exact hprev0 rfl
              obtain ⟨pp, hpmem, hpm, hpb, hplt⟩ :=
                chain_pred s (chainList s) 0 hch c hc
              have hppch : pp ∈ chainList s := by
                rcases hpmem with rfl | h6
                · exfalso
                  rw [hpb] at hpf
                  omega
                · exact h6
              have hppring : pp ∈ ringList s :=
                (hcoh pp hppch).mp (by rw [← hpb]; exact hpf)
              have hpp0 : pp ≠ 0 :=
                (isRingB_mem s (ringList s) 0 hring pp hppring).1
              have hpreveq : prevV = c - pp := by
                rw [hprevV, if_pos hpf, hpb]
                exact usub16_eval c pp (by omega)
                  (by omega) (by have := rd16_lt s (8 * c + 2); omega)
              rw [hpb]
              obtain ⟨hInv1, hcheq1, hrgeq1⟩ :=
                HeapInv_disc s pp hInvT hppring
              have hppc : c ≠ pp := by omega
              have hs1nb : nblock (umm_disconnect_from_free_list s pp) c =
                  nblock s c := disc_nblock_other s pp c hppc
              have hs1pb : pblock (umm_disconnect_from_free_list s pp) c =
                  pblock s c := disc_pblock s pp c
              have hdres := HeapInv_assim_down
                (umm_disconnect_from_free_list s pp) c 0 hInv1
                (by rw [hcheq1]; exact hc) (by rw [hs1nb]; exact hcu)
                (by rw [hs1nb]; exact hne)
                (by intro hh; omega)
                (by rw [hs1pb, hpb]; exact hpp0)
                (Or.inr ⟨rfl, by
                  rw [hs1pb, hpb, hrgeq1]
                  exact hnd.not_mem_erase⟩)
              obtain ⟨hInv2, hcheq2, hrgeq2, hppch2, hmask2, hc21, hnbp2⟩ :=
                hdres
              rw [hs1pb, hpb] at hppch2 hmask2 hc21 hnbp2
              rw [hs1nb] at hmask2 hnbp2
              have hnbp2v : nblock (umm_assimilate_down
                  (umm_disconnect_from_free_list s pp) c 0).2 pp =
                  nblock s c := by
                rw [hnbp2]
                unfold orFreemask
                rw [if_pos rfl]
              rw [hc21]
              have hmv := HeapInv_memmove_body
                (umm_assimilate_down
                  (umm_disconnect_from_free_list s pp) c 0).2 pp
                (8 * c + 4) curV hInv2 hppch2
                (by rw [hnbp2v]; exact hcu)
                (by rw [hmask2]; omega)
              obtain ⟨hInv3, hcheq3, hrgeq3, hnb3⟩ := hmv
              have hbs2 : (bsV + prevV) % 65536 = bsV + prevV := by omega
              rw [hbs2]
              by_cases htail : blocks < bsV + prevV
              · rw [if_pos htail]
                exact HeapInv_tail _ pp blocks hInv3
                  (by rw [hcheq3]; exact hppch2)
                  (by rw [hnb3 pp hppch2, hnbp2v]; exact hcu)
                  (by rw [hnb3 pp hppch2, hmask2]; omega) hblocks1
              · rw [if_neg htail]
                with_reducible exact hInv3
            · rw [if_neg h4]
              by_cases h5 : blocks ≤ prevV + bsV + nextV
              · rw [if_pos h5]
                dsimp only
                have hnf : 32768 ≤ nblock s (nblock s c) := by
                  by_contra hcon
                  push_neg at hcon
                  rw [hnextV] at h5
                  rw [if_neg (by omega)] at h5
                  omega
                have hprev0 : prevV ≠ 0 := by
                  intro hh
                  exact h3 ⟨hh, by omega⟩
                have hpf : 32768 ≤ nblock s (pblock s c) := by
                  by_contra hcon
                  push_neg at hcon
                  rw [hprevV] at hprev0
                  rw [if_neg (by omega)] at hprev0
                  exact hprev0 rfl
                obtain ⟨pp, hpmem, hpm, hpb, hplt⟩ :=
                  chain_pred s (chainList s) 0 hch c hc
                have hppch : pp ∈ chainList s := by
                  rcases hpmem with rfl | h6
                  · exfalso
                    rw [hpb] at hpf
                    omega
                  · exact h6
                have hppring : pp ∈ ringList s :=
                  (hcoh pp hppch).mp (by rw [← hpb]; exact hpf)
                have hpp0 : pp ≠ 0 :=
                  (isRingB_mem s (ringList s) 0 hring pp hppring).1
                have hpreveq : prevV = c - pp := by
                  rw [hprevV, if_pos hpf, hpb]
                  exact usub16_eval c pp (by omega)
                    (by omega) (by have := rd16_lt s (8 * c + 2); omega)
                have hNfree : 32768 ≤ nblock s
                    (BLOCKNO_MASK (nblock s c)) := by
                  rw [hraw]
                  exact hnf
                have hNN0 : BLOCKNO_MASK (nblock s
                    (BLOCKNO_MASK (nblock s c))) ≠ 0 := by
                  intro hh
                  have h6 := isChainB_mask_zero s (chainList s) 0 hch _
                    hNch hh
                  rw [h6] at hNfree
                  omega
                have hsucc2 := isChainB_succ s (chainList s) 0 hch _
                  (List.mem_cons_of_mem 0 hNch) hNN0
                have hNNgt := hsucc2.2.1
                have hNNlt := hsucc2.2.2.2
                have hnexteq : nextV =
                    BLOCKNO_MASK (nblock s (BLOCKNO_MASK (nblock s c))) -
                      BLOCKNO_MASK (nblock s c) := by
                  rw [hnextV, if_pos hnf]
                  conv_lhs => rw [← hraw]
                  exact usub16_eval
                    (BLOCKNO_MASK (nblock s (BLOCKNO_MASK (nblock s c))))
                    (BLOCKNO_MASK (nblock s c)) (by omega) (by omega)
                    (by have := mask_lt (nblock s c); omega)
                obtain ⟨hInv1, hcheq1, hrgeq1, hc1, hnb1, hne1, hpb1,
                  hnbO1⟩ := HeapInv_assim_up s c hInvT hc hcu hne hnf
                rw [hpb1, hpb]
                have hppring1 : pp ∈ ringList (umm_assimilate_up s c) := by
                  rw [hrgeq1, hnd.mem_erase_iff]
                  exact ⟨by omega, hppring⟩
                obtain ⟨hInv2, hcheq2, hrgeq2⟩ :=
                  HeapInv_disc (umm_assimilate_up s c) pp hInv1 hppring1
                have hppc : c ≠ pp := by omega
                have hs2nb : nblock (umm_disconnect_from_free_list
                    (umm_assimilate_up s c) pp) c =
                    nblock (umm_assimilate_up s c) c :=
                  disc_nblock_other _ pp c hppc
                have hs2pb : pblock (umm_disconnect_from_free_list
                    (umm_assimilate_up s c) pp) c =
                    pblock (umm_assimilate_up s c) c := disc_pblock _ pp c
                have hInv1nd : (ringList (umm_assimilate_up s c)).Nodup :=
                  hInv1.2.2.2.2.1
                have hdres := HeapInv_assim_down
                  (umm_disconnect_from_free_list
                    (umm_assimilate_up s c) pp) c 0 hInv2
                  (by rw [hcheq2]; exact hc1)
                  (by rw [hs2nb, hnb1]; exact mask_lt _)
                  (by rw [hs2nb, hnb1, mask_mask]; exact hNN0)
                  (by intro hh; omega)
                  (by rw [hs2pb, hpb1, hpb]; exact hpp0)
                  (Or.inr ⟨rfl, by
                    rw [hs2pb, hpb1, hpb, hrgeq2]
                    exact hInv1nd.not_mem_erase⟩)
                obtain ⟨hInv3, hcheq3, hrgeq3, hppch3, hmask3, hc31,
                  hnbp3⟩ := hdres
                rw [hs2pb, hpb1, hpb] at hppch3 hmask3 hc31 hnbp3
                rw [hs2nb, hnb1] at hmask3 hnbp3
                have hnbp3v : nblock (umm_assimilate_down
                    (umm_disconnect_from_free_list
                      (umm_assimilate_up s c) pp) c 0).2 pp =
                    BLOCKNO_MASK (nblock s (BLOCKNO_MASK (nblock s c))) := by
                  rw [hnbp3]
                  unfold orFreemask
                  rw [if_pos rfl]
                rw [hc31]
                have hmv := HeapInv_memmove_body
                  (umm_assimilate_down
                    (umm_disconnect_from_free_list
                      (umm_assimilate_up s c) pp) c 0).2 pp
                  (8 * c + 4) curV hInv3 hppch3
                  (by rw [hnbp3v]; exact mask_lt _)
                  (by rw [hmask3, mask_mask]; omega)
                obtain ⟨hInv4, hcheq4, hrgeq4, hnb4⟩ := hmv
                have hbs2 : (bsV + (prevV + nextV)) % 65536 =
                    bsV + (prevV + nextV) := by omega
                rw [hbs2]
                by_cases htail : blocks < bsV + (prevV + nextV)
                · rw [if_pos htail]
                  exact HeapInv_tail _ pp blocks hInv4
                    (by rw [hcheq4]; exact hppch3)
                    (by rw [hnb4 pp hppch3, hnbp3v]; exact mask_lt _)
                    (by rw [hnb4 pp hppch3, hmask3, mask_mask]; omega)
                    hblocks1
                · rw [if_neg htail]
                  with_reducible exact hInv4
              · rw [if_neg h5]
                rcases hmc : umm_malloc_core s size pol with ⟨r, s1⟩
                rcases r with _ | newp
                · dsimp only
                  rw [if_neg (by omega : ¬ blocks < blocks)]
                  have hfl := umm_malloc_core_fail_eq s size pol
                    (by rw [hmc])
                  rw [hmc] at hfl
                  injection hfl with h6 h7
                  rw [h7]
                  exact hInvT
                · dsimp only
                  obtain ⟨cf, hcfring, hnpeq, hge, hcase⟩ :=
                    umm_malloc_core_shape s size pol hInvT newp s1 hmc
                  subst hnpeq
                  rcases ring_sz_facts s hInvT cf hcfring with
                    ⟨hlt1, hlt2, hflagcf, hchcf⟩
                  have hccf : c ≠ cf := by
                    intro hh
                    rw [hh] at hcu
                    omega
                  have hcfmne : BLOCKNO_MASK (nblock s cf) ≠ 0 := by omega
                  rw [if_neg (by omega : ¬ blocks < blocks)]
                  rcases hcase with ⟨hbe, hs1⟩ | ⟨hltk, hs1⟩
                  · subst hs1
                    obtain ⟨hInv1, hcheq1, hrgeq1⟩ :=
                      HeapInv_disc s cf hInvT hcfring
                    have hcfm1 : BLOCKNO_MASK (nblock
                        (umm_disconnect_from_free_list s cf) cf) =
                        BLOCKNO_MASK (nblock s cf) := by
                      rw [disc_nblock_c, mask_mask]
                    have hcfch1 : cf ∈ chainList
                        (umm_disconnect_from_free_list s cf) := by
                      rw [hcheq1]
                      exact hchcf
                    have hcfu1 : nblock
                        (umm_disconnect_from_free_list s cf) cf < 32768 := by
                      rw [disc_nblock_c]
                      exact mask_lt _
                    have hmv := HeapInv_memmove_body
                      (umm_disconnect_from_free_list s cf) cf
                      (8 * c + 4) curV hInv1 hcfch1 hcfu1
                      (by rw [hcfm1]; omega)
                    obtain ⟨hInv3, hcheq3, hrgeq3, hnb3⟩ := hmv
                    have hfc := HeapInv_free_core _ c hInv3
                      (by rw [hcheq3, hcheq1]; exact hc)
                      (by rw [hnb3 c (by rw [hcheq1]; exact hc),
                        disc_nblock_other s cf c hccf]; exact hcu)
                      (by rw [hnb3 c (by rw [hcheq1]; exact hc),
                        disc_nblock_other s cf c hccf]; exact hne)
                    with_reducible exact hfc
                  · rw [← hblocks] at hs1 hltk
                    subst hs1
                    have hn1ch6 : cf + blocks ∉ chainList s := by
                      intro hin
                      have h6 := chain_gap_aux s (chainList s) 0 hch cf
                        (List.mem_cons_of_mem 0 hchcf) hcfmne
                        (cf + blocks) hin
                      omega
                    have hcn1 : c ≠ cf + blocks := fun hh =>
                      hn1ch6 (hh ▸ hc)
                    obtain ⟨hInv1, hcheq1, hrgeq1⟩ :=
                      HeapInv_split_branch s cf blocks hInvT hcfring
                      hblocks1 (by omega)
                    have hT0c : nblock
                        (umm_malloc_split_branch s cf blocks) cf =
                        cf + blocks := by
                      unfold umm_malloc_split_branch
                      dsimp only
                      simp only [nblock_setNfree, nblock_setPfree]
                      rw [split_nblock_c s cf blocks 32768 (by omega)]
                      have := mask_lt (nblock s cf)
                      omega
                    have hT0oc : nblock
                        (umm_malloc_split_branch s cf blocks) c =
                        nblock s c := by
                      unfold umm_malloc_split_branch
                      dsimp only
                      simp only [nblock_setNfree, nblock_setPfree]
                      exact split_nblock_other s cf blocks 32768 c hccf hcn1
                    have hcfch1 : cf ∈ chainList
                        (umm_malloc_split_branch s cf blocks) := by
                      rw [hcheq1]
                      exact insertAfterL_mem_of cf (cf + blocks)
                        (chainList s) cf hchcf
                    have hcfm1 : BLOCKNO_MASK (nblock
                        (umm_malloc_split_branch s cf blocks) cf) =
                        cf + blocks := by
                      rw [hT0c]
                      have := mask_lt (nblock s cf)
                      unfold BLOCKNO_MASK
                      omega
                    have hmv := HeapInv_memmove_body
                      (umm_malloc_split_branch s cf blocks) cf
                      (8 * c + 4) curV hInv1 hcfch1
                      (by rw [hT0c]; have := mask_lt (nblock s cf); omega)
                      (by rw [hcfm1]; omega)
                    obtain ⟨hInv3, hcheq3, hrgeq3, hnb3⟩ := hmv
                    have hcch1 : c ∈ chainList
                        (umm_malloc_split_branch s cf blocks) := by
                      rw [hcheq1]
                      exact insertAfterL_mem_of cf (cf + blocks)
                        (chainList s) c hc
                    have hnb3c : nblock (memmove
                        (umm_malloc_split_branch s cf blocks)
                        (8 * cf + 4) (8 * c + 4) curV) c = nblock s c := by
                      rw [hnb3 c hcch1, hT0oc]
                    have hfc := HeapInv_free_core _ c hInv3
                      (by rw [hcheq3]; exact hcch1)
                      (by rw [hnb3c]; exact hcu)
                      (by rw [hnb3c]; exact hne)
                    with_reducible exact hfc

theorem HeapInv_init (size : Nat) (h3 : 3 ≤ size / 8 % 65536)
    (h15 : size / 8 % 65536 ≤ 32767) : HeapInv (umm_init_heap size) := by
  unfold umm_init_heap
  dsimp only
  set nb := size / 8 % 65536 with hnb
  set s0 : HeapState := { mem := fun _ => 0, numblocks := nb } with hs0
  set t := setPblock (setNblock (setPfree (setNfree (setNblock s0 0 1) 0 1)
    0 1) 1 (orFreemask (nb - 1) 32768)) (nb - 1) 1 with ht
  have hz_nb : ∀ j, nblock s0 j = 0 := by
    intro j
    unfold nblock rd16 rd8
    simp [hs0]
  have hz_pb : ∀ j, pblock s0 j = 0 := by
    intro j
    unfold pblock rd16 rd8
    simp [hs0]
  have hz_nf : ∀ j, nfree s0 j = 0 := by
    intro j
    unfold nfree rd16 rd8
    simp [hs0]
  have hz_pf : ∀ j, pfree s0 j = 0 := by
    intro j
    unfold pfree rd16 rd8
    simp [hs0]
  have hor : orFreemask (nb - 1) 32768 = nb - 1 + 32768 := by
    unfold orFreemask BLOCKNO_MASK
    rw [if_neg (by omega)]
    omega
  have hnum : t.numblocks = nb := by
    rw [ht, setPblock_numblocks, setNblock_numblocks, setPfree_numblocks,
      setNfree_numblocks, setNblock_numblocks]
  have hNB : ∀ j, nblock t j =
      if j = 1 then nb - 1 + 32768 else if j = 0 then 1 else 0 := by
    intro j
    rw [ht]
    simp only [nblock_setPblock, nblock_setNblock, nblock_setPfree,
      nblock_setNfree, hz_nb, hor]
    rcases eq_or_ne j 1 with h | h
    · subst h
      rw [if_pos rfl, if_pos rfl]
      omega
    · rw [if_neg h, if_neg h]
  have hPB : ∀ j, pblock t j = if j = nb - 1 then 1 else 0 := by
    intro j
    rw [ht]
    simp only [pblock_setPblock, pblock_setNblock, pblock_setPfree,
      pblock_setNfree, hz_pb]
  have hNF : ∀ j, nfree t j = if j = 0 then 1 else 0 := by
    intro j
    rw [ht]
    simp only [nfree_setPblock, nfree_setNblock, nfree_setPfree,
      nfree_setNfree, hz_nf]
  have hPF : ∀ j, pfree t j = if j = 0 then 1 else 0 := by
    intro j
    rw [ht]
    simp only [pfree_setPblock, pfree_setNblock, pfree_setPfree,
      pfree_setNfree, hz_pf]
  have hmask1 : BLOCKNO_MASK (nblock t 0) = 1 := by
    rw [hNB 0, if_neg (by omega), if_pos rfl]
    rfl
  have hmaskB1 : BLOCKNO_MASK (nblock t 1) = nb - 1 := by
    rw [hNB 1, if_pos rfl]
    unfold BLOCKNO_MASK
    omega
  have hmaskL : BLOCKNO_MASK (nblock t (nb - 1)) = 0 := by
    rw [hNB (nb - 1), if_neg (by omega), if_neg (by omega)]
    rfl
  have hch : isChainB t 0 [1, nb - 1] = true := by
    unfold isChainB
    unfold isChainB
    unfold isChainB
    simp only [Bool.and_eq_true, decide_eq_true_eq]
    refine ⟨⟨⟨⟨hmask1, by omega⟩, by rw [hnum]; omega⟩,
      by rw [hPB 1, if_neg (by omega)]⟩,
      ⟨⟨⟨hmaskB1, by omega⟩, by rw [hnum]; omega⟩,
        by rw [hPB (nb - 1), if_pos rfl]⟩,
      hmaskL, by rw [hnum]⟩
  have hrg : isRingB t 0 [1] = true := by
    unfold isRingB
    unfold isRingB
    simp only [Bool.and_eq_true, decide_eq_true_eq]
    refine ⟨⟨⟨⟨by rw [hNF 0, if_pos rfl], by omega⟩, by rw [hnum]; omega⟩,
      by rw [hPF 1, if_neg (by omega)]⟩,
      by rw [hNF 1, if_neg (by omega)]⟩
  have hcl : chainList t = [1, nb - 1] := by
    unfold chainList
    exact chainAux_of_isChainB t [1, nb - 1] 0 65536 hch (by norm_num)
  have hrl : ringList t = [1] := by
    unfold ringList
    exact ringAux_of_isRingB t [1] 0 65536 hrg (by norm_num)
  refine ⟨by omega, by omega, by rw [hcl]; exact hch, by rw [hrl]; exact hrg,
    by rw [hrl]; exact List.nodup_singleton 1, ?_, ?_, ?_, ?_, ?_⟩
  · rw [hNB 0, if_neg (by omega), if_pos rfl]
    omega
  · rw [hnum, hNB (nb - 1), if_neg (by omega), if_neg (by omega)]
    omega
  · intro x hx
    rw [hcl] at hx
    rw [hrl]
    simp only [List.mem_cons, List.mem_singleton, List.not_mem_nil,
      or_false] at hx
    rcases hx with rfl | rfl
    · rw [hNB 1, if_pos rfl]
      simp only [List.mem_singleton]
      exact ⟨fun _ => trivial, fun _ => by omega⟩
    · rw [hNB (nb - 1), if_neg (by omega), if_neg (by omega)]
      simp only [List.mem_singleton]
      exact ⟨fun h => by omega, fun h => by omega⟩
  · intro x hx
    rw [hrl] at hx
    rw [hcl]
    simp only [List.mem_singleton] at hx
    subst hx
    exact List.mem_cons_self 1 _
  · intro x hx hf
    rw [hcl] at hx
    simp only [List.mem_cons, List.mem_singleton, List.not_mem_nil,
      or_false] at hx
    rcases hx with rfl | rfl
    · rw [hmaskB1, hNB (nb - 1), if_neg (by omega), if_neg (by omega)]
      omega
    · rw [hNB (nb - 1), if_neg (by omega), if_neg (by omega)] at hf
      omega

theorem HeapInv_reach (s : HeapState) (h : Reach s) : HeapInv s := by
  induction h with
  | init size h3 h15 => exact HeapInv_init size h3 h15
  | mallocStep s size pol h ih => exact HeapInv_malloc s size pol ih
  | freeStep s ptr h hv ih => exact HeapInv_free s ptr ih hv
  | reallocStep s ptr size pol h hv ih =>
    exact HeapInv_realloc s ptr size pol ih hv

/-- Claim C1: in every heap state reachable from init_heap by any
sequence of allocate, free and reallocate operations, no two
chain-adjacent blocks are both free: if chain block i has FREE_MASK set
on its next_block word, the block at next_block(i) & INDEX_MASK does not
have FREE_MASK set on its own next_block word. -/
theorem C1_no_adjacent_free (s : HeapState) (i : Nat) (h : Reach s)
    (hi : i ∈ chainList s) (hf : 32768 ≤ nblock s i) :
    nblock s (BLOCKNO_MASK (nblock s i)) < 32768 :=
  (HeapInv_reach s h).2.2.2.2.2.2.2.2.2 i hi hf

theorem C1_no_adjacent_free_witness :
    nblock (umm_malloc (umm_init_heap 128) 5 Policy.bestFit).2
      (BLOCKNO_MASK
        (nblock (umm_malloc (umm_init_heap 128) 5 Policy.bestFit).2 3)) <
      32768 :=
  C1_no_adjacent_free (umm_malloc (umm_init_heap 128) 5 Policy.bestFit).2 3
    (Reach.mallocStep (umm_init_heap 128) 5 Policy.bestFit
      (Reach.init 128 (by decide) (by decide)))
    (by decide) (by decide)
